import Mathlib

/-!
# go-my-posh renderer: a shallow embedding of `renderer.go`

Go strings are modelled as lists of code points (`Str`), which is what the
functions of `strings` and `regexp` see of a string that is valid UTF-8; the Go
functions of `renderer.go` become pure functions on an explicit `Renderer`
record, and a method that changes the renderer returns the new one.

Three things the source takes from libraries are handled as follows.

* `regexp` (leftmost-first, backtracking-priority semantics): the two patterns
  of the file are written as terms of a small regular-expression syntax `Re`
  and run by `Re.run`, which lists the ways a pattern can match at the start of
  a string in the order in which a backtracking search tries them.
* `color.HEX(s, isBackground).Code()` (package gookit/color): a parameter
  `hex` of every function that resolves a colour.
* the `norm.NFD` segment counter of `lenWithoutANSI`: a parameter `count`.

An `int` is an integer with the operations wrapping around at 64 bits
(`wrapInt`).  A method that prints (`setConsoleTitle`, `creset`, `clearEOL`,
`print`) is modelled by the bytes it writes to the standard output.

The definitions come first: the model of the source, then the direct readings
of the two patterns and the other notions the statements need.  The lemmas
follow, and the theorems for the claims of the specification stand at the end.
-/

namespace GoMyPosh

/-- A Go string, as the list of its code points. -/
abbrev Str := List Char

/-! ## Regular expressions -/

/-- Capture groups recorded so far: group number and captured text, latest first. -/
abbrev Caps := List (Nat × Str)

/-- One way of matching: the text still unread and the capture groups. -/
abbrev Res := List (Str × Caps)

/-- The part of Go's regexp syntax that the two patterns of `renderer.go` use. -/
inductive Re where
  | eps : Re
  | cls (p : Char → Bool) : Re
  | cat (a b : Re) : Re
  | alt (a b : Re) : Re
  | star (a : Re) : Re
  | lazyStar (a : Re) : Re
  | cap (i : Nat) (a : Re) : Re

/-- The loop of `x*` (greedy: one more round is tried first) and of `x*?`
(lazy: leaving the loop is tried first); `n` bounds the number of rounds. -/
def starLoop (greedy : Bool) (step : Str → Caps → Res) : Nat → Str → Caps → Res
  | 0, s, c => [(s, c)]
  | n + 1, s, c =>
    if greedy then
      (step s c).flatMap (fun p => starLoop greedy step n p.1 p.2) ++ [(s, c)]
    else
      (s, c) :: (step s c).flatMap (fun p => starLoop greedy step n p.1 p.2)

/-- All the ways in which `r` matches a prefix of `s`, in the order of a
backtracking search (leftmost-first: the head of the list is the match that Go
reports at this position).  Every starred sub-pattern of `renderer.go` reads at
least one character per round, so `s.length` rounds are all there can be. -/
def Re.run : Re → Str → Caps → Res
  | .eps, s, c => [(s, c)]
  | .cls _, [], _ => []
  | .cls p, x :: t, c => if p x then [(t, c)] else []
  | .cat a b, s, c => (Re.run a s c).flatMap (fun p => Re.run b p.1 p.2)
  | .alt a b, s, c => Re.run a s c ++ Re.run b s c
  | .star a, s, c => starLoop true (Re.run a) s.length s c
  | .lazyStar a, s, c => starLoop false (Re.run a) s.length s c
  | .cap i a, s, c =>
    (Re.run a s c).map (fun p => (p.1, (i, s.take (s.length - p.1.length)) :: p.2))

/-- The pattern `x?` (greedy). -/
def Re.opt (a : Re) : Re := .alt a .eps

/-- The pattern `x+` (greedy). -/
def Re.plus (a : Re) : Re := .cat a (.star a)

/-- The literal character `ch`. -/
def Re.lit (ch : Char) : Re := .cls (fun x => x == ch)

/-- The pattern `x{0,n}` (greedy), that is `(x(x(...)?)?)?`. -/
def Re.upto (a : Re) : Nat → Re
  | 0 => .eps
  | n + 1 => Re.opt (.cat a (Re.upto a n))

/-- The pattern `x{lo,hi}` (greedy): `lo` copies of `x`, then `x{0,hi-lo}`. -/
def Re.rep (a : Re) : Nat → Nat → Re
  | 0, hi => Re.upto a hi
  | lo + 1, hi => .cat a (Re.rep a lo (hi - 1))

/-- Range test `lo ≤ x ≤ hi` on code points. -/
def inRange (lo hi x : Char) : Bool := decide (lo.toNat ≤ x.toNat) && decide (x.toNat ≤ hi.toNat)

/-- The leftmost-first match of `r` at the start of `s`, if there is one. -/
def Re.matchAt (r : Re) (s : Str) : Option (Str × Caps) := (Re.run r s []).head?

/-- The text of capture group `i`; the empty string when the group took no part. -/
def group (c : Caps) (i : Nat) : Str := (c.lookup i).getD []

/-- One element of the result of `FindAllStringSubmatch` for a pattern with
three groups: `m[0]`, `m[1]`, `m[2]`, `m[3]`. -/
structure Submatch where
  m0 : Str
  m1 : Str
  m2 : Str
  m3 : Str
  deriving DecidableEq, Repr

/-- Scan of `FindAllStringSubmatch(text, -1)`: at each position take the
leftmost-first match and go on behind it, or move one character on. -/
def findAllAux (r : Re) : Nat → Str → List Submatch
  | 0, _ => []
  | _ + 1, [] => []
  | n + 1, x :: t =>
    match Re.matchAt r (x :: t) with
    | some (rest, c) =>
      if rest.length < (x :: t).length then
        { m0 := (x :: t).take ((x :: t).length - rest.length),
          m1 := group c 1, m2 := group c 2, m3 := group c 3 } :: findAllAux r n rest
      else findAllAux r n t
    | none => findAllAux r n t

/-- Model of `rex.FindAllStringSubmatch(text, -1)`. -/
def FindAllStringSubmatch (r : Re) (text : Str) : List Submatch :=
  findAllAux r text.length text

/-- Scan of `re.ReplaceAllString(str, "")`: matched stretches are dropped, every
other character is kept. -/
def replaceAllAux (r : Re) : Nat → Str → Str
  | 0, s => s
  | _ + 1, [] => []
  | n + 1, x :: t =>
    match Re.matchAt r (x :: t) with
    | some (rest, _) =>
      if rest.length < (x :: t).length then replaceAllAux r n rest
      else x :: replaceAllAux r n t
    | none => x :: replaceAllAux r n t

/-- Model of `re.ReplaceAllString(str, "")`. -/
def ReplaceAllStringEmpty (r : Re) (str : Str) : Str :=
  replaceAllAux r str.length str

/-! ## `strings` -/

/-- Model of `strings.Split(s, sep)[0]`: the text before the first occurrence
of `sep`, all of `s` when there is none.  (For an empty `sep` Go splits after
each character; `write` only passes a whole tag match, which is not empty.) -/
def splitHead : Str → Str → Str
  | [], _ => []
  | x :: t, sep =>
    if sep = [] then [x]
    else if sep.isPrefixOf (x :: t) then []
    else x :: splitHead t sep

/-- Model of `strings.Replace(s, old, "", 1)`: the first occurrence of `old` is
removed (an empty `old` matches at the start and removes nothing). -/
def replaceFirstEmpty : Str → Str → Str
  | [], _ => []
  | x :: t, old =>
    if old.isPrefixOf (x :: t) then (x :: t).drop old.length
    else x :: replaceFirstEmpty t old

/-- Model of `strings.ReplaceAll(s, old, "")` for a non-empty `old`. -/
def removeAllAux (old : Str) : Nat → Str → Str
  | 0, s => s
  | _ + 1, [] => []
  | n + 1, x :: t =>
    if old ≠ [] ∧ old.isPrefixOf (x :: t) then removeAllAux old n ((x :: t).drop old.length)
    else x :: removeAllAux old n t

/-- Model of `strings.ReplaceAll(s, old, "")`. -/
def ReplaceAllEmpty (s old : Str) : Str := removeAllAux old s.length s

/-! ## `fmt` -/

/-- An operand of `Sprintf`. -/
inductive Arg where
  | str (s : Str) : Arg
  | int (i : Int) : Arg

/-- Decimal digits of an integer, as `%d` prints it. -/
def itoa (i : Int) : Str :=
  if i < 0 then '-' :: Nat.toDigits 10 i.natAbs else Nat.toDigits 10 i.natAbs

/-- What Go prints for an operand under a verb that does not fit it. -/
def badVerb (v : Char) : Arg → Str
  | .str s => "%!".toList ++ [v] ++ "(string=".toList ++ s ++ ")".toList
  | .int i => "%!".toList ++ [v] ++ "(int=".toList ++ itoa i ++ ")".toList

/-- Operands left over at the end of the format. -/
def extraArgs : List Arg → Str
  | [] => []
  | .str s :: rest =>
    "string=".toList ++ s ++ (if rest.isEmpty then [] else ", ".toList ++ extraArgs rest)
  | .int i :: rest =>
    "int=".toList ++ itoa i ++ (if rest.isEmpty then [] else ", ".toList ++ extraArgs rest)

/-- Model of `fmt.Sprintf` for the verbs the templates use: `%%`, `%s` with a
string and `%d` with an integer, without flags or widths.  A missing operand, a
left-over operand and a verb at the end of the format are rendered as Go renders
them; every other verb is rendered as Go renders a verb that does not fit its
operand.  The templates of `init` reach none of these cases. -/
def Sprintf : Str → List Arg → Str
  | [], [] => []
  | [], a :: rest => "%!(EXTRA ".toList ++ extraArgs (a :: rest) ++ ")".toList
  | [x], args => if x = '%' then "%!(NOVERB)".toList ++ Sprintf [] args else x :: Sprintf [] args
  | x :: v :: t, args =>
    if x = '%' then
      if v = '%' then '%' :: Sprintf t args
      else
        match args with
        | [] => "%!".toList ++ [v] ++ "(MISSING)".toList ++ Sprintf t []
        | .str s :: rest =>
          if v = 's' then s ++ Sprintf t rest else badVerb v (.str s) ++ Sprintf t rest
        | .int i :: rest =>
          if v = 'd' then itoa i ++ Sprintf t rest else badVerb v (.int i) ++ Sprintf t rest
    else x :: Sprintf (v :: t) args

/-! ## The colour table -/

/-- The map `colorMap`: name, foreground code, background code. -/
def colorMap : List (Str × Str × Str) :=
  [ ("black".toList, "30".toList, "40".toList),
    ("red".toList, "31".toList, "41".toList),
    ("green".toList, "32".toList, "42".toList),
    ("yellow".toList, "33".toList, "43".toList),
    ("blue".toList, "34".toList, "44".toList),
    ("magenta".toList, "35".toList, "45".toList),
    ("cyan".toList, "36".toList, "46".toList),
    ("white".toList, "37".toList, "47".toList),
    ("default".toList, "39".toList, "49".toList),
    ("darkGray".toList, "90".toList, "100".toList),
    ("lightRed".toList, "91".toList, "101".toList),
    ("lightGreen".toList, "92".toList, "102".toList),
    ("lightYellow".toList, "93".toList, "103".toList),
    ("lightBlue".toList, "94".toList, "104".toList),
    ("lightMagenta".toList, "95".toList, "105".toList),
    ("lightCyan".toList, "96".toList, "106".toList),
    ("lightWhite".toList, "97".toList, "107".toList) ]

/-- Model of `getColorFromName`: `none` stands for the returned error. -/
def getColorFromName (colorName : Str) (isBackground : Bool) : Option Str :=
  match colorMap.lookup colorName with
  | some colorCodes => some (if isBackground then colorCodes.2 else colorCodes.1)
  | none => none

/-! ## The renderer -/

/-- The record `formats`; `rANSI` holds the pattern in parsed form. -/
structure formats where
  single : Str
  full : Str
  transparent : Str
  linechange : Str
  left : Str
  right : Str
  rANSI : Re
  title : Str
  creset : Str
  clearOEL : Str

/-- The record `Renderer`, with the buffer's content in place of the pointer. -/
structure Renderer where
  Buffer : Str
  formats : formats
  shell : Str

/-- The constant `Transparent`. -/
def Transparent : Str := "transparent".toList

/-- The constant `zsh`. -/
def zsh : Str := "zsh".toList

/-- The constant `bash`. -/
def bash : Str := "bash".toList

/-- The class `[a-zA-Z\d]`. -/
def isAlnum (x : Char) : Bool := inRange 'a' 'z' x || inRange 'A' 'Z' x || inRange '0' '9' x

/-- The class `\d`. -/
def isDigit (x : Char) : Bool := inRange '0' '9' x

/-- The class `[[\]()#;?]`. -/
def isIntro (x : Char) : Bool :=
  x == '[' || x == ']' || x == '(' || x == ')' || x == '#' || x == ';' || x == '?'

/-- The class `[\dA-PRZcf-ntqry=><~]`. -/
def isFinal (x : Char) : Bool :=
  inRange '0' '9' x || inRange 'A' 'P' x || x == 'R' || x == 'Z' || x == 'c' || inRange 'f' 'n' x
    || x == 't' || x == 'q' || x == 'r' || x == 'y' || x == '=' || x == '>' || x == '<' || x == '~'

/-- The class `[\u001B\u009B]`. -/
def isEscStart (x : Char) : Bool := x == Char.ofNat 0x1B || x == Char.ofNat 0x9B

/-- The first alternative of `rANSI`: `(?:[a-zA-Z\d]*(?:;[a-zA-Z\d]*)*)?\u0007`. -/
def rANSIBell : Re :=
  .cat (Re.opt (.cat (.star (.cls isAlnum))
                     (.star (.cat (Re.lit ';') (.star (.cls isAlnum))))))
       (Re.lit (Char.ofNat 7))

/-- The repeated part `;\d{0,4}` of the second alternative of `rANSI`. -/
def rANSIParam : Re := .cat (Re.lit ';') (Re.rep (.cls isDigit) 0 4)

/-- The second alternative of `rANSI`: `(?:\d{1,4}(?:;\d{0,4})*)?[\dA-PRZcf-ntqry=><~]`. -/
def rANSIFinal : Re :=
  .cat (Re.opt (.cat (Re.rep (.cls isDigit) 1 4) (.star rANSIParam))) (.cls isFinal)

/-- The pattern `rANSI` of `init`:
`[\u001B\u009B][[\]()#;?]*(?:(?:...)?\u0007|(?:...)?[\dA-PRZcf-ntqry=><~])`. -/
def rANSI : Re :=
  .cat (.cls isEscStart) (.cat (.star (.cls isIntro)) (.alt rANSIBell rANSIFinal))

/-- Model of `Renderer.init`. -/
def init (r : Renderer) (shell : Str) : Renderer :=
  if shell = zsh then
    { Buffer := r.Buffer, shell := shell,
      formats :=
        { rANSI := rANSI,
          single := "%%\x7b\x1b[%sm%%\x7d%s%%\x7b\x1b[0m%%\x7d".toList,
          full := "%%\x7b\x1b[%sm\x1b[%sm%%\x7d%s%%\x7b\x1b[0m%%\x7d".toList,
          transparent := "%%\x7b\x1b[%s;49m\x1b[7m%%\x7d%s%%\x7b\x1b[m\x1b[0m%%\x7d".toList,
          linechange := "%%\x7b\x1b[%d%s%%\x7d".toList,
          left := "%%\x7b\x1b[%dC%%\x7d".toList,
          right := "%%\x7b\x1b[%dD%%\x7d".toList,
          title := "%%\x7b\x1b]0;%s\x07%%\x7d".toList,
          creset := "%\x7b\x1b[0m%\x7d".toList,
          clearOEL := "%\x7b\x1b[K%\x7d".toList } }
  else if shell = bash then
    { Buffer := r.Buffer, shell := shell,
      formats :=
        { rANSI := rANSI,
          single := "\\[\x1b[%sm\\]%s\\[\x1b[0m\\]".toList,
          full := "\\[\x1b[%sm\x1b[%sm\\]%s\\[\x1b[0m\\]".toList,
          transparent := "\\[\x1b[%s;49m\x1b[7m\\]%s\\[\x1b[m\x1b[0m\\]".toList,
          linechange := "\\[\x1b[%d%s\\]".toList,
          left := "\\[\x1b[%dC\\]".toList,
          right := "\\[\x1b[%dD\\]".toList,
          title := "\\[\x1b]0;%s\x07\\]".toList,
          creset := "\\[\x1b[0m\\]".toList,
          clearOEL := "\\[\x1b[K\\]".toList } }
  else
    { Buffer := r.Buffer, shell := shell,
      formats :=
        { rANSI := rANSI,
          single := "\x1b[%sm%s\x1b[0m".toList,
          full := "\x1b[%sm\x1b[%sm%s\x1b[0m".toList,
          transparent := "\x1b[%s;49m\x1b[7m%s\x1b[m\x1b[0m".toList,
          linechange := "\x1b[%d%s".toList,
          left := "\x1b[%dC".toList,
          right := "\x1b[%dD".toList,
          title := "\x1b]0;%s\x07".toList,
          creset := "\x1b[0m".toList,
          clearOEL := "\x1b[K".toList } }

/-- The class `[#A-Za-z0-9]`. -/
def isTagTok (x : Char) : Bool :=
  x == '#' || inRange 'A' 'Z' x || inRange 'a' 'z' x || inRange '0' '9' x

/-- The end of the pattern of `write`: `<\/>`. -/
def rexCloser : Re := .cat (Re.lit '<') (.cat (Re.lit '/') (Re.lit '>'))

/-- The pattern of `write` from the third group on: `(.*?)<\/>`; the dot does
not match a line feed. -/
def rexInner : Re := .cat (.cap 3 (.lazyStar (.cls (fun x => x != '\n')))) rexCloser

/-- The pattern of `write` from the closing bracket of the tag on: `>(.*?)<\/>`. -/
def rexGt : Re := .cat (Re.lit '>') rexInner

/-- The pattern of `write` from the background token on:
`(?:,([#A-Za-z0-9]+))?>(.*?)<\/>`. -/
def rexBg : Re := .cat (Re.opt (.cat (Re.lit ',') (.cap 2 (Re.plus (.cls isTagTok))))) rexGt

/-- The pattern of `write` from the foreground token on:
`([#A-Za-z0-9]+)?(?:,([#A-Za-z0-9]+))?>(.*?)<\/>`. -/
def rexFg : Re := .cat (Re.opt (.cap 1 (Re.plus (.cls isTagTok)))) rexBg

/-- The pattern of `write`: `<([#A-Za-z0-9]+)?(?:,([#A-Za-z0-9]+))?>(.*?)<\/>`. -/
def rex : Re := .cat (Re.lit '<') rexFg

/-! ## Direct readings of the two patterns, used to reason about `Re.run` -/

/-- What a greedy `[p]*` leaves unread, in the order of the search: the
longest run first. -/
def greedyTails (p : Char → Bool) : Str → List Str
  | [] => [[]]
  | x :: t => if p x then greedyTails p t ++ [x :: t] else [x :: t]

/-- What a lazy `[p]*?` leaves unread, in the order of the search: the
shortest run first. -/
def lazyTails (p : Char → Bool) : Str → List Str
  | [] => [[]]
  | x :: t => (x :: t) :: (if p x then lazyTails p t else [])

/-- The closing tag `</>`. -/
def closer : Str := ['<', '/', '>']

/-- Reading `(.*?)<\/>` directly: the text before the first `</>`, which must
not hold a line feed, and the text behind that `</>`. -/
def closerSplit : Str → Option (Str × Str)
  | [] => none
  | x :: t =>
    if closer.isPrefixOf (x :: t) then some ([], (x :: t).drop 3)
    else if x = '\n' then none
    else (closerSplit t).map (fun p => (x :: p.1, p.2))

/-- Reading the pattern of `write` directly at the start of `s`: the text
behind the tag and the three groups. -/
def tagAt (s : Str) : Option (Str × Str × Str × Str) :=
  match s with
  | [] => none
  | x :: t =>
    if x = '<' then
      match t.dropWhile isTagTok with
      | [] => none
      | y :: t2 =>
        if y = '>' then
          (closerSplit t2).map (fun p => (p.2, t.takeWhile isTagTok, [], p.1))
        else if y = ',' then
          if t2.takeWhile isTagTok = [] then none
          else
            match t2.dropWhile isTagTok with
            | [] => none
            | z :: t4 =>
              if z = '>' then
                (closerSplit t4).map
                  (fun p => (p.2, t.takeWhile isTagTok, t2.takeWhile isTagTok, p.1))
              else none
        else none
    else none

/-- Reading of `\d{0,k}(?:;\d{0,4})*` over the whole of a string: groups of at
most four digits, separated by `;`, the first one of at most `k` digits. -/
def sgrTail : Nat → Str → Bool
  | _, [] => true
  | k, x :: t =>
    if x = ';' then sgrTail 4 t
    else if isDigit x then
      match k with
      | 0 => false
      | k' + 1 => sgrTail k' t
    else false

/-- The codes that the second alternative of `rANSI` takes in whole in front of
a final letter: the empty code and the codes of the form `\d{1,4}(?:;\d{0,4})*`,
such as `31`, `100` or `38;2;255;87;51`. -/
def isSgrCode : Str → Bool
  | [] => true
  | x :: t => isDigit x && sgrTail 3 t

/-- The escape character. -/
def ESC : Char := Char.ofNat 0x1B

/-- The bell character. -/
def BEL : Char := Char.ofNat 7

/-- The marker that a dialect puts in front of a run of escape sequences. -/
def wrapOpen (shell : Str) : Str :=
  if shell = zsh then "%\x7b".toList else if shell = bash then "\\[".toList else []

/-- The marker that a dialect puts behind a run of escape sequences. -/
def wrapClose (shell : Str) : Str :=
  if shell = zsh then "%\x7d".toList else if shell = bash then "\\]".toList else []

/-- The colour pairs for which none of the three branches of `writeColoredText`
applies: an empty foreground with a background that is neither empty nor
`transparent`. -/
def dropsText (background foreground : Str) : Prop :=
  foreground = [] ∧ background ≠ [] ∧ background ≠ Transparent

/-- Text that holds no character that starts an escape sequence, no bell, and
neither marker of the dialect. -/
def cleanText (shell : Str) (t : Str) : Prop :=
  (∀ x ∈ t, isEscStart x = false ∧ x ≠ BEL)
    ∧ (shell = zsh → ¬ "%\x7b".toList <:+: t ∧ ¬ "%\x7d".toList <:+: t)
    ∧ (shell = bash → ¬ "\\[".toList <:+: t ∧ ¬ "\\]".toList <:+: t)

instance (background foreground : Str) : Decidable (dropsText background foreground) := by
  unfold dropsText; infer_instance

instance (shell t : Str) : Decidable (cleanText shell t) := by
  unfold cleanText; infer_instance

/-- What `write` is to hand to `writeColoredText` when no tag is skipped, read
off the text from left to right: for each tag the text since the previous tag
with the ambient colours and then the inner text with the tag's colours (an
empty side being the ambient one), and at last the text behind the last tag
with the ambient colours.  The entries are background, foreground, text; `pre`
is the text read since the previous tag. -/
def emissionsAux (bg fg : Str) : Nat → Str → Str → List (Str × Str × Str)
  | 0, pre, s => [(bg, fg, pre ++ s)]
  | _ + 1, pre, [] => [(bg, fg, pre)]
  | n + 1, pre, x :: t =>
    match Re.matchAt rex (x :: t) with
    | some (rest, c) =>
      if rest.length < (x :: t).length then
        (bg, fg, pre)
          :: (if group c 2 = [] then bg else group c 2, if group c 1 = [] then fg else group c 1,
              group c 3)
          :: emissionsAux bg fg n [] rest
      else emissionsAux bg fg n (pre ++ [x]) t
    | none => emissionsAux bg fg n (pre ++ [x]) t

/-- The emissions of `write(bg, fg, text)` when no tag is skipped. -/
def emissions (bg fg text : Str) : List (Str × Str × Str) :=
  emissionsAux bg fg text.length [] text

/-- The text with every tag replaced by its inner text, as
`rex.ReplaceAllString(text, "${3}")` computes it. -/
def tagsRemovedAux : Nat → Str → Str
  | 0, s => s
  | _ + 1, [] => []
  | n + 1, x :: t =>
    match Re.matchAt rex (x :: t) with
    | some (rest, c) =>
      if rest.length < (x :: t).length then group c 3 ++ tagsRemovedAux n rest
      else x :: tagsRemovedAux n t
    | none => x :: tagsRemovedAux n t

/-- The text with the delimiters of every tag removed and the inner texts kept. -/
def tagsRemoved (text : Str) : Str := tagsRemovedAux text.length text

/-- The text of a tag with the groups `g1`, `g2`, `g3`. -/
def tagText (g1 g2 g3 : Str) : Str :=
  '<' :: g1 ++ (if g2 = [] then [] else ',' :: g2) ++ '>' :: g3 ++ closer

section Resolve

variable (hex : Str → Bool → Str)

/-- Model of `Renderer.getAnsiFromColorString`; `hex s b` stands for
`color.HEX(s, b).Code()`. -/
def getAnsiFromColorString (colorString : Str) (isBackground : Bool) : Str :=
  match getColorFromName colorString isBackground with
  | some colorFromName => colorFromName
  | none => hex colorString isBackground

/-- The value of `coloredText` in `writeColoredText`. -/
def coloredText (f : formats) (background foreground text : Str) : Str :=
  if foreground = Transparent ∧ background ≠ [] then
    Sprintf f.transparent [.str (getAnsiFromColorString hex background false), .str text]
  else if background = [] ∨ background = Transparent then
    Sprintf f.single [.str (getAnsiFromColorString hex foreground false), .str text]
  else if foreground ≠ [] ∧ background ≠ [] then
    Sprintf f.full [.str (getAnsiFromColorString hex background true),
      .str (getAnsiFromColorString hex foreground false), .str text]
  else []

/-- Model of `Renderer.writeColoredText`. -/
def writeColoredText (r : Renderer) (background foreground text : Str) : Renderer :=
  { r with Buffer := r.Buffer ++ coloredText hex r.formats background foreground text }

/-- Model of `Renderer.writeAndRemoveText`: the renderer and the returned string. -/
def writeAndRemoveText (r : Renderer) (background foreground text textToRemove parentText : Str) :
    Renderer × Str :=
  (writeColoredText hex r background foreground text, replaceFirstEmpty parentText textToRemove)

/-- The two tests of the loop of `write` that end in `continue`. -/
def skipsMatch (m : Submatch) : Bool :=
  (decide (getAnsiFromColorString hex m.m1 false = []) && decide (m.m1 ≠ Transparent)
      && decide (m.m2.length = 0))
    || (decide (getAnsiFromColorString hex m.m2 false = []) && decide (m.m2 ≠ Transparent)
      && decide (m.m1.length = 0))

/-- One round of the loop of `write`, on the renderer and the working `text`. -/
def writeMatch (background foreground : Str) (st : Renderer × Str) (m : Submatch) :
    Renderer × Str :=
  if skipsMatch hex m then st
  else
    let extractedBackgroundColor := if m.m2.length = 0 then background else m.m2
    let extractedForegroundColor := if m.m1.length = 0 then foreground else m.m1
    let escapedTextSegment := m.m0
    let innerText := m.m3
    let textBeforeColorOverride := splitHead st.2 escapedTextSegment
    let st1 := writeAndRemoveText hex st.1 background foreground textBeforeColorOverride
      textBeforeColorOverride st.2
    writeAndRemoveText hex st1.1 extractedBackgroundColor extractedForegroundColor innerText
      escapedTextSegment st1.2

/-- Model of `Renderer.write`. -/
def write (r : Renderer) (background foreground text : Str) : Renderer :=
  let st := (FindAllStringSubmatch rex text).foldl (writeMatch hex background foreground) (r, text)
  writeColoredText hex st.1 background foreground st.2

end Resolve

/-- The `switch r.shell` of `lenWithoutANSI`: the markers of the dialect are
removed, the opening one first. -/
def unwrapMarkers (shell stripped : Str) : Str :=
  if shell = zsh then ReplaceAllEmpty (ReplaceAllEmpty stripped "%\x7b".toList) "%\x7d".toList
  else if shell = bash then ReplaceAllEmpty (ReplaceAllEmpty stripped "\\[".toList) "\\]".toList
  else stripped

/-- The value of `stripped` in `lenWithoutANSI` when the iterator starts. -/
def stripANSI (r : Renderer) (str : Str) : Str :=
  unwrapMarkers r.shell (ReplaceAllStringEmpty r.formats.rANSI str)

/-- Model of `Renderer.lenWithoutANSI`; `count` stands for the loop over the
`norm.NFD` iterator. -/
def lenWithoutANSI (count : Str → Nat) (r : Renderer) (str : Str) : Nat :=
  count (stripANSI r str)

/-- The value of a hexadecimal digit. -/
def hexDigit (x : Char) : Option Nat :=
  if inRange '0' '9' x then some (x.toNat - 48)
  else if inRange 'a' 'f' x then some (x.toNat - 87)
  else if inRange 'A' 'F' x then some (x.toNat - 55)
  else none

/-- The decimal digits of the byte written with the two hexadecimal digits. -/
def hexByte (hi lo : Char) : Option Str :=
  match hexDigit hi, hexDigit lo with
  | some u, some v => some (Nat.toDigits 10 (16 * u + v))
  | _, _ => none

/-- Modelled from the spec: the hex branch of colour resolution, which the
source takes from the colour library: a `#RRGGBB` token gives the truecolor
code of the channel, any other token gives the empty result.  Used for
concrete evaluations only; the theorems hold for every resolver `hex`. -/
def hexTriplet (s : Str) (isBackground : Bool) : Str :=
  match s with
  | ['#', a, b, c, d, e, f] =>
    match hexByte a b, hexByte c d, hexByte e f with
    | some red, some green, some blue =>
      (if isBackground then "48;2;".toList else "38;2;".toList)
        ++ red ++ [';'] ++ green ++ [';'] ++ blue
    | _, _, _ => []
  | _ => []

/-- A renderer before `init`: an empty buffer and no templates. -/
def blankRenderer : Renderer :=
  { Buffer := [], shell := [],
    formats := { single := [], full := [], transparent := [], linechange := [], left := [],
                 right := [], rANSI := .eps, title := [], creset := [], clearOEL := [] } }

/-- A renderer with an empty buffer for the shell `shell`. -/
def newRenderer (shell : Str) : Renderer := init blankRenderer shell

/-- The value an `int` holds when an operation yields `x`: the type is 64 bits
wide and wraps around in two's complement. -/
def wrapInt (x : Int) : Int := (x + 2 ^ 63) % 2 ^ 64 - 2 ^ 63

/-- The least value of an `int`. -/
def minInt : Int := -(2 ^ 63)

/-- The values of an `int`. -/
def isInt (x : Int) : Prop := minInt ≤ x ∧ x < 2 ^ 63

instance (x : Int) : Decidable (isInt x) := by unfold isInt; infer_instance

/-- Model of `Renderer.carriageForward`. -/
def carriageForward (r : Renderer) : Str := Sprintf r.formats.left [.int 1000]

/-- Model of `Renderer.setCursorForRightWrite`: the sum `lenWithoutANSI(text) + -offset`
is taken in `int`, the negation and the addition each wrapping around. -/
def setCursorForRightWrite (count : Str → Nat) (r : Renderer) (text : Str) (offset : Int) : Str :=
  let strippedLen := wrapInt ((lenWithoutANSI count r text : Int) + wrapInt (-offset))
  Sprintf r.formats.right [.int strippedLen]

/-- Model of `Renderer.changeLine`: a negative count is negated in `int` and the
letter becomes `F`. -/
def changeLine (r : Renderer) (numberOfLines : Int) : Str :=
  if numberOfLines < 0 then
    Sprintf r.formats.linechange [.int (wrapInt (-numberOfLines)), .str "F".toList]
  else Sprintf r.formats.linechange [.int numberOfLines, .str "B".toList]

/-- Model of `Renderer.setConsoleTitle`: the bytes `fmt.Printf` writes to the
standard output. -/
def setConsoleTitle (r : Renderer) (title : Str) : Str := Sprintf r.formats.title [.str title]

/-- Model of `Renderer.string`: the content of the buffer; the method assigns
nothing, so the renderer after the call is the renderer before it. -/
def string (r : Renderer) : Str := r.Buffer

/-- Model of `Renderer.reset`. -/
def reset (r : Renderer) : Renderer := { r with Buffer := [] }

/-- Model of `Renderer.creset`: the bytes `fmt.Print` writes, which for one
string operand are the operand itself. -/
def creset (r : Renderer) : Str := r.formats.creset

/-- Model of `Renderer.clearEOL`: the bytes `fmt.Print` writes. -/
def clearEOL (r : Renderer) : Str := r.formats.clearOEL

/-- Model of `Renderer.print`: the text and then what `clearEOL` writes. -/
def print (r : Renderer) (text : Str) : Str := text ++ clearEOL r

/-- The rounds of the loop of `write`, read off the text from left to right: for
each match the text since the previous match, the match, and the text behind it. -/
def roundsAux : Nat → Str → Str → List (Str × Submatch × Str)
  | 0, _, _ => []
  | _ + 1, _, [] => []
  | n + 1, pre, x :: t =>
    match Re.matchAt rex (x :: t) with
    | some (rest, c) =>
      if rest.length < (x :: t).length then
        (pre, { m0 := (x :: t).take ((x :: t).length - rest.length),
                m1 := group c 1, m2 := group c 2, m3 := group c 3 }, rest)
          :: roundsAux n [] rest
      else roundsAux n (pre ++ [x]) t
    | none => roundsAux n (pre ++ [x]) t

/-- The rounds of the loop of `write` on `text`. -/
def rounds (text : Str) : List (Str × Submatch × Str) := roundsAux text.length [] text

/-! ## The regular-expression runner on the pattern of `write` -/

theorem starLoop_greedy_cls (p : Char → Bool) (c : Caps) :
    ∀ (n : Nat) (s : Str), s.length ≤ n →
      starLoop true (Re.run (.cls p)) n s c = (greedyTails p s).map (fun t => (t, c)) := by
  intro n
  induction n with
  | zero =>
    intro s hs
    have : s = [] := List.length_eq_zero.mp (Nat.le_zero.mp hs)
    subst this
    simp [starLoop, greedyTails]
  | succ n ih =>
    intro s hs
    cases s with
    | nil => simp [starLoop, greedyTails, Re.run]
    | cons x t =>
      have ht : t.length ≤ n := by simpa using hs
      by_cases hp : p x = true
      · simp [starLoop, greedyTails, Re.run, hp, ih t ht]
      · simp [starLoop, greedyTails, Re.run, hp]

/-- A lazy loop over a character class leaves the tails of `lazyTails`. -/
theorem starLoop_lazy_cls (p : Char → Bool) (c : Caps) :
    ∀ (n : Nat) (s : Str), s.length ≤ n →
      starLoop false (Re.run (.cls p)) n s c = (lazyTails p s).map (fun t => (t, c)) := by
  intro n
  induction n with
  | zero =>
    intro s hs
    have : s = [] := List.length_eq_zero.mp (Nat.le_zero.mp hs)
    subst this
    simp [starLoop, lazyTails]
  | succ n ih =>
    intro s hs
    cases s with
    | nil => simp [starLoop, lazyTails, Re.run]
    | cons x t =>
      have ht : t.length ≤ n := by simpa using hs
      by_cases hp : p x = true
      · simp [starLoop, lazyTails, Re.run, hp, ih t ht]
      · simp [starLoop, lazyTails, Re.run, hp]

/-- After a greedy run only the continuation at the end of the longest run counts, when the
continuation fails on a character of the class. -/
theorem greedyTails_flatMap {β : Type} (p : Char → Bool) (f : Str → List β)
    (hf : ∀ y t, p y = true → f (y :: t) = []) :
    ∀ s : Str, (greedyTails p s).flatMap f = f (s.dropWhile p) := by
  intro s
  induction s with
  | nil => simp [greedyTails]
  | cons x t ih =>
    by_cases hp : p x = true
    · simp [greedyTails, hp, ih, hf x t hp, List.dropWhile]
    · simp [greedyTails, hp, List.dropWhile]

theorem run_lit (ch : Char) (s : Str) (c : Caps) :
    Re.run (Re.lit ch) s c = match s with
      | [] => []
      | x :: t => if x = ch then [(t, c)] else [] := by
  cases s with
  | nil => simp [Re.lit, Re.run]
  | cons x t => simp [Re.lit, Re.run]

/-- The closer `<\/>` matches exactly at a string that starts with it. -/
theorem run_rexCloser (s : Str) (c : Caps) :
    Re.run rexCloser s c = if closer <+: s then [(s.drop 3, c)] else [] := by
  unfold rexCloser closer
  rcases s with _ | ⟨x, _ | ⟨y, _ | ⟨z, t⟩⟩⟩
  · simp [Re.run, run_lit]
  · by_cases hx : x = '<'
    · subst hx; simp [Re.run, run_lit, List.cons_prefix_cons]
    · have hx' : ¬ '<' = x := fun h => hx h.symm
      simp [Re.run, run_lit, hx, hx', List.cons_prefix_cons]
  · by_cases hx : x = '<'
    · subst hx
      by_cases hy : y = '/'
      · subst hy; simp [Re.run, run_lit, List.cons_prefix_cons]
      · have hy' : ¬ '/' = y := fun h => hy h.symm
        simp [Re.run, run_lit, hy, hy', List.cons_prefix_cons]
    · have hx' : ¬ '<' = x := fun h => hx h.symm
      simp [Re.run, run_lit, hx, hx', List.cons_prefix_cons]
  · by_cases hx : x = '<'
    · subst hx
      by_cases hy : y = '/'
      · subst hy
        by_cases hz : z = '>'
        · subst hz; simp [Re.run, run_lit, List.cons_prefix_cons]
        · have hz' : ¬ '>' = z := fun h => hz h.symm
          simp [Re.run, run_lit, hz, hz', List.cons_prefix_cons]
      · have hy' : ¬ '/' = y := fun h => hy h.symm
        simp [Re.run, run_lit, hy, hy', List.cons_prefix_cons]
    · have hx' : ¬ '<' = x := fun h => hx h.symm
      simp [Re.run, run_lit, hx, hx', List.cons_prefix_cons]

theorem closerSplit_cons (x : Char) (t : Str) :
    closerSplit (x :: t) =
      if closer <+: x :: t then some ([], t.drop 2)
      else if x = '\n' then none
      else (closerSplit t).map (fun p => (x :: p.1, p.2)) := by
  simp [closerSplit]

theorem closerSplit_closer (r : Str) : closerSplit (closer ++ r) = some ([], r) := by
  simp [closer, closerSplit]

theorem closerSplit_step (x : Char) (t : Str) (hc : ¬ closer <+: x :: t) (hx : x ≠ '\n') :
    closerSplit (x :: t) = (closerSplit t).map (fun p => (x :: p.1, p.2)) := by
  rw [closerSplit_cons]; simp [hc, hx]

theorem closerSplit_newline (t : Str) : closerSplit ('\n' :: t) = none := by
  rw [closerSplit_cons]; simp [closer]

/-- The first match of a lazy run followed by the closer is the one that `closerSplit` reads. -/
theorem lazyTails_closer_head (g : Str → Caps) :
    ∀ (s : Str),
      (((lazyTails (fun x => x != '\n') s).map (fun t => (t, g t))).flatMap
          (fun p => Re.run rexCloser p.1 p.2)).head?
        = (closerSplit s).map (fun p => (p.2, g (closer ++ p.2))) := by
  intro s
  induction s with
  | nil => simp [lazyTails, closerSplit, run_rexCloser, closer]
  | cons x t ih =>
    by_cases hc : closer <+: (x :: t)
    · obtain ⟨r, hr⟩ := hc
      rw [← hr, closerSplit_closer]
      have h3 : List.drop 3 (closer ++ r) = r := by simp [closer]
      cases hcr : closer ++ r with
      | nil => simp [closer] at hcr
      | cons y u =>
        simp only [lazyTails, List.map_cons, List.flatMap_cons, run_rexCloser]
        rw [← hcr]
        simp [h3]
    · by_cases hx : x = '\n'
      · subst hx; simp [lazyTails, run_rexCloser, hc, closerSplit_newline]
      · rw [closerSplit_step x t hc hx]
        simp [lazyTails, run_rexCloser, hc, hx, ← ih, Option.map_map, Function.comp_def]

/-- What `closerSplit` returns puts the string together again. -/
theorem closerSplit_spec : ∀ (s i r : Str), closerSplit s = some (i, r) → s = i ++ closer ++ r := by
  intro s
  induction s with
  | nil => intro i r h; simp [closerSplit] at h
  | cons x t ih =>
    intro i r h
    by_cases hc : closer <+: (x :: t)
    · obtain ⟨r', hr⟩ := hc
      rw [← hr, closerSplit_closer] at h
      simp at h
      obtain ⟨h1, h2⟩ := h
      subst h1; subst h2
      rw [← hr]; simp
    · by_cases hx : x = '\n'
      · subst hx; simp [closerSplit_newline] at h
      · rw [closerSplit_step x t hc hx] at h
        cases hq : closerSplit t with
        | none => simp [hq] at h
        | some q =>
          obtain ⟨i', r'⟩ := q
          simp [hq] at h
          obtain ⟨h1, h2⟩ := h
          subst h1; subst h2
          rw [ih i' _ hq]; simp

theorem run_cat (a b : Re) (s : Str) (c : Caps) :
    Re.run (.cat a b) s c = (Re.run a s c).flatMap (fun p => Re.run b p.1 p.2) := by
  rw [Re.run]

theorem run_alt (a b : Re) (s : Str) (c : Caps) :
    Re.run (.alt a b) s c = Re.run a s c ++ Re.run b s c := by
  rw [Re.run]

theorem run_eps (s : Str) (c : Caps) : Re.run .eps s c = [(s, c)] := by
  rw [Re.run]

theorem run_opt (a : Re) (s : Str) (c : Caps) :
    Re.run (Re.opt a) s c = Re.run a s c ++ [(s, c)] := by
  rw [Re.opt, run_alt, run_eps]

theorem run_star (a : Re) (s : Str) (c : Caps) :
    Re.run (.star a) s c = starLoop true (Re.run a) s.length s c := by
  rw [Re.run]

theorem run_lazyStar (a : Re) (s : Str) (c : Caps) :
    Re.run (.lazyStar a) s c = starLoop false (Re.run a) s.length s c := by
  rw [Re.run]

theorem run_cap (i : Nat) (a : Re) (s : Str) (c : Caps) :
    Re.run (.cap i a) s c =
      (Re.run a s c).map (fun p => (p.1, (i, s.take (s.length - p.1.length)) :: p.2)) := by
  rw [Re.run]

theorem run_cls_nil (p : Char → Bool) (c : Caps) : Re.run (.cls p) [] c = [] := by
  rw [Re.run]

theorem run_cls_cons (p : Char → Bool) (x : Char) (t : Str) (c : Caps) :
    Re.run (.cls p) (x :: t) c = if p x then [(t, c)] else [] := by
  rw [Re.run]

theorem take_sub_dropWhile (p : Char → Bool) (l : Str) :
    l.take (l.length - (l.dropWhile p).length) = l.takeWhile p := by
  have h := List.takeWhile_append_dropWhile p l
  have hl := congrArg List.length h
  rw [List.length_append] at hl
  have h2 : l.length - (l.dropWhile p).length = (l.takeWhile p).length := by omega
  rw [h2]
  calc l.take (l.takeWhile p).length
      = (l.takeWhile p ++ l.dropWhile p).take (l.takeWhile p).length := by rw [h]
    _ = l.takeWhile p := List.take_left' rfl

/-- A captured token `([p]+)` in front of a continuation that fails on a character of the class:
the group takes the longest run. -/
theorem run_capPlus_cat (p : Char → Bool) (i : Nat) (K : Re)
    (hK : ∀ y t c, p y = true → Re.run K (y :: t) c = []) (s : Str) (c : Caps) :
    Re.run (.cat (.cap i (Re.plus (.cls p))) K) s c =
      if s.takeWhile p = [] then [] else Re.run K (s.dropWhile p) ((i, s.takeWhile p) :: c) := by
  rw [run_cat, run_cap, Re.plus, run_cat]
  cases s with
  | nil => simp [run_cls_nil]
  | cons x t =>
    rw [run_cls_cons]
    by_cases hp : p x = true
    · simp only [hp, if_true, List.flatMap_cons, List.flatMap_nil, List.append_nil, run_star]
      rw [starLoop_greedy_cls p c t.length t (Nat.le_refl _)]
      rw [List.map_map, List.flatMap_def, List.map_map, ← List.flatMap_def]
      rw [greedyTails_flatMap p _ (fun y u hy => hK y u _ hy) t]
      have := take_sub_dropWhile p (x :: t)
      simp only [List.takeWhile_cons, List.dropWhile_cons, hp, if_true] at this
      simp only [Function.comp_def, List.takeWhile_cons, List.dropWhile_cons, hp, if_true, this]
      simp
    · simp [hp, List.takeWhile_cons]

theorem run_rexInner_head (s : Str) (c : Caps) :
    (Re.run rexInner s c).head? = (closerSplit s).map (fun p => (p.2, (3, p.1) :: c)) := by
  unfold rexInner
  rw [run_cat, run_cap, run_lazyStar]
  rw [starLoop_lazy_cls _ c s.length s (Nat.le_refl _), List.map_map]
  have := lazyTails_closer_head (fun t => (3, s.take (s.length - t.length)) :: c) s
  simp only [Function.comp_def] at this ⊢
  rw [this]
  cases hq : closerSplit s with
  | none => rfl
  | some q =>
    obtain ⟨i, r⟩ := q
    have hs := closerSplit_spec s i r hq
    simp [hs]

theorem run_rexGt (s : Str) (c : Caps) :
    Re.run rexGt s c = match s with
      | [] => []
      | x :: t => if x = '>' then Re.run rexInner t c else [] := by
  unfold rexGt
  rw [run_cat, run_lit]
  cases s with
  | nil => simp
  | cons x t =>
    by_cases hx : x = '>' <;> simp [hx]

theorem isTagTok_gt : isTagTok '>' = false := by decide
theorem isTagTok_comma : isTagTok ',' = false := by decide

theorem run_rexGt_tok (y : Char) (t : Str) (c : Caps) (hy : isTagTok y = true) :
    Re.run rexGt (y :: t) c = [] := by
  rw [run_rexGt]
  have : y ≠ '>' := by rintro rfl; simp [isTagTok_gt] at hy
  simp [this]

theorem run_rexBg (s : Str) (c : Caps) :
    Re.run rexBg s c = match s with
      | [] => []
      | x :: t =>
        if x = ',' then
          (if t.takeWhile isTagTok = [] then []
           else Re.run rexGt (t.dropWhile isTagTok) ((2, t.takeWhile isTagTok) :: c))
        else Re.run rexGt (x :: t) c := by
  unfold rexBg
  rw [run_cat, run_opt, List.flatMap_append, run_cat, run_lit]
  cases s with
  | nil => simp [run_rexGt]
  | cons x t =>
    by_cases hx : x = ','
    · subst hx
      have h1 : Re.run rexGt (',' :: t) c = [] := by rw [run_rexGt]; simp
      have h2 := run_capPlus_cat isTagTok 2 rexGt (fun y u c' hy => run_rexGt_tok y u c' hy) t c
      rw [run_cat] at h2
      simp only [if_true, List.flatMap_cons, List.flatMap_nil, List.append_nil, h1, h2]
    · simp [hx]

theorem run_rexBg_tok (y : Char) (t : Str) (c : Caps) (hy : isTagTok y = true) :
    Re.run rexBg (y :: t) c = [] := by
  rw [run_rexBg]
  have : y ≠ ',' := by rintro rfl; simp [isTagTok_comma] at hy
  simp [this, run_rexGt_tok y t c hy]

theorem run_rexFg (s : Str) (c : Caps) :
    Re.run rexFg s c =
      if s.takeWhile isTagTok = [] then Re.run rexBg s c
      else Re.run rexBg (s.dropWhile isTagTok) ((1, s.takeWhile isTagTok) :: c) := by
  unfold rexFg
  have h2 := run_capPlus_cat isTagTok 1 rexBg (fun y u c' hy => run_rexBg_tok y u c' hy) s c
  rw [run_cat] at h2
  rw [run_cat, run_opt, List.flatMap_append, h2]
  by_cases hs : s.takeWhile isTagTok = []
  · simp [hs]
  · simp only [hs, if_false]
    cases s with
    | nil => simp at hs
    | cons x t =>
      have hx : isTagTok x = true := by
        by_contra hx
        simp [List.takeWhile_cons, hx] at hs
      simp [run_rexBg_tok x t c hx]

theorem run_rexGt_head (s : Str) (c : Caps) :
    (Re.run rexGt s c).head? = match s with
      | [] => none
      | x :: t => if x = '>' then (closerSplit t).map (fun p => (p.2, (3, p.1) :: c)) else none := by
  rw [run_rexGt]
  cases s with
  | nil => rfl
  | cons x t =>
    by_cases hx : x = '>'
    · simp only [hx, if_true]; exact run_rexInner_head t c
    · simp [hx]

/-- The leftmost-first match of the pattern of `write` at the start of a string, with its three
groups, is what `tagAt` reads directly. -/
theorem rex_matchAt (s : Str) :
    (Re.matchAt rex s).map (fun p => (p.1, group p.2 1, group p.2 2, group p.2 3)) = tagAt s := by
  unfold Re.matchAt tagAt
  rw [rex, run_cat, run_lit]
  cases s with
  | nil => simp
  | cons x t =>
    by_cases hx : x = '<'
    swap
    · simp [hx]
    simp only [hx, if_true, List.flatMap_cons, List.flatMap_nil, List.append_nil]
    rw [run_rexFg]
    have key : ∀ (c : Caps), group c 2 = [] → group c 3 = [] → 
        ((Re.run rexBg (t.dropWhile isTagTok) c).head?).map
          (fun p => (p.1, group p.2 1, group p.2 2, group p.2 3))
        = match t.dropWhile isTagTok with
          | [] => none
          | y :: t2 =>
            if y = '>' then
              (closerSplit t2).map (fun p => (p.2, group c 1, [], p.1))
            else if y = ',' then
              if t2.takeWhile isTagTok = [] then none
              else
                match t2.dropWhile isTagTok with
                | [] => none
                | z :: t4 =>
                  if z = '>' then
                    (closerSplit t4).map
                      (fun p => (p.2, group c 1, t2.takeWhile isTagTok, p.1))
                  else none
            else none := by
      intro c hc2 hc3
      rw [run_rexBg]
      cases hd : t.dropWhile isTagTok with
      | nil => simp
      | cons y t2 =>
        by_cases hy : y = ','
        · subst hy
          have : ¬ (',' = '>') := by decide
          simp only [if_true, this, if_false]
          by_cases hg : t2.takeWhile isTagTok = []
          · simp [hg]
          · simp only [hg, if_false]
            rw [run_rexGt_head]
            cases hd2 : t2.dropWhile isTagTok with
            | nil => simp
            | cons z t4 =>
              by_cases hz : z = '>'
              · simp only [hz, if_true, Option.map_map]
                congr 1
              · simp [hz]
        · simp only [hy, if_false]
          rw [run_rexGt_head]
          by_cases hy2 : y = '>'
          · simp only [hy2, if_true, Option.map_map]
            congr 1
            funext p
            have hc2' : (List.lookup 2 c).getD [] = [] := hc2
            simp [group, List.lookup, Function.comp_def, hc2']
          · simp [hy2]
    by_cases hg : t.takeWhile isTagTok = []
    · have hd : t.dropWhile isTagTok = t := by
        have := List.takeWhile_append_dropWhile isTagTok t
        rw [hg] at this; simpa using this
      have := key [] rfl rfl
      rw [hd] at this
      simp only [hg, if_true, this, hd]
      simp [group]
    · have := key [(1, t.takeWhile isTagTok)] rfl rfl
      simp only [hg, if_false, this]
      simp [group, List.lookup]

/-- The inner text of a tag is read as the same inner text whatever follows the closer. -/
theorem closerSplit_stable : ∀ (s i r : Str), closerSplit s = some (i, r) →
    ∀ z, closerSplit (i ++ closer ++ z) = some (i, z) := by
  intro s
  induction s with
  | nil => intro i r h; simp [closerSplit] at h
  | cons x t ih =>
    intro i r h z
    by_cases hc : closer <+: (x :: t)
    · obtain ⟨r', hr⟩ := hc
      rw [← hr, closerSplit_closer] at h
      simp at h
      obtain ⟨h1, h2⟩ := h
      subst h1
      simpa using closerSplit_closer z
    · by_cases hx : x = '\n'
      · subst hx; simp [closerSplit_newline] at h
      · rw [closerSplit_step x t hc hx] at h
        cases hq : closerSplit t with
        | none => simp [hq] at h
        | some q =>
          obtain ⟨i', r'⟩ := q
          simp [hq] at h
          obtain ⟨h1, h2⟩ := h
          subst h1; subst h2
          have h3 := ih i' r' hq z
          have hs := closerSplit_spec t i' r' hq
          have hc' : ¬ closer <+: (x :: (i' ++ closer ++ z)) := by
            intro hp
            apply hc
            rw [hs]
            -- closer has three characters, all inside x :: i' ++ closer
            obtain ⟨w, hw⟩ := hp
            have hlen : 3 ≤ (x :: (i' ++ closer)).length := by simp [closer]
            have h1 : closer = (x :: (i' ++ closer ++ z)).take 3 := by
              rw [← hw]; simp [closer]
            have h2 : (x :: (i' ++ closer ++ z)).take 3 = (x :: (i' ++ closer)).take 3 := by
              have : x :: (i' ++ closer ++ z) = (x :: (i' ++ closer)) ++ z := by simp
              rw [this, List.take_append_of_le_length hlen]
            have h4 : (x :: (i' ++ closer ++ r')).take 3 = (x :: (i' ++ closer)).take 3 := by
              have : x :: (i' ++ closer ++ r') = (x :: (i' ++ closer)) ++ r' := by simp
              rw [this, List.take_append_of_le_length hlen]
            have hclo : closer = (x :: (i' ++ closer ++ r')).take 3 :=
              h1.trans (h2.trans h4.symm)
            refine ⟨(x :: (i' ++ closer ++ r')).drop 3, ?_⟩
            conv_lhs => arg 1; rw [hclo]
            exact List.take_append_drop 3 _
          have : x :: i' ++ closer ++ z = x :: (i' ++ closer ++ z) := by simp
          rw [this, closerSplit_step x _ hc' hx, h3]
          simp

/-- Nothing of a tag is lost: the text read is the tag's text. -/
theorem tagAt_spec (s rest g1 g2 g3 : Str) (h : tagAt s = some (rest, g1, g2, g3)) :
    s = tagText g1 g2 g3 ++ rest ∧ (∀ x ∈ g1, isTagTok x = true) ∧ (∀ x ∈ g2, isTagTok x = true)
      ∧ ∀ z, closerSplit (g3 ++ closer ++ z) = some (g3, z) := by
  unfold tagAt at h
  cases s with
  | nil => simp at h
  | cons x t =>
    by_cases hx : x = '<'
    swap
    · simp [hx] at h
    subst hx
    simp only [if_true] at h
    have htd := List.takeWhile_append_dropWhile isTagTok t
    have hg1 : ∀ x ∈ t.takeWhile isTagTok, isTagTok x = true :=
      fun x hx => List.mem_takeWhile_imp hx
    cases hd : t.dropWhile isTagTok with
    | nil => simp [hd] at h
    | cons y t2 =>
      rw [hd] at h htd
      simp only at h
      by_cases hy : y = '>'
      · subst hy
        simp only [if_true] at h
        cases hq : closerSplit t2 with
        | none => simp [hq] at h
        | some q =>
          obtain ⟨i, r⟩ := q
          simp [hq] at h
          obtain ⟨h1, h2, h3, h4⟩ := h
          subst h1; subst h2; subst h3; subst h4
          refine ⟨?_, hg1, by simp, closerSplit_stable t2 _ _ hq⟩
          have hs := closerSplit_spec t2 _ _ hq
          generalize t.takeWhile isTagTok = g at htd ⊢
          rw [← htd, hs]
          simp [tagText]
      · by_cases hy2 : y = ','
        swap
        · simp [hy, hy2] at h
        subst hy2
        simp only [hy, if_false, if_true] at h
        by_cases hg : t2.takeWhile isTagTok = []
        · simp [hg] at h
        simp only [hg, if_false] at h
        have htd2 := List.takeWhile_append_dropWhile isTagTok t2
        cases hd2 : t2.dropWhile isTagTok with
        | nil => simp [hd2] at h
        | cons z t4 =>
          rw [hd2] at h htd2
          simp only at h
          by_cases hz : z = '>'
          swap
          · simp [hz] at h
          subst hz
          simp only [if_true] at h
          cases hq : closerSplit t4 with
          | none => simp [hq] at h
          | some q =>
            obtain ⟨i, r⟩ := q
            simp [hq] at h
            obtain ⟨h1, h2, h3, h4⟩ := h
            subst h1; subst h2; subst h3; subst h4
            refine ⟨?_, hg1, fun x hx => List.mem_takeWhile_imp hx, closerSplit_stable t4 _ _ hq⟩
            have hs := closerSplit_spec t4 _ _ hq
            generalize t.takeWhile isTagTok = g at htd ⊢
            generalize t2.takeWhile isTagTok = g' at htd2 hg ⊢
            rw [← htd, ← htd2, hs]
            simp [tagText, hg]

theorem takeWhile_append_stop (p : Char → Bool) (g : Str) (y : Char) (t : Str)
    (hg : ∀ x ∈ g, p x = true) (hy : p y = false) :
    (g ++ y :: t).takeWhile p = g ∧ (g ++ y :: t).dropWhile p = y :: t := by
  induction g with
  | nil => simp [List.takeWhile_cons, List.dropWhile_cons, hy]
  | cons a g ih =>
    have ha : p a = true := hg a (by simp)
    have := ih (fun x hx => hg x (by simp [hx]))
    simp [List.takeWhile_cons, List.dropWhile_cons, ha, this]

/-- A tag's text is read as that tag, whatever follows it. -/
theorem tagAt_tagText (g1 g2 g3 z : Str) (h1 : ∀ x ∈ g1, isTagTok x = true)
    (h2 : ∀ x ∈ g2, isTagTok x = true)
    (h3 : ∀ z, closerSplit (g3 ++ closer ++ z) = some (g3, z)) :
    tagAt (tagText g1 g2 g3 ++ z) = some (z, g1, g2, g3) := by
  unfold tagText tagAt
  by_cases hg : g2 = []
  · subst hg
    have := takeWhile_append_stop isTagTok g1 '>' (g3 ++ closer ++ z) h1 isTagTok_gt
    simp only [List.cons_append, List.append_assoc, List.nil_append, if_true,
      List.append_nil] at this ⊢
    have h6 := h3 z
    simp only [List.append_assoc] at h6
    rw [this.2]
    simp [this.1, h6]
  · have := takeWhile_append_stop isTagTok g1 ',' (g2 ++ '>' :: (g3 ++ closer ++ z)) h1
      isTagTok_comma
    have h5 := takeWhile_append_stop isTagTok g2 '>' (g3 ++ closer ++ z) h2 isTagTok_gt
    have hy' : ¬ (',' = '>') := by decide
    simp only [hg, if_false, List.cons_append, List.append_assoc, if_true] at this h5 ⊢
    have h6 := h3 z
    simp only [List.append_assoc] at h6
    rw [this.2]
    simp only [hy', if_false, if_true, h5.1, h5.2, hg, h6, this.1]
    simp

/-! ## `FindAllStringSubmatch` on the pattern of `write` -/

theorem length_tagText_pos (g1 g2 g3 : Str) : 0 < (tagText g1 g2 g3).length := by
  simp [tagText]

/-- Where no tag starts, the scan moves one character on. -/
theorem findAllAux_none (n : Nat) (x : Char) (t : Str) (h : tagAt (x :: t) = none) :
    findAllAux rex (n + 1) (x :: t) = findAllAux rex n t := by
  have hm : Re.matchAt rex (x :: t) = none := by
    have := rex_matchAt (x :: t)
    rw [h] at this
    exact Option.map_eq_none'.mp this
  simp [findAllAux, hm]

/-- Where a tag starts, the scan records it and goes on behind it. -/
theorem findAllAux_some (n : Nat) (x : Char) (t rest g1 g2 g3 : Str)
    (h : tagAt (x :: t) = some (rest, g1, g2, g3)) :
    findAllAux rex (n + 1) (x :: t) =
      { m0 := tagText g1 g2 g3, m1 := g1, m2 := g2, m3 := g3 } :: findAllAux rex n rest := by
  have hm := rex_matchAt (x :: t)
  rw [h] at hm
  obtain ⟨p, hp, hpe⟩ := Option.map_eq_some'.mp hm
  obtain ⟨rest', c⟩ := p
  simp only [Prod.mk.injEq] at hpe
  obtain ⟨e1, e2, e3, e4⟩ := hpe
  subst e1
  have hs := (tagAt_spec _ _ _ _ _ h).1
  have hlen : rest'.length < (x :: t).length := by
    rw [hs]; have := length_tagText_pos g1 g2 g3; simp; omega
  have htake : (x :: t).take ((x :: t).length - rest'.length) = tagText g1 g2 g3 := by
    rw [hs]; simp
  simp only [findAllAux, hp]
  rw [if_pos hlen, htake, e2, e3, e4]

theorem tagAt_ne_lt (x : Char) (t : Str) (hx : x ≠ '<') : tagAt (x :: t) = none := by
  simp [tagAt, hx]

/-- A text without `<` has no tag match. -/
theorem findAllAux_no_lt (n : Nat) : ∀ s : Str, '<' ∉ s → findAllAux rex n s = [] := by
  induction n with
  | zero => intro s _; cases s <;> rfl
  | succ n ih =>
    intro s hs
    cases s with
    | nil => rfl
    | cons x t =>
      have hx : x ≠ '<' := fun h => hs (by simp [h])
      rw [findAllAux_none n x t (tagAt_ne_lt x t hx)]
      exact ih t (fun h => hs (by simp [h]))

theorem tagAt_closer (s : Str) (h : tagAt s ≠ none) : closer <:+: s := by
  cases hq : tagAt s with
  | none => exact absurd hq h
  | some v =>
    obtain ⟨rest, g1, g2, g3⟩ := v
    have hs := (tagAt_spec _ _ _ _ _ hq).1
    rw [hs]
    refine ⟨'<' :: g1 ++ (if g2 = [] then [] else ',' :: g2) ++ '>' :: g3, rest, ?_⟩
    simp [tagText]

/-- A text without the closer has no tag match. -/
theorem findAllAux_no_closer (n : Nat) : ∀ s : Str, ¬ closer <:+: s → findAllAux rex n s = [] := by
  induction n with
  | zero => intro s _; cases s <;> rfl
  | succ n ih =>
    intro s hs
    cases s with
    | nil => rfl
    | cons x t =>
      have h1 : tagAt (x :: t) = none := by
        by_contra h
        exact hs (tagAt_closer _ h)
      rw [findAllAux_none n x t h1]
      apply ih
      intro h
      apply hs
      obtain ⟨a, b, hab⟩ := h
      exact ⟨x :: a, b, by simp [← hab]⟩

/-! ## `strings` -/

theorem splitHead_prefix (sep rest : Str) (h : sep ≠ []) : splitHead (sep ++ rest) sep = [] := by
  cases hs : sep ++ rest with
  | nil => rfl
  | cons x t =>
    have : sep <+: x :: t := ⟨rest, hs⟩
    simp [splitHead, h, this]

theorem replaceFirstEmpty_nil (s : Str) : replaceFirstEmpty s [] = s := by
  cases s <;> simp [replaceFirstEmpty]

/-- The call `strings.Replace(s, old, "", 1)` removes `old` from the start of `s` when `s`
starts with it. -/
theorem replaceFirstEmpty_prefix (old rest : Str) : replaceFirstEmpty (old ++ rest) old = rest := by
  cases hs : old ++ rest with
  | nil =>
    have := List.append_eq_nil.mp hs
    simp [this.2, replaceFirstEmpty]
  | cons x t =>
    have : old <+: x :: t := ⟨rest, hs⟩
    simp only [replaceFirstEmpty, List.isPrefixOf_iff_prefix, this, if_true]
    rw [← hs]; simp

/-! ## The loop of `write` -/

theorem writeColoredText_formats (hex : Str → Bool → Str) (r : Renderer) (bg fg t : Str) :
    (writeColoredText hex r bg fg t).formats = r.formats := rfl

theorem writeColoredText_shell (hex : Str → Bool → Str) (r : Renderer) (bg fg t : Str) :
    (writeColoredText hex r bg fg t).shell = r.shell := rfl

theorem writeColoredText_buffer (hex : Str → Bool → Str) (r : Renderer) (bg fg t : Str) :
    (writeColoredText hex r bg fg t).Buffer = r.Buffer ++ coloredText hex r.formats bg fg t := rfl

/-- A skipped round changes nothing. -/
theorem writeMatch_skip (hex : Str → Bool → Str) (bg fg : Str) (st : Renderer × Str) (m : Submatch)
    (h : skipsMatch hex m = true) : writeMatch hex bg fg st m = st := by
  simp [writeMatch, h]

/-- A round that is not skipped: two calls of `writeAndRemoveText`. -/
theorem writeMatch_noskip (hex : Str → Bool → Str) (bg fg : Str) (st : Renderer × Str)
    (m : Submatch) (h : skipsMatch hex m = false) :
    writeMatch hex bg fg st m =
      (writeColoredText hex (writeColoredText hex st.1 bg fg (splitHead st.2 m.m0))
          (if m.m2 = [] then bg else m.m2) (if m.m1 = [] then fg else m.m1) m.m3,
        replaceFirstEmpty (replaceFirstEmpty st.2 (splitHead st.2 m.m0)) m.m0) := by
  simp [writeMatch, h, writeAndRemoveText, List.length_eq_zero]

/-- Without a tag match `write` is one call of `writeColoredText`. -/
theorem write_of_no_match (hex : Str → Bool → Str) (r : Renderer) (bg fg text : Str)
    (h : FindAllStringSubmatch rex text = []) :
    write hex r bg fg text = writeColoredText hex r bg fg text := by
  simp [write, h]

theorem foldl_writeMatch_skipped (hex : Str → Bool → Str) (bg fg : Str) :
    ∀ (l : List Submatch) (st : Renderer × Str), (∀ m ∈ l, skipsMatch hex m = true) →
      l.foldl (writeMatch hex bg fg) st = st := by
  intro l
  induction l with
  | nil => intro st _; rfl
  | cons m l ih =>
    intro st h
    rw [List.foldl_cons, writeMatch_skip hex bg fg st m (h m (by simp))]
    exact ih st (fun m' hm' => h m' (by simp [hm']))

/-- The loop of `write` keeps templates and shell and appends, per tag that is not skipped, an
ambient chunk and the tag's chunk. -/
theorem foldl_writeMatch_trace (hex : Str → Bool → Str) (bg fg : Str) :
    ∀ (l : List Submatch) (st : Renderer × Str),
      ∃ pieces : List Str,
        pieces.length = (l.filter (fun m => !skipsMatch hex m)).length ∧
        (l.foldl (writeMatch hex bg fg) st).1.formats = st.1.formats ∧
        (l.foldl (writeMatch hex bg fg) st).1.shell = st.1.shell ∧
        (l.foldl (writeMatch hex bg fg) st).1.Buffer = st.1.Buffer ++
          (List.zipWith
            (fun p m => coloredText hex st.1.formats bg fg p ++
              coloredText hex st.1.formats (if m.m2 = [] then bg else m.m2)
                (if m.m1 = [] then fg else m.m1) m.m3)
            pieces (l.filter (fun m => !skipsMatch hex m))).flatten := by
  intro l
  induction l with
  | nil => intro st; exact ⟨[], by simp⟩
  | cons m l ih =>
    intro st
    rw [List.foldl_cons]
    by_cases hs : skipsMatch hex m = true
    · rw [writeMatch_skip hex bg fg st m hs]
      obtain ⟨pieces, h1, h2, h3, h4⟩ := ih st
      exact ⟨pieces, by simp [hs, h1], h2, h3, by simp [hs, h4]⟩
    · have hs' : skipsMatch hex m = false := by simpa using hs
      rw [writeMatch_noskip hex bg fg st m hs']
      obtain ⟨pieces, h1, h2, h3, h4⟩ := ih
        (writeColoredText hex (writeColoredText hex st.1 bg fg (splitHead st.2 m.m0))
          (if m.m2 = [] then bg else m.m2) (if m.m1 = [] then fg else m.m1) m.m3,
        replaceFirstEmpty (replaceFirstEmpty st.2 (splitHead st.2 m.m0)) m.m0)
      refine ⟨splitHead st.2 m.m0 :: pieces, by simp [hs', h1], ?_, ?_, ?_⟩
      · rw [h2]; rfl
      · rw [h3]; rfl
      · rw [h4]
        simp [hs', writeColoredText_buffer, writeColoredText_formats]

/-- Every name of the colour table is a non-empty run of token characters, is
not `transparent`, and has a non-empty foreground and background code. -/
theorem colorMap_names :
    ∀ b ∈ colorMap.map Prod.fst,
      b ≠ [] ∧ b ≠ Transparent ∧ b.all isTagTok = true
        ∧ (getColorFromName b false).isSome = true ∧ getColorFromName b false ≠ some []
        ∧ (getColorFromName b true).isSome = true ∧ getColorFromName b true ≠ some [] := by
  decide

theorem getAnsi_name_ne_nil (hex : Str → Bool → Str) (b : Str) (isBg : Bool)
    (hb : b ∈ colorMap.map Prod.fst) : getAnsiFromColorString hex b isBg ≠ [] := by
  have h := colorMap_names b hb
  cases isBg with
  | false =>
    cases hq : getColorFromName b false with
    | none => rw [hq] at h; simp at h
    | some v =>
      have : v ≠ [] := fun hv => h.2.2.2.2.1 (by rw [hq, hv])
      simp [getAnsiFromColorString, hq, this]
  | true =>
    cases hq : getColorFromName b true with
    | none => rw [hq] at h; simp at h
    | some v =>
      have : v ≠ [] := fun hv => h.2.2.2.2.2.2 (by rw [hq, hv])
      simp [getAnsiFromColorString, hq, this]

theorem foldl_writeMatch_append (hex : Str → Bool → Str) (bg fg : Str) (l : List Submatch)
    (st : Renderer × Str) :
    (l.foldl (writeMatch hex bg fg) st).1.formats = st.1.formats ∧
    ∃ post, (l.foldl (writeMatch hex bg fg) st).1.Buffer = st.1.Buffer ++ post := by
  obtain ⟨pieces, _, h2, _, h4⟩ := foldl_writeMatch_trace hex bg fg l st
  exact ⟨h2, _, h4⟩

theorem foldl_writeMatch_mem (hex : Str → Bool → Str) (bg fg : Str) :
    ∀ (l : List Submatch) (st : Renderer × Str) (m : Submatch), m ∈ l →
      skipsMatch hex m = false →
      ∃ pre post, (l.foldl (writeMatch hex bg fg) st).1.Buffer =
        pre ++ coloredText hex st.1.formats (if m.m2 = [] then bg else m.m2)
          (if m.m1 = [] then fg else m.m1) m.m3 ++ post := by
  intro l
  induction l with
  | nil => intro st m hm; simp at hm
  | cons a l ih =>
    intro st m hm hs
    rw [List.foldl_cons]
    rcases List.mem_cons.mp hm with rfl | hm'
    · obtain ⟨_, post, hp⟩ := foldl_writeMatch_append hex bg fg l (writeMatch hex bg fg st m)
      rw [hp, writeMatch_noskip hex bg fg st m hs]
      exact ⟨st.1.Buffer ++ coloredText hex st.1.formats bg fg (splitHead st.2 m.m0), post, by
        simp only [writeColoredText_buffer, writeColoredText_formats]⟩
    · obtain ⟨pre, post, hp⟩ := ih (writeMatch hex bg fg st a) m hm' hs
      have hf : (writeMatch hex bg fg st a).1.formats = st.1.formats := by
        have := (foldl_writeMatch_append hex bg fg [a] st).1
        simpa using this
      rw [hf] at hp
      exact ⟨pre, post, hp⟩

theorem closer_prefix_iff (s : Str) : closer <+: s ↔ ∃ r, s = '<' :: '/' :: '>' :: r := by
  constructor
  · rintro ⟨r, hr⟩; exact ⟨r, by rw [← hr]; rfl⟩
  · rintro ⟨r, rfl⟩; exact ⟨r, rfl⟩

theorem closerSplit_clean : ∀ (inner : Str), '\n' ∉ inner → ¬ closer <:+: inner →
    ∀ z, closerSplit (inner ++ closer ++ z) = some (inner, z) := by
  intro inner
  induction inner with
  | nil => intro _ _ z; simpa using closerSplit_closer z
  | cons x t ih =>
    intro hn hc z
    have hx : x ≠ '\n' := fun h => hn (by simp [h])
    have hn' : '\n' ∉ t := fun h => hn (by simp [h])
    have hc' : ¬ closer <:+: t := by
      rintro ⟨a, b, hab⟩
      exact hc ⟨x :: a, b, by simp [← hab]⟩
    have hp : ¬ closer <+: x :: (t ++ closer ++ z) := by
      rw [closer_prefix_iff]
      rintro ⟨r, hr⟩
      rcases t with _ | ⟨y, _ | ⟨w, t'⟩⟩
      · simp [closer] at hr
      · simp [closer] at hr
      · simp only [List.cons_append, List.cons.injEq] at hr
        obtain ⟨rfl, rfl, rfl, _⟩ := hr
        exact hc ⟨[], t', rfl⟩
    have := ih hn' hc' z
    have e : x :: t ++ closer ++ z = x :: (t ++ closer ++ z) := by simp
    rw [e, closerSplit_step x _ hp hx, this]
    rfl

theorem findAll_leading_tag (g1 g2 g3 rest : Str) (h1 : ∀ x ∈ g1, isTagTok x = true)
    (h2 : ∀ x ∈ g2, isTagTok x = true)
    (h3 : ∀ z, closerSplit (g3 ++ closer ++ z) = some (g3, z)) (hr : '<' ∉ rest) :
    FindAllStringSubmatch rex (tagText g1 g2 g3 ++ rest)
      = [{ m0 := tagText g1 g2 g3, m1 := g1, m2 := g2, m3 := g3 }] := by
  have ht := tagAt_tagText g1 g2 g3 rest h1 h2 h3
  unfold FindAllStringSubmatch
  cases hs : tagText g1 g2 g3 ++ rest with
  | nil => simp [tagText] at hs
  | cons x t =>
    rw [hs] at ht
    rw [List.length_cons, findAllAux_some _ x t rest g1 g2 g3 ht, findAllAux_no_lt _ rest hr]

/-- A text that starts with a tag and has no `<` behind it: the buffer gets an
empty ambient chunk, the inner text in the tag's colours, and the rest in the
ambient colours. -/
theorem write_leading_tag (hex : Str → Bool → Str) (r : Renderer) (bg fg g1 g2 g3 rest : Str)
    (h1 : ∀ x ∈ g1, isTagTok x = true) (h2 : ∀ x ∈ g2, isTagTok x = true)
    (h3 : ∀ z, closerSplit (g3 ++ closer ++ z) = some (g3, z)) (hr : '<' ∉ rest)
    (hs : skipsMatch hex { m0 := tagText g1 g2 g3, m1 := g1, m2 := g2, m3 := g3 } = false) :
    (write hex r bg fg (tagText g1 g2 g3 ++ rest)).Buffer =
      r.Buffer ++ coloredText hex r.formats bg fg []
        ++ coloredText hex r.formats (if g2 = [] then bg else g2) (if g1 = [] then fg else g1) g3
        ++ coloredText hex r.formats bg fg rest := by
  have hne : tagText g1 g2 g3 ≠ [] := by simp [tagText]
  simp only [write, findAll_leading_tag g1 g2 g3 rest h1 h2 h3 hr, List.foldl_cons,
    List.foldl_nil, writeMatch_noskip hex bg fg _ _ hs, splitHead_prefix _ rest hne,
    replaceFirstEmpty_nil, replaceFirstEmpty_prefix, writeColoredText_buffer,
    writeColoredText_formats]

theorem init_buffer (r : Renderer) (shell : Str) : (init r shell).Buffer = r.Buffer := by
  unfold init; split_ifs <;> rfl

theorem init_shell (r : Renderer) (shell : Str) : (init r shell).shell = shell := by
  unfold init; split_ifs <;> rfl

theorem newRenderer_buffer (shell : Str) : (newRenderer shell).Buffer = [] := by
  unfold newRenderer; rw [init_buffer]; rfl

/-! ## General facts about `Re.run` -/

theorem starLoop_suffix (g : Bool) (step : Str → Caps → Res)
    (hstep : ∀ s c p, p ∈ step s c → p.1 <:+ s) :
    ∀ (n : Nat) (s : Str) (c : Caps) (p : Str × Caps), p ∈ starLoop g step n s c → p.1 <:+ s := by
  intro n
  induction n with
  | zero =>
    intro s c p hp
    simp only [starLoop, List.mem_singleton] at hp
    rw [hp]
  | succ n ih =>
    intro s c p hp
    have key : p = (s, c) ∨ p ∈ (step s c).flatMap (fun q => starLoop g step n q.1 q.2) := by
      cases g <;> simp only [starLoop, if_true, Bool.false_eq_true, if_false, List.mem_cons,
        List.mem_append, List.mem_singleton] at hp <;> tauto
    rcases key with h | h
    · rw [h]
    · obtain ⟨q, hq, hpq⟩ := List.mem_flatMap.mp h
      exact (ih q.1 q.2 p hpq).trans (hstep s c q hq)

/-- Whatever a pattern leaves unread is a suffix of what it was given. -/
theorem run_suffix : ∀ (r : Re) (s : Str) (c : Caps) (p : Str × Caps),
    p ∈ Re.run r s c → p.1 <:+ s := by
  intro r
  induction r with
  | eps =>
    intro s c p hp
    rw [run_eps, List.mem_singleton] at hp
    rw [hp]
  | cls f =>
    intro s c p hp
    cases s with
    | nil => rw [run_cls_nil] at hp; simp at hp
    | cons x t =>
      rw [run_cls_cons] at hp
      by_cases hf : f x = true
      · simp only [hf, if_true, List.mem_singleton] at hp
        rw [hp]; exact List.suffix_cons x t
      · simp [hf] at hp
  | cat a b iha ihb =>
    intro s c p hp
    rw [run_cat] at hp
    obtain ⟨q, hq, hpq⟩ := List.mem_flatMap.mp hp
    exact (ihb q.1 q.2 p hpq).trans (iha s c q hq)
  | alt a b iha ihb =>
    intro s c p hp
    rw [run_alt] at hp
    rcases List.mem_append.mp hp with h | h
    · exact iha s c p h
    · exact ihb s c p h
  | star a ih =>
    intro s c p hp
    rw [run_star] at hp
    exact starLoop_suffix true _ ih _ s c p hp
  | lazyStar a ih =>
    intro s c p hp
    rw [run_lazyStar] at hp
    exact starLoop_suffix false _ ih _ s c p hp
  | cap i a ih =>
    intro s c p hp
    rw [run_cap] at hp
    obtain ⟨q, hq, rfl⟩ := List.mem_map.mp hp
    exact ih s c q hq

/-- Enough rounds: when every round of a loop reads at least one character,
more than `s.length` rounds change nothing. -/
theorem starLoop_fuel (g : Bool) (step : Str → Caps → Res)
    (hstep : ∀ s c p, p ∈ step s c → p.1.length < s.length) :
    ∀ (n m : Nat) (s : Str) (c : Caps), s.length ≤ n → s.length ≤ m →
      starLoop g step n s c = starLoop g step m s c := by
  intro n
  induction n with
  | zero =>
    intro m s c hn hm
    have hs : s = [] := List.length_eq_zero.mp (Nat.le_zero.mp hn)
    subst hs
    cases m with
    | zero => rfl
    | succ m =>
      have : step [] c = [] := by
        cases h : step [] c with
        | nil => rfl
        | cons p l =>
          have := hstep [] c p (by rw [h]; simp)
          simp at this
      cases g <;> simp [starLoop, this]
  | succ n ih =>
    intro m s c hn hm
    cases m with
    | zero =>
      have hs : s = [] := List.length_eq_zero.mp (Nat.le_zero.mp hm)
      subst hs
      have : step [] c = [] := by
        cases h : step [] c with
        | nil => rfl
        | cons p l =>
          have := hstep [] c p (by rw [h]; simp)
          simp at this
      cases g <;> simp [starLoop, this]
    | succ m =>
      have e : (step s c).flatMap (fun p => starLoop g step n p.1 p.2)
          = (step s c).flatMap (fun p => starLoop g step m p.1 p.2) := by
        apply List.flatMap_congr
        intro p hp
        have := hstep s c p hp
        exact ih m p.1 p.2 (by omega) (by omega)
      simp only [starLoop, e]

/-! ## The pattern `rANSI` on a colour sequence -/

theorem head?_flatMap_of_head {α β : Type} (l : List α) (f : α → List β) (a : α) (b : β)
    (h1 : l.head? = some a) (h2 : (f a).head? = some b) : (l.flatMap f).head? = some b := by
  cases l with
  | nil => simp at h1
  | cons x l' =>
    simp only [List.head?_cons, Option.some.injEq] at h1
    subst h1
    rw [List.flatMap_cons, List.head?_append, h2]
    rfl

theorem head?_append_of_head {α : Type} (l l' : List α) (a : α) (h : l.head? = some a) :
    (l ++ l').head? = some a := by
  rw [List.head?_append, h]; rfl

theorem run_upto_stop (p : Char → Bool) (k : Nat) (y : Str) (c : Caps)
    (hy : ∀ x t, y = x :: t → p x = false) : Re.run (Re.upto (.cls p) k) y c = [(y, c)] := by
  cases k with
  | zero => rw [Re.upto, run_eps]
  | succ k =>
    rw [Re.upto, run_opt, run_cat]
    cases y with
    | nil => rw [run_cls_nil]; rfl
    | cons x t =>
      rw [run_cls_cons, hy x t rfl]; rfl

theorem run_upto_take (p : Char → Bool) (k : Nat) (x : Char) (t : Str) (c : Caps)
    (hx : p x = true) :
    Re.run (Re.upto (.cls p) (k + 1)) (x :: t) c
      = Re.run (Re.upto (.cls p) k) t c ++ [(x :: t, c)] := by
  rw [Re.upto, run_opt, run_cat, run_cls_cons, hx]
  simp

theorem run_rANSIParam_cons (x : Char) (t : Str) (c : Caps) :
    Re.run rANSIParam (x :: t) c
      = if x = ';' then Re.run (Re.upto (.cls isDigit) 4) t c else [] := by
  rw [rANSIParam, run_cat, run_lit]
  by_cases hx : x = ';'
  · simp [hx, Re.rep]
  · simp [hx]

theorem isDigit_semicolon : isDigit ';' = false := by decide

/-- The digits and the `;`-groups of a code are taken in whole by the first way of matching. -/
theorem run_sgr_head (z : Char) (rest : Str) (hz1 : isDigit z = false) (hz2 : z ≠ ';') :
    ∀ (t : Str) (k N : Nat) (c : Caps), sgrTail k t = true → t.length ≤ N →
      ((Re.run (Re.upto (.cls isDigit) k) (t ++ z :: rest) c).flatMap
          (fun p => starLoop true (Re.run rANSIParam) N p.1 p.2)).head? = some (z :: rest, c) := by
  intro t
  induction t with
  | nil =>
    intro k N c _ _
    rw [List.nil_append, run_upto_stop isDigit k (z :: rest) c
      (fun x t h => by cases h; exact hz1)]
    simp only [List.flatMap_cons, List.flatMap_nil, List.append_nil]
    cases N with
    | zero => rfl
    | succ N =>
      simp only [starLoop, if_true]
      rw [run_rANSIParam_cons, if_neg hz2]
      rfl
  | cons x t ih =>
    intro k N c hk hN
    by_cases hx : x = ';'
    · subst hx
      have hk' : sgrTail 4 t = true := by simpa [sgrTail] using hk
      rw [List.cons_append, run_upto_stop isDigit k (';' :: (t ++ z :: rest)) c
        (fun x t h => by cases h; exact isDigit_semicolon)]
      simp only [List.flatMap_cons, List.flatMap_nil, List.append_nil]
      cases N with
      | zero => simp at hN
      | succ N =>
        simp only [starLoop, if_true]
        rw [run_rANSIParam_cons, if_pos rfl]
        exact head?_append_of_head _ _ _ (ih 4 N c hk' (by simpa using hN))
    · by_cases hd : isDigit x = true
      · cases k with
        | zero => simp [sgrTail, hx, hd] at hk
        | succ k =>
          have hk' : sgrTail k t = true := by simpa [sgrTail, hx, hd] using hk
          rw [List.cons_append, run_upto_take isDigit k x _ c hd, List.flatMap_append]
          exact head?_append_of_head _ _ _
            (ih k N c hk' (by simp at hN; omega))
      · simp [sgrTail, hx, hd] at hk

theorem run_rANSIParam_length (s : Str) (c : Caps) (p : Str × Caps)
    (hp : p ∈ Re.run rANSIParam s c) : p.1.length < s.length := by
  cases s with
  | nil => simp [rANSIParam, run_cat, run_lit] at hp
  | cons x t =>
    rw [run_rANSIParam_cons] at hp
    by_cases hx : x = ';'
    · rw [if_pos hx] at hp
      have := (run_suffix _ _ _ _ hp).length_le
      simp; omega
    · simp [hx] at hp

/-- The second alternative of `rANSI` takes a code and its final letter, and nothing more, first. -/
theorem run_rANSIFinal_head (q : Str) (z : Char) (rest : Str) (c : Caps)
    (hq : isSgrCode q = true) (hz0 : isFinal z = true) (hz1 : isDigit z = false)
    (hz2 : z ≠ ';') :
    (Re.run rANSIFinal (q ++ z :: rest) c).head? = some (rest, c) := by
  rw [rANSIFinal, run_cat, run_opt, List.flatMap_append]
  cases q with
  | nil =>
    have : Re.run (.cat (Re.rep (.cls isDigit) 1 4) (.star rANSIParam)) (z :: rest) c = [] := by
      rw [run_cat, Re.rep, run_cat, run_cls_cons, hz1]; rfl
    rw [List.nil_append, this]
    simp [run_cls_cons, hz0]
  | cons x t =>
    have hx : isDigit x = true := by
      simp only [isSgrCode, Bool.and_eq_true] at hq; exact hq.1
    have ht : sgrTail 3 t = true := by
      simp only [isSgrCode, Bool.and_eq_true] at hq; exact hq.2
    have e1 : Re.run (.cat (Re.rep (.cls isDigit) 1 4) (.star rANSIParam))
        (x :: t ++ z :: rest) c
        = (Re.run (Re.upto (.cls isDigit) 3) (t ++ z :: rest) c).flatMap
            (fun p => starLoop true (Re.run rANSIParam) (t ++ z :: rest).length p.1 p.2) := by
      rw [run_cat, Re.rep, run_cat, List.cons_append, run_cls_cons, hx]
      simp only [if_true, List.flatMap_cons, List.flatMap_nil, List.append_nil, Re.rep]
      apply List.flatMap_congr
      intro p hp
      rw [run_star]
      have := (run_suffix _ _ _ _ hp).length_le
      exact starLoop_fuel true _ run_rANSIParam_length _ _ _ _ (Nat.le_refl _) this
    have h1 := run_sgr_head z rest hz1 hz2 t 3 (t ++ z :: rest).length c ht (by simp)
    rw [← e1] at h1
    apply head?_append_of_head
    exact head?_flatMap_of_head _ _ _ _ h1 (by simp [run_cls_cons, hz0])

theorem run_lit_of_not_mem (ch : Char) (s : Str) (c : Caps) (h : ch ∉ s) :
    Re.run (Re.lit ch) s c = [] := by
  rw [run_lit]
  cases s with
  | nil => rfl
  | cons x t =>
    have : x ≠ ch := fun hx => h (by simp [hx])
    simp [this]

/-- Without a bell in the string the first alternative of `rANSI` does not match. -/
theorem run_rANSIBell_nil (s : Str) (c : Caps) (h : BEL ∉ s) : Re.run rANSIBell s c = [] := by
  rw [rANSIBell, run_cat]
  apply List.flatMap_eq_nil_iff.mpr
  intro p hp
  have hs := run_suffix _ _ _ _ hp
  exact run_lit_of_not_mem _ _ _ (fun hm => h (hs.subset hm))

theorem greedyTails_head (p : Char → Bool) (s : Str) :
    (greedyTails p s).head? = some (s.dropWhile p) := by
  induction s with
  | nil => rfl
  | cons x t ih =>
    by_cases hp : p x = true
    · simp only [greedyTails, hp, if_true, List.dropWhile_cons]
      exact head?_append_of_head _ _ _ ih
    · simp [greedyTails, hp, List.dropWhile_cons]

theorem isIntro_of_isDigit (x : Char) (h : isDigit x = true) : isIntro x = false := by
  by_contra hc
  have hc' : isIntro x = true := by simpa using hc
  simp only [isIntro, Bool.or_eq_true, beq_iff_eq] at hc'
  rcases hc' with (((((h1 | h1) | h1) | h1) | h1) | h1) | h1 <;> subst h1 <;> exact absurd h (by decide)

theorem dropWhile_intro (I q : Str) (z : Char) (rest : Str) (hI : ∀ x ∈ I, isIntro x = true)
    (hq : isSgrCode q = true) (hz : isIntro z = false) :
    (I ++ q ++ z :: rest).dropWhile isIntro = q ++ z :: rest := by
  have hstop : ∃ y u, q ++ z :: rest = y :: u ∧ isIntro y = false := by
    cases q with
    | nil => exact ⟨z, rest, rfl, hz⟩
    | cons x t =>
      have hx : isDigit x = true := by
        simp only [isSgrCode, Bool.and_eq_true] at hq; exact hq.1
      exact ⟨x, t ++ z :: rest, rfl, isIntro_of_isDigit x hx⟩
  obtain ⟨y, u, hyu, hy⟩ := hstop
  rw [List.append_assoc, hyu]
  exact (takeWhile_append_stop isIntro I y u hI hy).2

/-- A colour sequence is matched by `rANSI` in whole and alone: escape, some
opening characters, a code, a final letter that is not a digit. -/
theorem matchAt_rANSI_sgr (I q : Str) (z : Char) (rest : Str)
    (hI : ∀ x ∈ I, isIntro x = true) (hq : isSgrCode q = true) (hz : isIntro z = false)
    (hz0 : isFinal z = true) (hz1 : isDigit z = false) (hz2 : z ≠ ';')
    (hb : BEL ∉ q ++ z :: rest) :
    Re.matchAt rANSI (ESC :: (I ++ q ++ z :: rest)) = some (rest, []) := by
  have hE : isEscStart ESC = true := by decide
  rw [Re.matchAt, rANSI, run_cat, run_cls_cons, hE]
  simp only [if_true, List.flatMap_cons, List.flatMap_nil, List.append_nil]
  rw [run_cat, run_star, starLoop_greedy_cls isIntro [] _ _ (Nat.le_refl _)]
  apply head?_flatMap_of_head _ _ (q ++ z :: rest, [])
  · rw [List.head?_map, greedyTails_head, dropWhile_intro I q z rest hI hq hz]
    rfl
  · show (Re.run (.alt rANSIBell rANSIFinal) (q ++ z :: rest) []).head? = some (rest, [])
    rw [run_alt, run_rANSIBell_nil _ _ hb, List.nil_append]
    exact run_rANSIFinal_head q z rest [] hq hz0 hz1 hz2

/-- The pattern `rANSI` matches only at an escape or CSI character. -/
theorem matchAt_rANSI_none (x : Char) (t : Str) (hx : isEscStart x = false) :
    Re.matchAt rANSI (x :: t) = none := by
  rw [Re.matchAt, rANSI, run_cat, run_cls_cons, hx]
  rfl

/-! ## `ReplaceAllString` and `ReplaceAll` -/

theorem replaceAllAux_fuel (r : Re) : ∀ (n m : Nat) (s : Str), s.length ≤ n → s.length ≤ m →
    replaceAllAux r n s = replaceAllAux r m s := by
  intro n
  induction n with
  | zero =>
    intro m s hn _
    have hs : s = [] := List.length_eq_zero.mp (Nat.le_zero.mp hn)
    subst hs
    cases m <;> rfl
  | succ n ih =>
    intro m s hn hm
    cases m with
    | zero =>
      have hs : s = [] := List.length_eq_zero.mp (Nat.le_zero.mp hm)
      subst hs; rfl
    | succ m =>
      cases s with
      | nil => rfl
      | cons x t =>
        have ht : t.length ≤ n := by simpa using hn
        have ht' : t.length ≤ m := by simpa using hm
        simp only [replaceAllAux]
        cases hq : Re.matchAt r (x :: t) with
        | none => simp only [ih m t ht ht']
        | some p =>
          obtain ⟨rest, c⟩ := p
          simp only
          by_cases hl : rest.length < (x :: t).length
          · simp only [hl, if_true]
            simp only [List.length_cons] at hl
            exact ih m rest (by omega) (by omega)
          · simp only [hl, if_false, ih m t ht ht']

theorem replaceAll_keep (r : Re) (x : Char) (t : Str) (h : Re.matchAt r (x :: t) = none) :
    ReplaceAllStringEmpty r (x :: t) = x :: ReplaceAllStringEmpty r t := by
  simp [ReplaceAllStringEmpty, replaceAllAux, h]

theorem replaceAll_drop (r : Re) (x : Char) (t rest : Str) (c : Caps)
    (h : Re.matchAt r (x :: t) = some (rest, c)) (hl : rest.length < (x :: t).length) :
    ReplaceAllStringEmpty r (x :: t) = ReplaceAllStringEmpty r rest := by
  simp only [List.length_cons] at hl
  simp only [ReplaceAllStringEmpty, List.length_cons, replaceAllAux, h]
  rw [if_pos hl]
  exact replaceAllAux_fuel r _ _ rest (by omega) (Nat.le_refl _)

theorem replaceAll_rANSI_clean (u v : Str) (hu : ∀ x ∈ u, isEscStart x = false) :
    ReplaceAllStringEmpty rANSI (u ++ v) = u ++ ReplaceAllStringEmpty rANSI v := by
  induction u with
  | nil => rfl
  | cons x t ih =>
    rw [List.cons_append, replaceAll_keep rANSI x _ (matchAt_rANSI_none x _ (hu x (by simp))),
      ih (fun y hy => hu y (by simp [hy]))]
    rfl

theorem replaceAll_rANSI_sgr (I q : Str) (z : Char) (rest : Str)
    (hI : ∀ x ∈ I, isIntro x = true) (hq : isSgrCode q = true) (hz : isIntro z = false)
    (hz0 : isFinal z = true) (hz1 : isDigit z = false) (hz2 : z ≠ ';')
    (hb : BEL ∉ q ++ z :: rest) :
    ReplaceAllStringEmpty rANSI (ESC :: (I ++ q ++ z :: rest))
      = ReplaceAllStringEmpty rANSI rest :=
  replaceAll_drop rANSI ESC _ rest []
    (matchAt_rANSI_sgr I q z rest hI hq hz hz0 hz1 hz2 hb) (by simp; omega)

/-- The scan of `ReplaceAll` does not depend on a bound that is large enough. -/
theorem removeAllAux_fuel (old : Str) : ∀ (n m : Nat) (s : Str), s.length ≤ n → s.length ≤ m →
    removeAllAux old n s = removeAllAux old m s := by
  intro n
  induction n with
  | zero =>
    intro m s hn _
    have hs : s = [] := List.length_eq_zero.mp (Nat.le_zero.mp hn)
    subst hs
    cases m <;> rfl
  | succ n ih =>
    intro m s hn hm
    cases m with
    | zero =>
      have hs : s = [] := List.length_eq_zero.mp (Nat.le_zero.mp hm)
      subst hs; rfl
    | succ m =>
      cases s with
      | nil => rfl
      | cons x t =>
        have ht : t.length ≤ n := by simpa using hn
        have ht' : t.length ≤ m := by simpa using hm
        simp only [removeAllAux]
        by_cases hc : old ≠ [] ∧ old.isPrefixOf (x :: t) = true
        · rw [if_pos hc, if_pos hc]
          have hlen : 0 < old.length := List.length_pos.mpr hc.1
          apply ih
          · simp only [List.length_drop, List.length_cons]; omega
          · simp only [List.length_drop, List.length_cons]; omega
        · rw [if_neg hc, if_neg hc, ih m t ht ht']

theorem removeAll_keep (old : Str) (x : Char) (t : Str) (h : ¬ old <+: x :: t) :
    ReplaceAllEmpty (x :: t) old = x :: ReplaceAllEmpty t old := by
  simp [ReplaceAllEmpty, removeAllAux, h]

theorem removeAll_drop (old v : Str) (h : old ≠ []) :
    ReplaceAllEmpty (old ++ v) old = ReplaceAllEmpty v old := by
  cases hs : old ++ v with
  | nil => simp [h] at hs
  | cons x t =>
    have hp : old <+: x :: t := ⟨v, hs⟩
    have hd : (x :: t).drop old.length = v := by rw [← hs]; simp
    have hlen : 0 < old.length := List.length_pos.mpr h
    have hv : v.length ≤ t.length := by
      have := congrArg List.length hs
      simp at this; omega
    simp only [ReplaceAllEmpty, List.length_cons, removeAllAux, List.isPrefixOf_iff_prefix, hp,
      h, ne_eq, not_false_eq_true, and_self, if_true]
    rw [hd]
    exact removeAllAux_fuel old _ _ v hv (Nat.le_refl _)

/-- The scan of `ReplaceAll` keeps a text without the two-character token, when what follows
cannot complete a token across the border. -/
theorem removeAll_free (a b : Char) :
    ∀ (t v : Str), ¬ [a, b] <:+: t → (∀ y w, v = y :: w → y ≠ b) →
      ReplaceAllEmpty (t ++ v) [a, b] = t ++ ReplaceAllEmpty v [a, b] := by
  intro t
  induction t with
  | nil => intro v _ _; rfl
  | cons x t ih =>
    intro v ht hv
    have ht' : ¬ [a, b] <:+: t := by
      rintro ⟨p, q, hpq⟩
      exact ht ⟨x :: p, q, by simp [← hpq]⟩
    have hp : ¬ [a, b] <+: x :: (t ++ v) := by
      intro h
      rw [List.cons_prefix_cons] at h
      obtain ⟨rfl, h2⟩ := h
      cases t with
      | nil =>
        cases v with
        | nil => simp at h2
        | cons y w =>
          rw [List.nil_append, List.cons_prefix_cons] at h2
          exact hv y w rfl h2.1.symm
      | cons y t' =>
        rw [List.cons_append, List.cons_prefix_cons] at h2
        obtain ⟨rfl, _⟩ := h2
        exact ht ⟨[], t', rfl⟩
    rw [List.cons_append, removeAll_keep _ x _ hp, ih v ht' hv]
    rfl

/-! ## The filled templates -/

theorem sprintf_single (r : Renderer) (shell a t : Str) :
    Sprintf (init r shell).formats.single [.str a, .str t]
      = wrapOpen shell ++ (ESC :: '[' :: (a ++ 'm' :: (wrapClose shell ++ (t ++
          (wrapOpen shell ++ (ESC :: '[' :: ('0' :: 'm' :: wrapClose shell))))))) := by
  by_cases h1 : shell = zsh
  · subst h1
    simp only [init, if_true, wrapOpen, wrapClose]
    rfl
  · by_cases h2 : shell = bash
    · subst h2
      have : bash ≠ zsh := by decide
      simp only [init, this, if_false, if_true, wrapOpen, wrapClose]
      rfl
    · simp only [init, h1, h2, if_false, wrapOpen, wrapClose]
      rfl

/-- The dual-colour template, filled, in every dialect. -/
theorem sprintf_full (r : Renderer) (shell a b t : Str) :
    Sprintf (init r shell).formats.full [.str a, .str b, .str t]
      = wrapOpen shell ++ (ESC :: '[' :: (a ++ 'm' :: (ESC :: '[' :: (b ++ 'm' ::
          (wrapClose shell ++ (t ++
            (wrapOpen shell ++ (ESC :: '[' :: ('0' :: 'm' :: wrapClose shell))))))))) := by
  by_cases h1 : shell = zsh
  · subst h1
    simp only [init, if_true, wrapOpen, wrapClose]
    rfl
  · by_cases h2 : shell = bash
    · subst h2
      have : bash ≠ zsh := by decide
      simp only [init, this, if_false, if_true, wrapOpen, wrapClose]
      rfl
    · simp only [init, h1, h2, if_false, wrapOpen, wrapClose]
      rfl

/-- The transparent template, filled, in every dialect. -/
theorem sprintf_transparent (r : Renderer) (shell a t : Str) :
    Sprintf (init r shell).formats.transparent [.str a, .str t]
      = wrapOpen shell ++ (ESC :: '[' :: (a ++ ';' :: '4' :: '9' :: 'm' ::
          (ESC :: '[' :: ('7' :: 'm' :: (wrapClose shell ++ (t ++
            (wrapOpen shell ++ (ESC :: '[' :: ('m' ::
              (ESC :: '[' :: ('0' :: 'm' :: wrapClose shell))))))))))) := by
  by_cases h1 : shell = zsh
  · subst h1
    simp only [init, if_true, wrapOpen, wrapClose]
    rfl
  · by_cases h2 : shell = bash
    · subst h2
      have : bash ≠ zsh := by decide
      simp only [init, this, if_false, if_true, wrapOpen, wrapClose]
      rfl
    · simp only [init, h1, h2, if_false, wrapOpen, wrapClose]
      rfl

theorem init_rANSI (r : Renderer) (shell : Str) : (init r shell).formats.rANSI = rANSI := by
  unfold init; split_ifs <;> rfl

theorem wrapOpen_chars (shell : Str) :
    ∀ x ∈ wrapOpen shell, isEscStart x = false ∧ x ≠ BEL := by
  unfold wrapOpen
  split_ifs <;> decide

theorem wrapClose_chars (shell : Str) :
    ∀ x ∈ wrapClose shell, isEscStart x = false ∧ x ≠ BEL := by
  unfold wrapClose
  split_ifs <;> decide

/-! ## Codes -/

theorem sgrTail_chars : ∀ (t : Str) (k : Nat), sgrTail k t = true →
    ∀ x ∈ t, x = ';' ∨ isDigit x = true := by
  intro t
  induction t with
  | nil => intro k _ x hx; simp at hx
  | cons y t ih =>
    intro k hk x hx
    by_cases hy : y = ';'
    · have hk' : sgrTail 4 t = true := by simpa [sgrTail, hy] using hk
      rcases List.mem_cons.mp hx with rfl | hx'
      · exact Or.inl hy
      · exact ih 4 hk' x hx'
    · by_cases hd : isDigit y = true
      · cases k with
        | zero => simp [sgrTail, hy, hd] at hk
        | succ k =>
          have hk' : sgrTail k t = true := by simpa [sgrTail, hy, hd] using hk
          rcases List.mem_cons.mp hx with rfl | hx'
          · exact Or.inr hd
          · exact ih k hk' x hx'
      · simp [sgrTail, hy, hd] at hk

theorem isSgrCode_chars (q : Str) (hq : isSgrCode q = true) :
    ∀ x ∈ q, x = ';' ∨ isDigit x = true := by
  cases q with
  | nil => intro x hx; simp at hx
  | cons y t =>
    simp only [isSgrCode, Bool.and_eq_true] at hq
    intro x hx
    rcases List.mem_cons.mp hx with rfl | hx'
    · exact Or.inr hq.1
    · exact sgrTail_chars t 3 hq.2 x hx'

theorem isSgrCode_no_bel (q : Str) (hq : isSgrCode q = true) : BEL ∉ q := by
  intro h
  rcases isSgrCode_chars q hq BEL h with h1 | h1
  · exact absurd h1 (by decide)
  · exact absurd h1 (by decide)

theorem sgrTail_append_49 : ∀ (t : Str) (k : Nat), sgrTail k t = true →
    sgrTail k (t ++ [';', '4', '9']) = true := by
  intro t
  induction t with
  | nil => intro k _; simp [sgrTail]; decide
  | cons y t ih =>
    intro k hk
    by_cases hy : y = ';'
    · have hk' : sgrTail 4 t = true := by simpa [sgrTail, hy] using hk
      simpa [sgrTail, hy] using ih 4 hk'
    · by_cases hd : isDigit y = true
      · cases k with
        | zero => simp [sgrTail, hy, hd] at hk
        | succ k =>
          have hk' : sgrTail k t = true := by simpa [sgrTail, hy, hd] using hk
          simpa [sgrTail, hy, hd] using ih k hk'
      · simp [sgrTail, hy, hd] at hk

/-! ## Stripping one chunk -/

theorem replaceAll_sgr_m (a Y : Str) (ha : isSgrCode a = true) (hY : BEL ∉ Y) :
    ReplaceAllStringEmpty rANSI (ESC :: '[' :: (a ++ 'm' :: Y))
      = ReplaceAllStringEmpty rANSI Y := by
  have hb : BEL ∉ a ++ 'm' :: Y := by
    intro h
    rcases List.mem_append.mp h with h | h
    · exact isSgrCode_no_bel a ha h
    · rcases List.mem_cons.mp h with h | h
      · exact absurd h (by decide)
      · exact hY h
  have := replaceAll_rANSI_sgr ['['] a 'm' Y (by decide) ha (by decide) (by decide) (by decide)
    (by decide) hb
  simpa using this

theorem replaceAll_sgr_49 (a Y : Str) (ha : isSgrCode a = true) (hY : BEL ∉ Y) :
    ReplaceAllStringEmpty rANSI (ESC :: '[' :: (a ++ ';' :: '4' :: '9' :: 'm' :: Y))
      = ReplaceAllStringEmpty rANSI Y := by
  cases a with
  | nil =>
    have hb : BEL ∉ ['4', '9'] ++ 'm' :: Y := by
      intro h
      simp only [List.cons_append, List.nil_append, List.mem_cons] at h
      rcases h with h | h | h | h
      · exact absurd h (by decide)
      · exact absurd h (by decide)
      · exact absurd h (by decide)
      · exact hY h
    have := replaceAll_rANSI_sgr ['[', ';'] ['4', '9'] 'm' Y (by decide) (by decide) (by decide)
      (by decide) (by decide) (by decide) hb
    simpa using this
  | cons x t =>
    have hq : isSgrCode ((x :: t) ++ [';', '4', '9']) = true := by
      simp only [isSgrCode, Bool.and_eq_true] at ha
      simp only [List.cons_append, isSgrCode, Bool.and_eq_true]
      exact ⟨ha.1, sgrTail_append_49 t 3 ha.2⟩
    have hb : BEL ∉ ((x :: t) ++ [';', '4', '9']) ++ 'm' :: Y := by
      intro h
      rcases List.mem_append.mp h with h | h
      · exact isSgrCode_no_bel _ hq h
      · rcases List.mem_cons.mp h with h | h
        · exact absurd h (by decide)
        · exact hY h
    have := replaceAll_rANSI_sgr ['['] ((x :: t) ++ [';', '4', '9']) 'm' Y (by decide) hq
      (by decide) (by decide) (by decide) (by decide) hb
    simpa using this

theorem bel_wrapOpen (shell : Str) : BEL ∉ wrapOpen shell :=
  fun h => (wrapOpen_chars shell BEL h).2 rfl

theorem bel_wrapClose (shell : Str) : BEL ∉ wrapClose shell :=
  fun h => (wrapClose_chars shell BEL h).2 rfl

/-- The end of every chunk: marker, reset sequence, marker. -/
theorem replaceAll_chunk_end (shell more : Str) (hm : BEL ∉ more) :
    ReplaceAllStringEmpty rANSI
        (wrapOpen shell ++ (ESC :: '[' :: ('0' :: 'm' :: (wrapClose shell ++ more))))
      = wrapOpen shell ++ (wrapClose shell ++ ReplaceAllStringEmpty rANSI more) := by
  have h0 : BEL ∉ wrapClose shell ++ more := by
    simp [bel_wrapClose shell, hm]
  rw [replaceAll_rANSI_clean _ _ (fun x hx => (wrapOpen_chars shell x hx).1)]
  have := replaceAll_sgr_m ['0'] (wrapClose shell ++ more) (by decide) h0
  simp only [List.cons_append, List.nil_append] at this
  rw [this, replaceAll_rANSI_clean _ _ (fun x hx => (wrapClose_chars shell x hx).1)]

/-- The middle of every chunk: marker, text, and the end of the chunk. -/
theorem replaceAll_chunk_text (shell t more : Str) (ht : ∀ x ∈ t, isEscStart x = false)
    (hm : BEL ∉ more) :
    ReplaceAllStringEmpty rANSI
        (wrapClose shell ++ (t ++
          (wrapOpen shell ++ (ESC :: '[' :: ('0' :: 'm' :: (wrapClose shell ++ more))))))
      = wrapClose shell ++ (t ++
          (wrapOpen shell ++ (wrapClose shell ++ ReplaceAllStringEmpty rANSI more))) := by
  rw [replaceAll_rANSI_clean _ _ (fun x hx => (wrapClose_chars shell x hx).1),
    replaceAll_rANSI_clean _ _ ht, replaceAll_chunk_end shell more hm]

theorem bel_chunk_text (shell t more : Str) (ht : BEL ∉ t) (hm : BEL ∉ more) :
    BEL ∉ wrapClose shell ++ (t ++
      (wrapOpen shell ++ (ESC :: '[' :: ('0' :: 'm' :: (wrapClose shell ++ more))))) := by
  have h1 := bel_wrapOpen shell
  have h2 := bel_wrapClose shell
  have e1 : BEL ≠ ESC := by decide
  have e2 : BEL ≠ '[' := by decide
  have e3 : BEL ≠ '0' := by decide
  have e4 : BEL ≠ 'm' := by decide
  simp [h1, h2, ht, hm, e1, e2, e3, e4]

theorem replaceAll_single (r : Renderer) (shell a t more : Str) (ha : isSgrCode a = true)
    (ht : ∀ x ∈ t, isEscStart x = false) (htb : BEL ∉ t) (hm : BEL ∉ more) :
    ReplaceAllStringEmpty rANSI (Sprintf (init r shell).formats.single [.str a, .str t] ++ more)
      = wrapOpen shell ++ (wrapClose shell ++ (t ++
          (wrapOpen shell ++ (wrapClose shell ++ ReplaceAllStringEmpty rANSI more)))) := by
  rw [sprintf_single]
  simp only [List.append_assoc, List.cons_append]
  rw [replaceAll_rANSI_clean _ _ (fun x hx => (wrapOpen_chars shell x hx).1),
    replaceAll_sgr_m a _ ha (bel_chunk_text shell t more htb hm),
    replaceAll_chunk_text shell t more ht hm]

theorem replaceAll_full (r : Renderer) (shell a b t more : Str) (ha : isSgrCode a = true)
    (hb : isSgrCode b = true)
    (ht : ∀ x ∈ t, isEscStart x = false) (htb : BEL ∉ t) (hm : BEL ∉ more) :
    ReplaceAllStringEmpty rANSI
        (Sprintf (init r shell).formats.full [.str a, .str b, .str t] ++ more)
      = wrapOpen shell ++ (wrapClose shell ++ (t ++
          (wrapOpen shell ++ (wrapClose shell ++ ReplaceAllStringEmpty rANSI more)))) := by
  rw [sprintf_full]
  simp only [List.append_assoc, List.cons_append]
  have h1 := bel_chunk_text shell t more htb hm
  have h2 : BEL ∉ ESC :: '[' :: (b ++ 'm' :: (wrapClose shell ++ (t ++ (wrapOpen shell ++
      (ESC :: '[' :: ('0' :: 'm' :: (wrapClose shell ++ more))))))) := by
    have hb' := isSgrCode_no_bel b hb
    have e1 : BEL ≠ ESC := by decide
    have e2 : BEL ≠ '[' := by decide
    have e4 : BEL ≠ 'm' := by decide
    intro h
    rcases List.mem_cons.mp h with h | h
    · exact e1 h
    rcases List.mem_cons.mp h with h | h
    · exact e2 h
    rcases List.mem_append.mp h with h | h
    · exact hb' h
    rcases List.mem_cons.mp h with h | h
    · exact e4 h
    exact h1 h
  rw [replaceAll_rANSI_clean _ _ (fun x hx => (wrapOpen_chars shell x hx).1),
    replaceAll_sgr_m a _ ha h2, replaceAll_sgr_m b _ hb h1,
    replaceAll_chunk_text shell t more ht hm]

theorem replaceAll_transparent (r : Renderer) (shell a t more : Str) (ha : isSgrCode a = true)
    (ht : ∀ x ∈ t, isEscStart x = false) (htb : BEL ∉ t) (hm : BEL ∉ more) :
    ReplaceAllStringEmpty rANSI
        (Sprintf (init r shell).formats.transparent [.str a, .str t] ++ more)
      = wrapOpen shell ++ (wrapClose shell ++ (t ++
          (wrapOpen shell ++ (wrapClose shell ++ ReplaceAllStringEmpty rANSI more)))) := by
  rw [sprintf_transparent]
  simp only [List.append_assoc, List.cons_append]
  have e1 : BEL ≠ ESC := by decide
  have e2 : BEL ≠ '[' := by decide
  have e3 : BEL ≠ '0' := by decide
  have e4 : BEL ≠ 'm' := by decide
  have e7 : BEL ≠ '7' := by decide
  have h0 : BEL ∉ wrapClose shell ++ more := by simp [bel_wrapClose shell, hm]
  have h1 : BEL ∉ ESC :: '[' :: ('0' :: 'm' :: (wrapClose shell ++ more)) := by
    simp [e1, e2, e3, e4, bel_wrapClose shell, hm]
  have h3 : BEL ∉ wrapClose shell ++ (t ++ (wrapOpen shell ++ (ESC :: '[' :: ('m' ::
      (ESC :: '[' :: ('0' :: 'm' :: (wrapClose shell ++ more))))))) := by
    simp [e1, e2, e3, e4, bel_wrapClose shell, bel_wrapOpen shell, hm, htb]
  have h4 : BEL ∉ ESC :: '[' :: ('7' :: 'm' :: (wrapClose shell ++ (t ++ (wrapOpen shell ++
      (ESC :: '[' :: ('m' :: (ESC :: '[' :: ('0' :: 'm' :: (wrapClose shell ++ more))))))))) := by
    simp [e1, e2, e3, e4, e7, bel_wrapClose shell, bel_wrapOpen shell, hm, htb]
  have s1 := replaceAll_sgr_m [] (ESC :: '[' :: ('0' :: 'm' :: (wrapClose shell ++ more)))
    (by decide) h1
  have s2 := replaceAll_sgr_m ['0'] (wrapClose shell ++ more) (by decide) h0
  have s3 := replaceAll_sgr_m ['7'] (wrapClose shell ++ (t ++ (wrapOpen shell ++
    (ESC :: '[' :: ('m' :: (ESC :: '[' :: ('0' :: 'm' :: (wrapClose shell ++ more)))))))) (by decide)
    h3
  simp only [List.nil_append, List.cons_append] at s1 s2 s3
  rw [replaceAll_rANSI_clean _ _ (fun x hx => (wrapOpen_chars shell x hx).1),
    replaceAll_sgr_49 a _ ha h4, s3,
    replaceAll_rANSI_clean _ _ (fun x hx => (wrapClose_chars shell x hx).1),
    replaceAll_rANSI_clean _ _ ht,
    replaceAll_rANSI_clean _ _ (fun x hx => (wrapOpen_chars shell x hx).1),
    s1, s2,
    replaceAll_rANSI_clean _ _ (fun x hx => (wrapClose_chars shell x hx).1)]

theorem lookup_mem {α β : Type} [BEq α] (k : α) (v : β) :
    ∀ l : List (α × β), l.lookup k = some v → v ∈ l.map Prod.snd := by
  intro l
  induction l with
  | nil => intro h; simp at h
  | cons p l ih =>
    intro h
    obtain ⟨k', v'⟩ := p
    rw [List.lookup_cons] at h
    cases hk : (k == k') with
    | true =>
      rw [hk] at h
      simp only [Option.some.injEq] at h
      subst h; simp
    | false =>
      rw [hk] at h
      have := ih h
      simp only [List.map_cons, List.mem_cons]
      exact Or.inr this

theorem colorMap_codes :
    ∀ codes ∈ colorMap.map Prod.snd, isSgrCode codes.1 = true ∧ isSgrCode codes.2 = true := by
  decide

/-- Every resolved code has the form of `isSgrCode` when the codes of the library have. -/
theorem getAnsi_sgr (hex : Str → Bool → Str) (hhex : ∀ s b, isSgrCode (hex s b) = true)
    (s : Str) (b : Bool) : isSgrCode (getAnsiFromColorString hex s b) = true := by
  unfold getAnsiFromColorString getColorFromName
  cases hl : colorMap.lookup s with
  | none => exact hhex s b
  | some codes =>
    have := colorMap_codes codes (lookup_mem s codes colorMap hl)
    cases b
    · exact this.1
    · exact this.2

/-- Stripping the escape sequences of one chunk: the markers and the text stay. -/
theorem replaceAll_coloredText (hex : Str → Bool → Str)
    (hhex : ∀ s b, isSgrCode (hex s b) = true) (r : Renderer) (shell b f t more : Str)
    (hd : ¬ dropsText b f) (ht : ∀ x ∈ t, isEscStart x = false) (htb : BEL ∉ t)
    (hm : BEL ∉ more) :
    ReplaceAllStringEmpty rANSI (coloredText hex (init r shell).formats b f t ++ more)
      = wrapOpen shell ++ (wrapClose shell ++ (t ++
          (wrapOpen shell ++ (wrapClose shell ++ ReplaceAllStringEmpty rANSI more)))) := by
  unfold coloredText
  by_cases h1 : f = Transparent ∧ b ≠ []
  · rw [if_pos h1]
    exact replaceAll_transparent r shell _ t more (getAnsi_sgr hex hhex _ _) ht htb hm
  · rw [if_neg h1]
    by_cases h2 : b = [] ∨ b = Transparent
    · rw [if_pos h2]
      exact replaceAll_single r shell _ t more (getAnsi_sgr hex hhex _ _) ht htb hm
    · rw [if_neg h2]
      by_cases h3 : f ≠ [] ∧ b ≠ []
      · rw [if_pos h3]
        exact replaceAll_full r shell _ _ t more (getAnsi_sgr hex hhex _ _)
          (getAnsi_sgr hex hhex _ _) ht htb hm
      · exfalso
        apply hd
        unfold dropsText
        push_neg at h2 h3
        by_cases hf : f = []
        · exact ⟨hf, h2.1, h2.2⟩
        · exact absurd (h3 hf) h2.1

theorem bel_coloredText (hex : Str → Bool → Str)
    (hhex : ∀ s b, isSgrCode (hex s b) = true) (r : Renderer) (shell b f t : Str)
    (htb : BEL ∉ t) : BEL ∉ coloredText hex (init r shell).formats b f t := by
  have e1 : BEL ≠ ESC := by decide
  have e2 : BEL ≠ '[' := by decide
  have e3 : BEL ≠ '0' := by decide
  have e4 : BEL ≠ 'm' := by decide
  have e5 : BEL ≠ '7' := by decide
  have e6 : BEL ≠ ';' := by decide
  have e7 : BEL ≠ '4' := by decide
  have e8 : BEL ≠ '9' := by decide
  have c1 := isSgrCode_no_bel _ (getAnsi_sgr hex hhex b false)
  have c2 := isSgrCode_no_bel _ (getAnsi_sgr hex hhex b true)
  have c3 := isSgrCode_no_bel _ (getAnsi_sgr hex hhex f false)
  have w1 := bel_wrapOpen shell
  have w2 := bel_wrapClose shell
  unfold coloredText
  split_ifs
  · rw [sprintf_transparent]
    simp [e1, e2, e3, e4, e5, e6, e7, e8, c1, w1, w2, htb]
  · rw [sprintf_single]
    simp [e1, e2, e3, e4, c3, w1, w2, htb]
  · rw [sprintf_full]
    simp [e1, e2, e3, e4, c2, c3, w1, w2, htb]
  · simp

/-- Removing the markers of a stripped chunk leaves its text. -/
theorem unwrapMarkers_chunk (shell t X : Str) (ht : cleanText shell t) :
    unwrapMarkers shell (wrapOpen shell ++ (wrapClose shell ++ (t ++
        (wrapOpen shell ++ (wrapClose shell ++ X)))))
      = t ++ unwrapMarkers shell X := by
  by_cases h1 : shell = zsh
  · subst h1
    have hp := ht.2.1 rfl
    have k1 : ∀ v : Str, ReplaceAllEmpty ('%' :: '\x7d' :: v) ['%', '\x7b']
        = '%' :: '\x7d' :: ReplaceAllEmpty v ['%', '\x7b'] := by
      intro v
      rw [removeAll_keep _ _ _ (by simp [List.cons_prefix_cons]),
        removeAll_keep _ _ _ (by simp [List.cons_prefix_cons])]
    have d1 := fun v => removeAll_drop ['%', '\x7b'] v (by simp)
    have d2 := fun v => removeAll_drop ['%', '\x7d'] v (by simp)
    have c1 := fun v => removeAll_free '%' '\x7b' t ('%' :: v) hp.1
      (fun y w h => by cases h; decide)
    have c2 := fun v => removeAll_free '%' '\x7d' t ('%' :: v) hp.2
      (fun y w h => by cases h; decide)
    simp only [List.cons_append, List.nil_append] at d1 d2
    simp only [unwrapMarkers, if_true, wrapOpen, wrapClose]
    show ReplaceAllEmpty (ReplaceAllEmpty ('%' :: '\x7b' :: ('%' :: '\x7d' :: (t ++
      ('%' :: '\x7b' :: ('%' :: '\x7d' :: X))))) ['%', '\x7b']) ['%', '\x7d'] = _
    rw [d1, k1, c1, d1, k1, d2, c2, d2]
    rfl
  · by_cases h2 : shell = bash
    · subst h2
      have hz : bash ≠ zsh := by decide
      have hp := ht.2.2 rfl
      have k1 : ∀ v : Str, ReplaceAllEmpty ('\\' :: ']' :: v) ['\\', '[']
          = '\\' :: ']' :: ReplaceAllEmpty v ['\\', '['] := by
        intro v
        rw [removeAll_keep _ _ _ (by simp [List.cons_prefix_cons]),
          removeAll_keep _ _ _ (by simp [List.cons_prefix_cons])]
      have d1 := fun v => removeAll_drop ['\\', '['] v (by simp)
      have d2 := fun v => removeAll_drop ['\\', ']'] v (by simp)
      have c1 := fun v => removeAll_free '\\' '[' t ('\\' :: v) hp.1
        (fun y w h => by cases h; decide)
      have c2 := fun v => removeAll_free '\\' ']' t ('\\' :: v) hp.2
        (fun y w h => by cases h; decide)
      simp only [List.cons_append, List.nil_append] at d1 d2
      simp only [unwrapMarkers, hz, if_false, if_true, wrapOpen, wrapClose]
      show ReplaceAllEmpty (ReplaceAllEmpty ('\\' :: '[' :: ('\\' :: ']' :: (t ++
        ('\\' :: '[' :: ('\\' :: ']' :: X))))) ['\\', '[']) ['\\', ']'] = _
      rw [d1, k1, c1, d1, k1, d2, c2, d2]
      rfl
    · simp [unwrapMarkers, h1, h2, wrapOpen, wrapClose]

theorem unwrapMarkers_nil (shell : Str) : unwrapMarkers shell [] = [] := by
  unfold unwrapMarkers; split_ifs <;> rfl

theorem stripANSI_init (r : Renderer) (shell str : Str) :
    stripANSI (init r shell) str = unwrapMarkers shell (ReplaceAllStringEmpty rANSI str) := by
  rw [stripANSI, init_shell, init_rANSI]

theorem bel_chunks (hex : Str → Bool → Str) (hhex : ∀ s b, isSgrCode (hex s b) = true)
    (r : Renderer) (shell : Str) :
    ∀ es : List (Str × Str × Str), (∀ e ∈ es, cleanText shell e.2.2) →
      BEL ∉ (es.map (fun e => coloredText hex (init r shell).formats e.1 e.2.1 e.2.2)).flatten := by
  intro es
  induction es with
  | nil => intro _; simp
  | cons e es ih =>
    intro h
    have he : BEL ∉ e.2.2 := fun hm => ((h e (by simp)).1 BEL hm).2 rfl
    have h1 := bel_coloredText hex hhex r shell e.1 e.2.1 e.2.2 he
    have h2 := ih (fun e' he' => h e' (by simp [he']))
    simp only [List.map_cons, List.flatten_cons, List.mem_append, not_or]
    exact ⟨h1, h2⟩

/-- Stripping a run of chunks, none of them of a dropping colour pair and all
with clean text, leaves the texts of the chunks. -/
theorem stripANSI_chunks (hex : Str → Bool → Str) (hhex : ∀ s b, isSgrCode (hex s b) = true)
    (r : Renderer) (shell : Str) :
    ∀ es : List (Str × Str × Str),
      (∀ e ∈ es, ¬ dropsText e.1 e.2.1 ∧ cleanText shell e.2.2) →
      stripANSI (init r shell)
          (es.map (fun e => coloredText hex (init r shell).formats e.1 e.2.1 e.2.2)).flatten
        = (es.map (fun e => e.2.2)).flatten := by
  intro es
  induction es with
  | nil =>
    intro _
    rw [stripANSI_init]
    exact unwrapMarkers_nil shell
  | cons e es ih =>
    intro h
    have he := h e (by simp)
    have hes : ∀ e' ∈ es, ¬ dropsText e'.1 e'.2.1 ∧ cleanText shell e'.2.2 :=
      fun e' he' => h e' (by simp [he'])
    have hb := bel_chunks hex hhex r shell es (fun e' he' => (hes e' he').2)
    have ih' := ih hes
    rw [stripANSI_init] at ih' ⊢
    simp only [List.map_cons, List.flatten_cons]
    rw [replaceAll_coloredText hex hhex r shell e.1 e.2.1 e.2.2 _ he.1
      (fun x hx => (he.2.1 x hx).1) (fun hm => (he.2.1 BEL hm).2 rfl) hb,
      unwrapMarkers_chunk shell e.2.2 _ he.2, ih']

theorem write_formats (hex : Str → Bool → Str) (r : Renderer) (bg fg text : Str) :
    (write hex r bg fg text).formats = r.formats := by
  obtain ⟨_, _, h2, _, _⟩ :=
    foldl_writeMatch_trace hex bg fg (FindAllStringSubmatch rex text) (r, text)
  simp only [write, writeColoredText_formats, h2]

theorem write_shell (hex : Str → Bool → Str) (r : Renderer) (bg fg text : Str) :
    (write hex r bg fg text).shell = r.shell := by
  obtain ⟨_, _, _, h3, _⟩ :=
    foldl_writeMatch_trace hex bg fg (FindAllStringSubmatch rex text) (r, text)
  simp only [write, writeColoredText_shell, h3]

theorem stripANSI_congr (r r' : Renderer) (str : Str) (h1 : r.shell = r'.shell)
    (h2 : r.formats = r'.formats) : stripANSI r str = stripANSI r' str := by
  unfold stripANSI; rw [h1, h2]

theorem isDigit_ne_semicolon (x : Char) (h : isDigit x = true) : x ≠ ';' := by
  rintro rfl; exact absurd h (by decide)

theorem sgrTail_digits : ∀ (d : Str) (k : Nat) (rest : Str), (∀ x ∈ d, isDigit x = true) →
    d.length ≤ k → sgrTail k (d ++ rest) = sgrTail (k - d.length) rest := by
  intro d
  induction d with
  | nil => intro k rest _ _; rfl
  | cons x d ih =>
    intro k rest hd hk
    have hx : isDigit x = true := hd x (by simp)
    have hx' := isDigit_ne_semicolon x hx
    cases k with
    | zero => simp at hk
    | succ k =>
      have := ih k rest (fun y hy => hd y (by simp [hy])) (by simpa using hk)
      simp only [List.cons_append, sgrTail, hx', hx, if_false, if_true, List.length_cons,
        Nat.add_sub_add_right]
      exact this

set_option maxRecDepth 1000000 in
theorem toDigits_byte : ∀ n < 256,
    (Nat.toDigits 10 n).all isDigit = true ∧ (Nat.toDigits 10 n).length ≤ 3 := by
  decide

theorem isSgrCode_truecolor (pre d1 d2 d3 : Str) (hpre : pre = "48;2;".toList ∨ pre = "38;2;".toList)
    (h1 : (∀ x ∈ d1, isDigit x = true) ∧ d1.length ≤ 3)
    (h2 : (∀ x ∈ d2, isDigit x = true) ∧ d2.length ≤ 3)
    (h3 : (∀ x ∈ d3, isDigit x = true) ∧ d3.length ≤ 3) :
    isSgrCode (pre ++ d1 ++ [';'] ++ d2 ++ [';'] ++ d3) = true := by
  have k3 : sgrTail 4 d3 = true := by
    have := sgrTail_digits d3 4 [] h3.1 (by omega)
    rw [List.append_nil] at this
    rw [this]; rfl
  have k2 : sgrTail 4 (d2 ++ ';' :: d3) = true := by
    rw [sgrTail_digits d2 4 _ h2.1 (by omega)]
    simpa [sgrTail] using k3
  have k1 : sgrTail 4 (d1 ++ ';' :: (d2 ++ ';' :: d3)) = true := by
    rw [sgrTail_digits d1 4 _ h1.1 (by omega)]
    simpa [sgrTail] using k2
  rcases hpre with rfl | rfl
  · simp only [List.append_assoc, List.cons_append, List.nil_append]
    show isSgrCode ('4' :: '8' :: ';' :: '2' :: ';' :: (d1 ++ ';' :: (d2 ++ ';' :: d3))) = true
    have d4 : isDigit '4' = true := by decide
    have d8 : isDigit '8' = true := by decide
    have d2' : isDigit '2' = true := by decide
    have n8 : ('8' : Char) ≠ ';' := by decide
    have n2 : ('2' : Char) ≠ ';' := by decide
    simp only [isSgrCode, sgrTail, d4, d8, d2', n8, n2, if_true, if_false, Bool.true_and, k1]
  · simp only [List.append_assoc, List.cons_append, List.nil_append]
    show isSgrCode ('3' :: '8' :: ';' :: '2' :: ';' :: (d1 ++ ';' :: (d2 ++ ';' :: d3))) = true
    have d3' : isDigit '3' = true := by decide
    have d8 : isDigit '8' = true := by decide
    have d2' : isDigit '2' = true := by decide
    have n8 : ('8' : Char) ≠ ';' := by decide
    have n2 : ('2' : Char) ≠ ';' := by decide
    simp only [isSgrCode, sgrTail, d3', d8, d2', n8, n2, if_true, if_false, Bool.true_and, k1]

theorem hexDigit_lt (x : Char) (v : Nat) (h : hexDigit x = some v) : v < 16 := by
  unfold hexDigit at h
  split_ifs at h with h1 h2 h3
  · simp only [inRange, Bool.and_eq_true, decide_eq_true_eq] at h1
    simp only [Option.some.injEq] at h
    have : ('9' : Char).toNat = 57 := by decide
    omega
  · simp only [inRange, Bool.and_eq_true, decide_eq_true_eq] at h2
    simp only [Option.some.injEq] at h
    have : ('f' : Char).toNat = 102 := by decide
    omega
  · simp only [inRange, Bool.and_eq_true, decide_eq_true_eq] at h3
    simp only [Option.some.injEq] at h
    have : ('F' : Char).toNat = 70 := by decide
    omega

theorem hexByte_digits (hi lo : Char) (d : Str) (h : hexByte hi lo = some d) :
    (∀ x ∈ d, isDigit x = true) ∧ d.length ≤ 3 := by
  unfold hexByte at h
  split at h
  · rename_i u v hu hv
    simp only [Option.some.injEq] at h
    have h1 := hexDigit_lt hi u hu
    have h2 := hexDigit_lt lo v hv
    have := toDigits_byte (16 * u + v) (by omega)
    rw [h] at this
    exact ⟨fun x hx => List.all_eq_true.mp this.1 x hx, this.2⟩
  · simp at h

/-- The codes of `hexTriplet` have the form of `isSgrCode`. -/
theorem hexTriplet_sgr (s : Str) (b : Bool) : isSgrCode (hexTriplet s b) = true := by
  unfold hexTriplet
  split
  · split
    · rename_i red green blue h1 h2 h3
      exact isSgrCode_truecolor _ red green blue (by cases b <;> simp)
        (hexByte_digits _ _ _ h1) (hexByte_digits _ _ _ h2) (hexByte_digits _ _ _ h3)
    · rfl
  · rfl

/-! ## `write` when no tag is skipped -/

theorem matchAt_rex_none (s : Str) (h : tagAt s = none) : Re.matchAt rex s = none := by
  have := rex_matchAt s
  rw [h] at this
  exact Option.map_eq_none'.mp this

theorem matchAt_rex_some (x : Char) (t rest g1 g2 g3 : Str)
    (h : tagAt (x :: t) = some (rest, g1, g2, g3)) :
    ∃ c, Re.matchAt rex (x :: t) = some (rest, c) ∧ group c 1 = g1 ∧ group c 2 = g2
      ∧ group c 3 = g3 ∧ rest.length < (x :: t).length := by
  have hm := rex_matchAt (x :: t)
  rw [h] at hm
  obtain ⟨p, hp, hpe⟩ := Option.map_eq_some'.mp hm
  obtain ⟨rest', c⟩ := p
  simp only [Prod.mk.injEq] at hpe
  obtain ⟨e1, e2, e3, e4⟩ := hpe
  subst e1
  have hs := (tagAt_spec _ _ _ _ _ h).1
  have hlen : rest'.length < (x :: t).length := by
    rw [hs]; have := length_tagText_pos g1 g2 g3; simp; omega
  exact ⟨c, hp, e2, e3, e4, hlen⟩

theorem emissionsAux_none (bg fg : Str) (n : Nat) (pre : Str) (x : Char) (t : Str)
    (h : tagAt (x :: t) = none) :
    emissionsAux bg fg (n + 1) pre (x :: t) = emissionsAux bg fg n (pre ++ [x]) t := by
  simp only [emissionsAux, matchAt_rex_none _ h]

theorem emissionsAux_some (bg fg : Str) (n : Nat) (pre : Str) (x : Char) (t rest g1 g2 g3 : Str)
    (h : tagAt (x :: t) = some (rest, g1, g2, g3)) :
    emissionsAux bg fg (n + 1) pre (x :: t) =
      (bg, fg, pre) :: (if g2 = [] then bg else g2, if g1 = [] then fg else g1, g3)
        :: emissionsAux bg fg n [] rest := by
  obtain ⟨c, hc, e1, e2, e3, hl⟩ := matchAt_rex_some x t rest g1 g2 g3 h
  simp only [emissionsAux, hc]
  rw [if_pos hl, e1, e2, e3]

theorem tagsRemovedAux_none (n : Nat) (x : Char) (t : Str) (h : tagAt (x :: t) = none) :
    tagsRemovedAux (n + 1) (x :: t) = x :: tagsRemovedAux n t := by
  simp only [tagsRemovedAux, matchAt_rex_none _ h]

theorem tagsRemovedAux_some (n : Nat) (x : Char) (t rest g1 g2 g3 : Str)
    (h : tagAt (x :: t) = some (rest, g1, g2, g3)) :
    tagsRemovedAux (n + 1) (x :: t) = g3 ++ tagsRemovedAux n rest := by
  obtain ⟨c, hc, _, _, e3, hl⟩ := matchAt_rex_some x t rest g1 g2 g3 h
  simp only [tagsRemovedAux, hc]
  rw [if_pos hl, e3]

/-- The value `strings.Split(s, sep)[0]` is the text before `sep` when `sep` does not occur
earlier. -/
theorem splitHead_first (sep rest : Str) (hsep : sep ≠ []) :
    ∀ pre : Str, (∀ u, u ≠ [] → u <:+ pre → ¬ sep <+: u ++ (sep ++ rest)) →
      splitHead (pre ++ (sep ++ rest)) sep = pre := by
  intro pre
  induction pre with
  | nil => intro _; exact splitHead_prefix sep rest hsep
  | cons x p ih =>
    intro h
    have h1 : ¬ sep <+: (x :: p) ++ (sep ++ rest) :=
      h (x :: p) (by simp) (List.suffix_refl _)
    have h2 := ih (fun u hu hs => h u hu (hs.trans (List.suffix_cons x p)))
    simp only [List.cons_append] at h1 ⊢
    simp only [splitHead, hsep, if_false, List.isPrefixOf_iff_prefix, h1, h2]

/-- The loop of `write` on a text none of whose tags is skipped: the first occurrence of each
match in the working text is the match itself, and the chunks are those of `emissionsAux`. -/
theorem foldl_writeMatch_emissions (hex : Str → Bool → Str) (bg fg : Str) :
    ∀ (n : Nat) (pre s : Str) (r : Renderer), s.length ≤ n →
      (∀ u, u ≠ [] → u <:+ pre → tagAt (u ++ s) = none) →
      (∀ m ∈ findAllAux rex n s, skipsMatch hex m = false) →
      (writeColoredText hex
          ((findAllAux rex n s).foldl (writeMatch hex bg fg) (r, pre ++ s)).1 bg fg
          ((findAllAux rex n s).foldl (writeMatch hex bg fg) (r, pre ++ s)).2).Buffer
        = r.Buffer ++ ((emissionsAux bg fg n pre s).map
            (fun e => coloredText hex r.formats e.1 e.2.1 e.2.2)).flatten := by
  intro n
  induction n with
  | zero =>
    intro pre s r hs _ _
    have : s = [] := List.length_eq_zero.mp (Nat.le_zero.mp hs)
    subst this
    simp [findAllAux, emissionsAux, writeColoredText_buffer]
  | succ n ih =>
    intro pre s r hs hpre hskip
    cases s with
    | nil => simp [findAllAux, emissionsAux, writeColoredText_buffer]
    | cons x t =>
      have ht : t.length ≤ n := by simpa using hs
      cases hq : tagAt (x :: t) with
      | none =>
        rw [findAllAux_none n x t hq] at hskip ⊢
        rw [emissionsAux_none bg fg n pre x t hq]
        have e : pre ++ x :: t = (pre ++ [x]) ++ t := by simp
        rw [e]
        apply ih (pre ++ [x]) t r ht _ hskip
        intro u hu hsuf
        rcases List.eq_nil_or_concat u with rfl | ⟨u', y, rfl⟩
        · exact absurd rfl hu
        · have hy : y = x ∧ u' <:+ pre := by
            obtain ⟨w, hw⟩ := hsuf
            have h1 : w ++ u' ++ [y] = pre ++ [x] := by simpa using hw
            have h2 := List.append_inj' h1 rfl
            exact ⟨by simpa using h2.2, ⟨w, h2.1⟩⟩
          obtain ⟨rfl, hu'⟩ := hy
          by_cases hn : u' = []
          · subst hn; simpa using hq
          · have := hpre u' hn hu'
            simpa using this
      | some v =>
        obtain ⟨rest, g1, g2, g3⟩ := v
        have hspec := tagAt_spec _ _ _ _ _ hq
        have hrest : rest.length ≤ n := by
          have := congrArg List.length hspec.1
          have hp := length_tagText_pos g1 g2 g3
          simp at this; omega
        rw [findAllAux_some n x t rest g1 g2 g3 hq] at hskip ⊢
        rw [emissionsAux_some bg fg n pre x t rest g1 g2 g3 hq]
        have hsk := hskip _ (List.mem_cons_self _ _)
        have hne : tagText g1 g2 g3 ≠ [] := by simp [tagText]
        have hsplit : splitHead (pre ++ (tagText g1 g2 g3 ++ rest)) (tagText g1 g2 g3) = pre := by
          apply splitHead_first _ _ hne
          intro u hu hsuf hp
          obtain ⟨z, hz⟩ := hp
          have h1 := hpre u hu hsuf
          rw [hspec.1, ← hz, tagAt_tagText g1 g2 g3 z hspec.2.1 hspec.2.2.1 hspec.2.2.2] at h1
          exact absurd h1 (by simp)
        rw [List.foldl_cons, writeMatch_noskip hex bg fg _ _ hsk]
        simp only [hspec.1, hsplit, replaceFirstEmpty_prefix]
        have := ih [] rest
          (writeColoredText hex (writeColoredText hex r bg fg pre)
            (if g2 = [] then bg else g2) (if g1 = [] then fg else g1) g3) hrest
          (fun u hu hsuf => absurd (List.suffix_nil.mp hsuf) hu)
          (fun m hm => hskip m (List.mem_cons_of_mem _ hm))
        rw [List.nil_append] at this
        rw [this]
        simp [writeColoredText_buffer, writeColoredText_formats]

/-- The texts of the emissions, put together, are the text with its tags removed. -/
theorem emissionsAux_texts (bg fg : Str) : ∀ (n : Nat) (pre s : Str), s.length ≤ n →
    ((emissionsAux bg fg n pre s).map (fun e => e.2.2)).flatten = pre ++ tagsRemovedAux n s := by
  intro n
  induction n with
  | zero => intro pre s _; simp [emissionsAux, tagsRemovedAux]
  | succ n ih =>
    intro pre s hs
    cases s with
    | nil => simp [emissionsAux, tagsRemovedAux]
    | cons x t =>
      have ht : t.length ≤ n := by simpa using hs
      cases hq : tagAt (x :: t) with
      | none =>
        rw [emissionsAux_none bg fg n pre x t hq, tagsRemovedAux_none n x t hq, ih _ t ht]
        simp
      | some v =>
        obtain ⟨rest, g1, g2, g3⟩ := v
        have hspec := tagAt_spec _ _ _ _ _ hq
        have hrest : rest.length ≤ n := by
          have := congrArg List.length hspec.1
          have hp := length_tagText_pos g1 g2 g3
          simp at this; omega
        rw [emissionsAux_some bg fg n pre x t rest g1 g2 g3 hq,
          tagsRemovedAux_some n x t rest g1 g2 g3 hq]
        simp [ih [] rest hrest]

theorem inner_infix_tagText (g1 g2 g3 : Str) : g3 <:+: tagText g1 g2 g3 :=
  ⟨'<' :: g1 ++ (if g2 = [] then [] else ',' :: g2) ++ ['>'], closer, by simp [tagText]⟩

/-- The text of every emission is a part of the text. -/
theorem emissionsAux_infix (bg fg : Str) : ∀ (n : Nat) (pre s : Str), s.length ≤ n →
    ∀ e ∈ emissionsAux bg fg n pre s, e.2.2 <:+: pre ++ s := by
  intro n
  induction n with
  | zero =>
    intro pre s _ e he
    simp only [emissionsAux, List.mem_singleton] at he
    subst he; exact List.infix_refl _
  | succ n ih =>
    intro pre s hs e he
    cases s with
    | nil =>
      simp only [emissionsAux, List.mem_singleton] at he
      subst he; simp
    | cons y t =>
      have ht : t.length ≤ n := by simpa using hs
      cases hq : tagAt (y :: t) with
      | none =>
        rw [emissionsAux_none bg fg n pre y t hq] at he
        have := ih _ t ht e he
        simpa using this
      | some v =>
        obtain ⟨rest, g1, g2, g3⟩ := v
        have hspec := tagAt_spec _ _ _ _ _ hq
        have hrest : rest.length ≤ n := by
          have := congrArg List.length hspec.1
          have hp := length_tagText_pos g1 g2 g3
          simp at this; omega
        rw [emissionsAux_some bg fg n pre y t rest g1 g2 g3 hq] at he
        rw [hspec.1]
        rcases List.mem_cons.mp he with rfl | he
        · exact (List.prefix_append _ _).isInfix
        rcases List.mem_cons.mp he with rfl | he
        · exact (inner_infix_tagText g1 g2 g3).trans
            (((List.prefix_append _ rest).isInfix).trans (List.suffix_append pre _).isInfix)
        · have := ih [] rest hrest e he
          rw [List.nil_append] at this
          exact this.trans
            (((List.suffix_append _ rest).isInfix).trans (List.suffix_append pre _).isInfix)

theorem cleanText_infix (shell u t : Str) (hu : u <:+: t) (ht : cleanText shell t) :
    cleanText shell u :=
  ⟨fun x hx => ht.1 x (hu.subset hx),
    fun hz => ⟨fun h => (ht.2.1 hz).1 (h.trans hu), fun h => (ht.2.1 hz).2 (h.trans hu)⟩,
    fun hb => ⟨fun h => (ht.2.2 hb).1 (h.trans hu), fun h => (ht.2.2 hb).2 (h.trans hu)⟩⟩

/-- The colours of every emission are the ambient ones or those of a tag of the text. -/
theorem emissionsAux_colours (bg fg : Str) : ∀ (n : Nat) (pre s : Str), s.length ≤ n →
    ∀ e ∈ emissionsAux bg fg n pre s, (e.1 = bg ∧ e.2.1 = fg) ∨
      ∃ m ∈ findAllAux rex n s, e.1 = (if m.m2 = [] then bg else m.m2)
        ∧ e.2.1 = (if m.m1 = [] then fg else m.m1) := by
  intro n
  induction n with
  | zero =>
    intro pre s _ e he
    simp only [emissionsAux, List.mem_singleton] at he
    subst he; exact Or.inl ⟨rfl, rfl⟩
  | succ n ih =>
    intro pre s hs e he
    cases s with
    | nil =>
      simp only [emissionsAux, List.mem_singleton] at he
      subst he; exact Or.inl ⟨rfl, rfl⟩
    | cons y t =>
      have ht : t.length ≤ n := by simpa using hs
      cases hq : tagAt (y :: t) with
      | none =>
        rw [emissionsAux_none bg fg n pre y t hq] at he
        rw [findAllAux_none n y t hq]
        exact ih _ t ht e he
      | some v =>
        obtain ⟨rest, g1, g2, g3⟩ := v
        have hspec := tagAt_spec _ _ _ _ _ hq
        have hrest : rest.length ≤ n := by
          have := congrArg List.length hspec.1
          have hp := length_tagText_pos g1 g2 g3
          simp at this; omega
        rw [emissionsAux_some bg fg n pre y t rest g1 g2 g3 hq] at he
        rw [findAllAux_some n y t rest g1 g2 g3 hq]
        rcases List.mem_cons.mp he with rfl | he
        · exact Or.inl ⟨rfl, rfl⟩
        rcases List.mem_cons.mp he with rfl | he
        · exact Or.inr ⟨_, List.mem_cons_self _ _, rfl, rfl⟩
        · rcases ih [] rest hrest e he with h | ⟨m, hm, h⟩
          · exact Or.inl h
          · exact Or.inr ⟨m, List.mem_cons_of_mem _ hm, h⟩

/-- When no tag is skipped, the buffer grows by the chunks of `emissions`. -/
theorem write_emissions (hex : Str → Bool → Str) (r : Renderer) (bg fg text : Str)
    (hskip : ∀ m ∈ FindAllStringSubmatch rex text, skipsMatch hex m = false) :
    (write hex r bg fg text).Buffer = r.Buffer ++
      ((emissions bg fg text).map (fun e => coloredText hex r.formats e.1 e.2.1 e.2.2)).flatten := by
  have := foldl_writeMatch_emissions hex bg fg text.length [] text r (Nat.le_refl _)
    (fun u hu hsuf => absurd (List.suffix_nil.mp hsuf) hu) hskip
  simpa [write, FindAllStringSubmatch, emissions] using this

/-! ## The colour table, the templates of the dialects and the cursor functions -/

theorem coloredText_dropped (hex : Str → Bool → Str) (f : formats) (bg text : Str)
    (hbg : bg ≠ []) (hbt : bg ≠ Transparent) : coloredText hex f bg [] text = [] := by
  have h0 : ([] : Str) ≠ Transparent := by decide
  simp [coloredText, hbg, hbt, h0]

theorem write_appends (hex : Str → Bool → Str) (r : Renderer) (bg fg text : Str) :
    r.Buffer <+: (write hex r bg fg text).Buffer := by
  obtain ⟨_, _, _, _, h4⟩ :=
    foldl_writeMatch_trace hex bg fg (FindAllStringSubmatch rex text) (r, text)
  simp only [write, writeColoredText_buffer, h4, List.append_assoc]
  exact List.prefix_append _ _

theorem init_formats_other (r : Renderer) (shell : Str) (h1 : shell ≠ zsh) (h2 : shell ≠ bash) :
    (init r shell).formats =
      { rANSI := rANSI,
        single := "\x1b[%sm%s\x1b[0m".toList,
        full := "\x1b[%sm\x1b[%sm%s\x1b[0m".toList,
        transparent := "\x1b[%s;49m\x1b[7m%s\x1b[m\x1b[0m".toList,
        linechange := "\x1b[%d%s".toList,
        left := "\x1b[%dC".toList,
        right := "\x1b[%dD".toList,
        title := "\x1b]0;%s\x07".toList,
        creset := "\x1b[0m".toList,
        clearOEL := "\x1b[K".toList } := by
  simp only [init, if_neg h1, if_neg h2]

theorem unwrapMarkers_other (shell s : Str) (h1 : shell ≠ zsh) (h2 : shell ≠ bash) :
    unwrapMarkers shell s = s := by
  simp only [unwrapMarkers, if_neg h1, if_neg h2]

theorem colorMap_numbers :
    ∀ name ∈ colorMap.map Prod.fst, ∃ nf ∈ List.range 98,
      getColorFromName name false = some (Nat.toDigits 10 nf)
        ∧ getColorFromName name true = some (Nat.toDigits 10 (nf + 10))
        ∧ ((30 ≤ nf ∧ nf ≤ 37) ∨ (90 ≤ nf ∧ nf ≤ 97) ∨ (name = "default".toList ∧ nf = 39)) := by
  decide

theorem lookup_none_of_not_mem {β : Type} (k : Str) :
    ∀ l : List (Str × β), k ∉ l.map Prod.fst → l.lookup k = none := by
  intro l
  induction l with
  | nil => intro _; rfl
  | cons p l ih =>
    intro h
    obtain ⟨k', v'⟩ := p
    simp only [List.map_cons, List.mem_cons, not_or] at h
    rw [List.lookup_cons]
    have : (k == k') = false := by simpa using h.1
    rw [this]
    exact ih h.2

theorem getColorFromName_none (name : Str) (b : Bool) (h : name ∉ colorMap.map Prod.fst) :
    getColorFromName name b = none := by
  simp [getColorFromName, lookup_none_of_not_mem name colorMap h]

theorem wrapInt_of_isInt (x : Int) (h : isInt x) : wrapInt x = x := by
  unfold isInt minInt at h
  unfold wrapInt
  omega

theorem wrapInt_add_neg (a b : Int) : wrapInt (a + wrapInt (-b)) = wrapInt (a - b) := by
  unfold wrapInt
  omega

theorem wrapInt_isInt (x : Int) : isInt (wrapInt x) := by
  unfold isInt minInt wrapInt
  omega

theorem wrapInt_neg (n : Int) (h : isInt n) (hn : n < 0) (hm : n ≠ minInt) :
    wrapInt (-n) = n.natAbs ∧ 0 < wrapInt (-n) := by
  unfold isInt minInt at h
  unfold minInt at hm
  unfold wrapInt
  omega

theorem changeLine_positive (r : Renderer) (n : Int) (h : 0 < n) :
    changeLine r n = Sprintf r.formats.linechange [.int n, .str "B".toList] := by
  simp [changeLine, not_lt.mpr (le_of_lt h)]

theorem changeLine_negative (r : Renderer) (n : Int) (h : isInt n) (hn : n < 0)
    (hm : n ≠ minInt) :
    changeLine r n = Sprintf r.formats.linechange [.int (n.natAbs : Int), .str "F".toList] := by
  simp only [changeLine, if_pos hn, (wrapInt_neg n h hn hm).1]

theorem zsh_ne_bash : zsh ≠ bash := by decide

theorem templates_wrapped (r : Renderer) (shell o c : Str)
    (h : (shell = zsh ∧ o = "%\x7b".toList ∧ c = "%\x7d".toList)
      ∨ (shell = bash ∧ o = "\\[".toList ∧ c = "\\]".toList))
    (a b t p title : Str) (n : Int) :
    Sprintf (init r shell).formats.single [.str a, .str t]
        = o ++ ("\x1b[".toList ++ a ++ "m".toList) ++ c ++ t ++ o ++ "\x1b[0m".toList ++ c
      ∧ Sprintf (init r shell).formats.full [.str b, .str a, .str t]
        = o ++ ("\x1b[".toList ++ b ++ "m\x1b[".toList ++ a ++ "m".toList) ++ c ++ t
            ++ o ++ "\x1b[0m".toList ++ c
      ∧ Sprintf (init r shell).formats.transparent [.str a, .str t]
        = o ++ ("\x1b[".toList ++ a ++ ";49m\x1b[7m".toList) ++ c ++ t
            ++ o ++ "\x1b[m\x1b[0m".toList ++ c
      ∧ Sprintf (init r shell).formats.linechange [.int n, .str p]
        = o ++ ("\x1b[".toList ++ itoa n ++ p) ++ c
      ∧ Sprintf (init r shell).formats.left [.int n]
        = o ++ ("\x1b[".toList ++ itoa n ++ "C".toList) ++ c
      ∧ Sprintf (init r shell).formats.right [.int n]
        = o ++ ("\x1b[".toList ++ itoa n ++ "D".toList) ++ c
      ∧ setConsoleTitle (init r shell) title
        = o ++ ("\x1b]0;".toList ++ title ++ "\x07".toList) ++ c
      ∧ creset (init r shell) = o ++ "\x1b[0m".toList ++ c
      ∧ clearEOL (init r shell) = o ++ "\x1b[K".toList ++ c := by
  rcases h with ⟨rfl, rfl, rfl⟩ | ⟨rfl, rfl, rfl⟩
  · simp only [init, if_true, setConsoleTitle, creset, clearEOL]
    refine ⟨?_, ?_, ?_, ?_, ?_, ?_, ?_, ?_, ?_⟩ <;>
      simp only [List.append_assoc] <;> rfl
  · simp only [init, if_neg zsh_ne_bash.symm, if_true, setConsoleTitle, creset, clearEOL]
    refine ⟨?_, ?_, ?_, ?_, ?_, ?_, ?_, ?_, ?_⟩ <;>
      simp only [List.append_assoc] <;> rfl

theorem templates_plain (r : Renderer) (a b t p title : Str) (n : Int) :
    Sprintf (init r []).formats.single [.str a, .str t]
        = ("\x1b[".toList ++ a ++ "m".toList) ++ t ++ "\x1b[0m".toList
      ∧ Sprintf (init r []).formats.full [.str b, .str a, .str t]
        = ("\x1b[".toList ++ b ++ "m\x1b[".toList ++ a ++ "m".toList) ++ t ++ "\x1b[0m".toList
      ∧ Sprintf (init r []).formats.transparent [.str a, .str t]
        = ("\x1b[".toList ++ a ++ ";49m\x1b[7m".toList) ++ t ++ "\x1b[m\x1b[0m".toList
      ∧ Sprintf (init r []).formats.linechange [.int n, .str p]
        = "\x1b[".toList ++ itoa n ++ p
      ∧ Sprintf (init r []).formats.left [.int n] = "\x1b[".toList ++ itoa n ++ "C".toList
      ∧ Sprintf (init r []).formats.right [.int n] = "\x1b[".toList ++ itoa n ++ "D".toList
      ∧ setConsoleTitle (init r []) title = "\x1b]0;".toList ++ title ++ "\x07".toList
      ∧ creset (init r []) = "\x1b[0m".toList
      ∧ clearEOL (init r []) = "\x1b[K".toList := by
  have h1 : ([] : Str) ≠ zsh := by decide
  have h2 : ([] : Str) ≠ bash := by decide
  simp only [init, if_neg h1, if_neg h2, setConsoleTitle, creset, clearEOL]
  refine ⟨?_, ?_, ?_, ?_, ?_, ?_, ?_, ?_, ?_⟩ <;>
    simp only [List.append_assoc] <;> first | rfl | simp [Sprintf]

theorem not_infix_of_not_mem (a b : Char) (t : Str) (h : a ∉ t) : ¬ [a, b] <:+: t := by
  intro hi
  exact h (hi.subset (by simp))

theorem cleanText_of_chars (shell text : Str)
    (hascii : ∀ x ∈ text, x.toNat < 128)
    (hesc : ∀ x ∈ text, x ≠ ESC ∧ x ≠ BEL)
    (hz : shell = zsh → ∀ x ∈ text, x ≠ '%' ∧ x ≠ '\x7b' ∧ x ≠ '\x7d')
    (hb : shell = bash → ∀ x ∈ text, x ≠ '\\' ∧ x ≠ '[' ∧ x ≠ ']') :
    cleanText shell text := by
  refine ⟨?_, ?_, ?_⟩
  · intro x hx
    refine ⟨?_, (hesc x hx).2⟩
    have h1 := (hesc x hx).1
    have h2 := hascii x hx
    have h3 : x ≠ Char.ofNat 0x9B := by
      intro h; rw [h] at h2; revert h2; decide
    simp only [isEscStart, Bool.or_eq_false_iff, beq_eq_false_iff_ne, ne_eq]
    exact ⟨h1, h3⟩
  · intro hs
    have h := hz hs
    exact ⟨not_infix_of_not_mem _ _ _ (fun hm => (h _ hm).1 rfl),
      not_infix_of_not_mem _ _ _ (fun hm => (h _ hm).1 rfl)⟩
  · intro hs
    have h := hb hs
    exact ⟨not_infix_of_not_mem _ _ _ (fun hm => (h _ hm).1 rfl),
      not_infix_of_not_mem _ _ _ (fun hm => (h _ hm).1 rfl)⟩

/-! ## The rounds of the loop of `write` -/

theorem roundsAux_none (n : Nat) (pre : Str) (x : Char) (t : Str) (h : tagAt (x :: t) = none) :
    roundsAux (n + 1) pre (x :: t) = roundsAux n (pre ++ [x]) t := by
  simp only [roundsAux, matchAt_rex_none _ h]

theorem roundsAux_some (n : Nat) (pre : Str) (x : Char) (t rest g1 g2 g3 : Str)
    (h : tagAt (x :: t) = some (rest, g1, g2, g3)) :
    roundsAux (n + 1) pre (x :: t) =
      (pre, { m0 := tagText g1 g2 g3, m1 := g1, m2 := g2, m3 := g3 }, rest)
        :: roundsAux n [] rest := by
  obtain ⟨c, hc, e1, e2, e3, hl⟩ := matchAt_rex_some x t rest g1 g2 g3 h
  have hs := (tagAt_spec _ _ _ _ _ h).1
  have htake : (x :: t).take ((x :: t).length - rest.length) = tagText g1 g2 g3 := by
    rw [hs]; simp
  simp only [roundsAux, hc]
  rw [if_pos hl, e1, e2, e3, htake]

/-- The rounds of the loop of `write` on a text none of whose tags is skipped. -/
theorem scanl_writeMatch_rounds (hex : Str → Bool → Str) (bg fg : Str) :
    ∀ (n : Nat) (pre s : Str) (r : Renderer), s.length ≤ n →
      (∀ u, u ≠ [] → u <:+ pre → tagAt (u ++ s) = none) →
      (∀ m ∈ findAllAux rex n s, skipsMatch hex m = false) →
      findAllAux rex n s = (roundsAux n pre s).map (fun e => e.2.1)
        ∧ (List.scanl (writeMatch hex bg fg) (r, pre ++ s) (findAllAux rex n s)).map Prod.snd
            = (pre ++ s) :: (roundsAux n pre s).map (fun e => e.2.2)
        ∧ (∀ e ∈ roundsAux n pre s, splitHead (e.1 ++ e.2.1.m0 ++ e.2.2) e.2.1.m0 = e.1)
        ∧ (roundsAux n pre s).map (fun e => e.1 ++ e.2.1.m0 ++ e.2.2)
            = ((pre ++ s) :: (roundsAux n pre s).map (fun e => e.2.2)).dropLast := by
  intro n
  induction n with
  | zero =>
    intro pre s r hs _ _
    simp [findAllAux, roundsAux]
  | succ n ih =>
    intro pre s r hs hpre hskip
    cases s with
    | nil => simp [findAllAux, roundsAux]
    | cons x t =>
      have ht : t.length ≤ n := by simpa using hs
      cases hq : tagAt (x :: t) with
      | none =>
        rw [findAllAux_none n x t hq] at hskip ⊢
        rw [roundsAux_none n pre x t hq]
        have e : pre ++ x :: t = (pre ++ [x]) ++ t := by simp
        rw [e]
        apply ih (pre ++ [x]) t r ht _ hskip
        intro u hu hsuf
        rcases List.eq_nil_or_concat u with rfl | ⟨u', y, rfl⟩
        · exact absurd rfl hu
        · have hy : y = x ∧ u' <:+ pre := by
            obtain ⟨w, hw⟩ := hsuf
            have h1 : w ++ u' ++ [y] = pre ++ [x] := by simpa using hw
            have h2 := List.append_inj' h1 rfl
            exact ⟨by simpa using h2.2, ⟨w, h2.1⟩⟩
          obtain ⟨rfl, hu'⟩ := hy
          by_cases hn : u' = []
          · subst hn; simpa using hq
          · have := hpre u' hn hu'
            simpa using this
      | some v =>
        obtain ⟨rest, g1, g2, g3⟩ := v
        have hspec := tagAt_spec _ _ _ _ _ hq
        have hrest : rest.length ≤ n := by
          have := congrArg List.length hspec.1
          have hp := length_tagText_pos g1 g2 g3
          simp at this; omega
        rw [findAllAux_some n x t rest g1 g2 g3 hq] at hskip ⊢
        rw [roundsAux_some n pre x t rest g1 g2 g3 hq]
        have hsk := hskip _ (List.mem_cons_self _ _)
        have hne : tagText g1 g2 g3 ≠ [] := by simp [tagText]
        have hsplit : splitHead (pre ++ (tagText g1 g2 g3 ++ rest)) (tagText g1 g2 g3) = pre := by
          apply splitHead_first _ _ hne
          intro u hu hsuf hp
          obtain ⟨z, hz⟩ := hp
          have h1 := hpre u hu hsuf
          rw [hspec.1, ← hz, tagAt_tagText g1 g2 g3 z hspec.2.1 hspec.2.2.1 hspec.2.2.2] at h1
          exact absurd h1 (by simp)
        obtain ⟨i1, i2, i3, i4⟩ := ih [] rest
          (writeColoredText hex (writeColoredText hex r bg fg pre)
            (if g2 = [] then bg else g2) (if g1 = [] then fg else g1) g3) hrest
          (fun u hu hsuf => absurd (List.suffix_nil.mp hsuf) hu)
          (fun m hm => hskip m (List.mem_cons_of_mem _ hm))
        rw [List.nil_append] at i2 i4
        refine ⟨?_, ?_, ?_, ?_⟩
        · rw [List.map_cons, ← i1]
        · rw [List.scanl_cons, writeMatch_noskip hex bg fg _ _ hsk]
          simp only [hspec.1, hsplit, replaceFirstEmpty_prefix]
          simp only [List.singleton_append, List.map_cons, i2]
        · intro e he
          rcases List.mem_cons.mp he with rfl | he
          · simpa only [List.append_assoc] using hsplit
          · exact i3 e he
        · rw [List.map_cons, i4, hspec.1]
          simp [List.dropLast]

theorem getLastD_cons_cons {α : Type} (a d : α) (l : List α) :
    (a :: l).getLastD d = l.getLastD a := by
  cases l <;> rfl

/-- The emissions, round by round: the text since the previous match, the inner text of the
match, and at last the text behind the last match. -/
theorem emissionsAux_rounds (bg fg : Str) : ∀ (n : Nat) (pre s : Str), s.length ≤ n →
    emissionsAux bg fg n pre s
      = (roundsAux n pre s).flatMap (fun e =>
            [(bg, fg, e.1),
              (if e.2.1.m2 = [] then bg else e.2.1.m2, if e.2.1.m1 = [] then fg else e.2.1.m1,
                e.2.1.m3)])
          ++ [(bg, fg, ((roundsAux n pre s).map (fun e => e.2.2)).getLastD (pre ++ s))] := by
  intro n
  induction n with
  | zero => intro pre s _; simp [emissionsAux, roundsAux]
  | succ n ih =>
    intro pre s hs
    cases s with
    | nil => simp [emissionsAux, roundsAux]
    | cons x t =>
      have ht : t.length ≤ n := by simpa using hs
      cases hq : tagAt (x :: t) with
      | none =>
        rw [emissionsAux_none bg fg n pre x t hq, roundsAux_none n pre x t hq, ih _ t ht]
        simp
      | some v =>
        obtain ⟨rest, g1, g2, g3⟩ := v
        have hspec := tagAt_spec _ _ _ _ _ hq
        have hrest : rest.length ≤ n := by
          have := congrArg List.length hspec.1
          have hp := length_tagText_pos g1 g2 g3
          simp at this; omega
        rw [emissionsAux_some bg fg n pre x t rest g1 g2 g3 hq,
          roundsAux_some n pre x t rest g1 g2 g3 hq, ih [] rest hrest]
        simp only [List.map_cons, List.flatMap_cons, getLastD_cons_cons, List.nil_append,
          List.cons_append, List.append_assoc]

/-! ## The claims -/

/-- C1 (colour-selection rule of `writeColoredText`): in every dialect the text
appended to the buffer is the transparent template filled with the code of the
background (resolved as a foreground, so red gives 31) and the text when the
foreground is `transparent` and the background is not empty; otherwise the
single-colour template filled with the foreground code and the text when the
background is empty or `transparent`; otherwise the dual-colour template filled
with the background code, then the foreground code, then the text when both
are non-empty. -/
theorem writeColoredText_colour_rule (hex : Str → Bool → Str) (r : Renderer)
    (shell bg fg t : Str) :
    (fg = Transparent ∧ bg ≠ [] →
      (writeColoredText hex (init r shell) bg fg t).Buffer = r.Buffer ++
        Sprintf (init r shell).formats.transparent
          [.str (getAnsiFromColorString hex bg false), .str t])
    ∧ (¬ (fg = Transparent ∧ bg ≠ []) → (bg = [] ∨ bg = Transparent) →
      (writeColoredText hex (init r shell) bg fg t).Buffer = r.Buffer ++
        Sprintf (init r shell).formats.single
          [.str (getAnsiFromColorString hex fg false), .str t])
    ∧ (¬ (fg = Transparent ∧ bg ≠ []) → ¬ (bg = [] ∨ bg = Transparent) →
        (fg ≠ [] ∧ bg ≠ []) →
      (writeColoredText hex (init r shell) bg fg t).Buffer = r.Buffer ++
        Sprintf (init r shell).formats.full
          [.str (getAnsiFromColorString hex bg true),
            .str (getAnsiFromColorString hex fg false), .str t])
    ∧ getAnsiFromColorString hex "red".toList false = "31".toList := by
  have hb : (init r shell).Buffer = r.Buffer := by
    unfold init; split_ifs <;> rfl
  refine ⟨?_, ?_, ?_, rfl⟩
  · intro h
    rw [writeColoredText_buffer, hb, coloredText, if_pos h]
  · intro h1 h2
    rw [writeColoredText_buffer, hb, coloredText, if_neg h1, if_pos h2]
  · intro h1 h2 h3
    rw [writeColoredText_buffer, hb, coloredText, if_neg h1, if_neg h2, if_pos h3]

/-- C1, at a concrete input: in the zsh dialect, background red under a
transparent foreground gives the transparent template with code 31. -/
theorem writeColoredText_colour_rule_witness :
    (writeColoredText hexTriplet (init (newRenderer []) zsh) "red".toList Transparent
        "hi".toList).Buffer
      = "%\x7b\x1b[31;49m\x1b[7m%\x7dhi%\x7b\x1b[m\x1b[0m%\x7d".toList :=
  ((writeColoredText_colour_rule hexTriplet (newRenderer []) zsh "red".toList Transparent
      "hi".toList).1 ⟨rfl, by decide⟩).trans (by decide)

/-- C2, as amended (skip rule of `write`): a match is skipped exactly when the
foreground token has no code, is not `transparent` and the background token is
empty, or the same with the two sides exchanged; a skipped match leaves the
buffer and the working text as they are, and a match that is not skipped writes
the text before it in the ambient colours and its inner text in the tag's
colours.  Whether a token is empty plays no part in the first test, so a tag
with both sides empty is skipped whenever the empty token has no code. -/
theorem write_skip_rule (hex : Str → Bool → Str) (bg fg : Str) (st : Renderer × Str)
    (m : Submatch) :
    (skipsMatch hex m = true ↔
      (getAnsiFromColorString hex m.m1 false = [] ∧ m.m1 ≠ Transparent ∧ m.m2 = [])
      ∨ (getAnsiFromColorString hex m.m2 false = [] ∧ m.m2 ≠ Transparent ∧ m.m1 = []))
    ∧ (skipsMatch hex m = true → writeMatch hex bg fg st m = st)
    ∧ (skipsMatch hex m = false →
        writeMatch hex bg fg st m =
          (writeColoredText hex (writeColoredText hex st.1 bg fg (splitHead st.2 m.m0))
              (if m.m2 = [] then bg else m.m2) (if m.m1 = [] then fg else m.m1) m.m3,
            replaceFirstEmpty (replaceFirstEmpty st.2 (splitHead st.2 m.m0)) m.m0))
    ∧ (hex [] false = [] → m.m1 = [] → m.m2 = [] → skipsMatch hex m = true) := by
  refine ⟨?_, writeMatch_skip hex bg fg st m, writeMatch_noskip hex bg fg st m, ?_⟩
  · simp [skipsMatch, List.length_eq_zero, and_assoc]
  · intro h0 h1 h2
    have : getAnsiFromColorString hex [] false = [] := by
      simp [getAnsiFromColorString, getColorFromName, colorMap, List.lookup, h0]
    simp [skipsMatch, h1, h2, this, Transparent]

/-- C2, at a concrete input: the tag `<>inner</>` is skipped and stays in the
working text. -/
theorem write_skip_rule_witness :
    writeMatch hexTriplet [] "white".toList (newRenderer [], "<>inner</>".toList)
        { m0 := "<>inner</>".toList, m1 := [], m2 := [], m3 := "inner".toList }
      = (newRenderer [], "<>inner</>".toList) :=
  (write_skip_rule hexTriplet [] "white".toList (newRenderer [], "<>inner</>".toList)
      { m0 := "<>inner</>".toList, m1 := [], m2 := [], m3 := "inner".toList }).2.1
    ((write_skip_rule hexTriplet [] "white".toList (newRenderer [], "<>inner</>".toList)
      { m0 := "<>inner</>".toList, m1 := [], m2 := [], m3 := "inner".toList }).2.2.2
      (by decide) rfl rfl)

/-- C2 as stated fails: for `<>inner</>` both tokens are empty, so neither
side of the stated condition holds, yet the match is skipped and the whole tag
is written literally in the ambient colour. -/
theorem write_skip_rule_counterexample :
    FindAllStringSubmatch rex "<>inner</>".toList
        = [{ m0 := "<>inner</>".toList, m1 := [], m2 := [], m3 := "inner".toList }]
    ∧ ¬ (skipsMatch hexTriplet
          { m0 := "<>inner</>".toList, m1 := [], m2 := [], m3 := "inner".toList } = true ↔
        (getAnsiFromColorString hexTriplet [] false = [] ∧ ([] : Str) ≠ []
            ∧ ([] : Str) ≠ Transparent ∧ ([] : Str) = [])
          ∨ (getAnsiFromColorString hexTriplet [] false = [] ∧ ([] : Str) ≠ []
            ∧ ([] : Str) ≠ Transparent ∧ ([] : Str) = []))
    ∧ (write hexTriplet (newRenderer []) [] "white".toList "<>inner</>".toList).Buffer
        = "\x1b[37m<>inner</>\x1b[0m".toList := by
  refine ⟨by decide, ?_, by decide⟩
  intro h
  have hs : skipsMatch hexTriplet
      { m0 := "<>inner</>".toList, m1 := [], m2 := [], m3 := "inner".toList } = true := by
    decide
  rcases h.mp hs with h1 | h1
  · exact h1.2.1 rfl
  · exact h1.2.1 rfl

/-- C3, as amended: for every name `c` of the colour table, every ambient
foreground `f`, every inner text without a line feed and without the closer,
and every trailing text without `<`, `write` with an empty ambient background
on an empty buffer leaves the single-colour template applied to the empty text
with the code of `f` (the text before the tag), then the single-colour template
applied to the inner text with the foreground code of `c`, then the
single-colour template applied to the trailing text with the code of `f`. -/
theorem write_single_colour_tag (hex : Str → Bool → Str) (shell c f inner rest : Str)
    (hc : c ∈ colorMap.map Prod.fst) (hn : '\n' ∉ inner) (hi : ¬ closer <:+: inner)
    (hr : '<' ∉ rest) :
    (write hex (newRenderer shell) [] f
        ("<".toList ++ c ++ ">".toList ++ inner ++ "</>".toList ++ rest)).Buffer
      = Sprintf (newRenderer shell).formats.single
          [.str (getAnsiFromColorString hex f false), .str []]
        ++ Sprintf (newRenderer shell).formats.single
          [.str (getAnsiFromColorString hex c false), .str inner]
        ++ Sprintf (newRenderer shell).formats.single
          [.str (getAnsiFromColorString hex f false), .str rest] := by
  have hnm := colorMap_names c hc
  have h1 : ∀ x ∈ c, isTagTok x = true := by
    have := hnm.2.2.1
    simpa [List.all_eq_true] using this
  have hs : skipsMatch hex { m0 := tagText c [] inner, m1 := c, m2 := [], m3 := inner } = false := by
    have := getAnsi_name_ne_nil hex c false hc
    simp [skipsMatch, this, hnm.1]
  have e : "<".toList ++ c ++ ">".toList ++ inner ++ "</>".toList ++ rest
      = tagText c [] inner ++ rest := by
    simp [tagText, closer]
  rw [e, write_leading_tag hex (newRenderer shell) [] f c [] inner rest h1 (by simp)
    (closerSplit_clean inner hn hi) hr hs, newRenderer_buffer]
  simp [coloredText, hnm.1]

/-- C3, at the input of the scenario, plain dialect. -/
theorem write_single_colour_tag_witness :
    (write hexTriplet (newRenderer []) [] "white".toList
        "<lightRed>ERROR</>: build failed".toList).Buffer
      = "\x1b[37m\x1b[0m".toList ++ "\x1b[91mERROR\x1b[0m".toList
        ++ "\x1b[37m: build failed\x1b[0m".toList :=
  write_single_colour_tag hexTriplet [] "lightRed".toList "white".toList "ERROR".toList
    ": build failed".toList (by decide) (by decide) (by decide) (by decide)

/-- C3 as stated fails: at the input of the scenario the buffer starts with an
empty chunk in the ambient colour, so it is not just the two chunks of the
claim; and an inner text with a line feed is not matched at all, the whole
text is written literally. -/
theorem write_single_colour_tag_counterexample :
    (write hexTriplet (newRenderer []) [] "white".toList
        "<lightRed>ERROR</>: build failed".toList).Buffer
      ≠ Sprintf (newRenderer []).formats.single
          [.str (getAnsiFromColorString hexTriplet "lightRed".toList false), .str "ERROR".toList]
        ++ Sprintf (newRenderer []).formats.single
          [.str (getAnsiFromColorString hexTriplet "white".toList false),
            .str ": build failed".toList]
    ∧ (write hexTriplet (newRenderer []) [] "white".toList
        "<lightRed>ER\nROR</>: build failed".toList).Buffer
      = "\x1b[37m<lightRed>ER\nROR</>: build failed\x1b[0m".toList := by
  decide

/-- C4, as amended: for every tag of a text whose foreground token is empty and
whose background token is a name of the colour table, and every ambient
foreground that is neither empty nor `transparent`, `write` appends the tag's
inner text in the dual-colour template, filled with the background code of the
tag's colour first and the foreground code of the ambient foreground second. -/
theorem write_background_only_tag (hex : Str → Bool → Str) (r : Renderer)
    (bg f text b : Str) (m : Submatch)
    (hm : m ∈ FindAllStringSubmatch rex text) (h1 : m.m1 = []) (h2 : m.m2 = b)
    (hb : b ∈ colorMap.map Prod.fst) (hf : f ≠ []) (hft : f ≠ Transparent) :
    ∃ pre post, (write hex r bg f text).Buffer =
      pre ++ Sprintf r.formats.full
        [.str (getAnsiFromColorString hex b true), .str (getAnsiFromColorString hex f false),
          .str m.m3] ++ post := by
  have hn := colorMap_names b hb
  have hs : skipsMatch hex m = false := by
    have := getAnsi_name_ne_nil hex b false hb
    simp [skipsMatch, h1, h2, this, hn.1]
  obtain ⟨pre, post, hp⟩ :=
    foldl_writeMatch_mem hex bg f (FindAllStringSubmatch rex text) (r, text) m hm hs
  refine ⟨pre, post ++ coloredText hex r.formats bg f
    ((FindAllStringSubmatch rex text).foldl (writeMatch hex bg f) (r, text)).2, ?_⟩
  have hfm := (foldl_writeMatch_append hex bg f (FindAllStringSubmatch rex text) (r, text)).1
  simp only [write, writeColoredText_buffer, hp, hfm]
  have hc : coloredText hex r.formats (if m.m2 = [] then bg else m.m2)
      (if m.m1 = [] then f else m.m1) m.m3 =
      Sprintf r.formats.full
        [.str (getAnsiFromColorString hex b true), .str (getAnsiFromColorString hex f false),
          .str m.m3] := by
    simp [coloredText, h1, h2, hn.1, hn.2.1, hf, hft]
  rw [hc]
  simp

/-- C4, at the input of the scenario: `<,blue>text</>` under the ambient
foreground green gives the dual-colour template with 44 and then 32. -/
theorem write_background_only_tag_witness :
    ∃ pre post, (write hexTriplet (newRenderer []) [] "green".toList "<,blue>text</>".toList).Buffer
      = pre ++ "\x1b[44m\x1b[32mtext\x1b[0m".toList ++ post :=
  write_background_only_tag hexTriplet (newRenderer []) [] "green".toList
    "<,blue>text</>".toList "blue".toList
    { m0 := "<,blue>text</>".toList, m1 := [], m2 := "blue".toList, m3 := "text".toList }
    (by decide) rfl rfl (by decide) (by decide) (by decide)

/-- C4 as stated fails for the ambient foreground `transparent`, which is not
empty: the inner text of `<,blue>text</>` is written with the transparent
template and the foreground code of blue, and the dual-colour chunk does not
occur in the buffer. -/
theorem write_background_only_tag_counterexample :
    (write hexTriplet (newRenderer []) [] Transparent "<,blue>text</>".toList).Buffer
      = "\x1b[m\x1b[0m\x1b[34;49m\x1b[7mtext\x1b[m\x1b[0m\x1b[m\x1b[0m".toList
    ∧ ¬ (Sprintf (newRenderer []).formats.full
          [.str (getAnsiFromColorString hexTriplet "blue".toList true),
            .str (getAnsiFromColorString hexTriplet Transparent false), .str "text".toList]
        <:+: (write hexTriplet (newRenderer []) [] Transparent "<,blue>text</>".toList).Buffer) := by
  decide

/-- C5, as amended: for every non-empty ambient background `b` and every inner
text without a line feed and without the closer, the tag of
`<transparent>inner</>` is matched and not skipped, and `write` appends an
empty chunk in the ambient colours, the inner text in the transparent
template filled with the code of `b`, and another empty chunk in the ambient
colours. -/
theorem write_transparent_tag (hex : Str → Bool → Str) (shell b fg inner : Str)
    (hb : b ≠ []) (hn : '\n' ∉ inner) (hi : ¬ closer <:+: inner) :
    FindAllStringSubmatch rex ("<transparent>".toList ++ inner ++ "</>".toList)
        = [{ m0 := "<transparent>".toList ++ inner ++ "</>".toList, m1 := Transparent, m2 := [],
             m3 := inner }]
    ∧ skipsMatch hex { m0 := "<transparent>".toList ++ inner ++ "</>".toList,
                       m1 := Transparent, m2 := [], m3 := inner } = false
    ∧ (write hex (newRenderer shell) b fg
          ("<transparent>".toList ++ inner ++ "</>".toList)).Buffer
        = coloredText hex (newRenderer shell).formats b fg []
          ++ Sprintf (newRenderer shell).formats.transparent
              [.str (getAnsiFromColorString hex b false), .str inner]
          ++ coloredText hex (newRenderer shell).formats b fg [] := by
  have h1 : ∀ x ∈ Transparent, isTagTok x = true := by decide
  have e : "<transparent>".toList ++ inner ++ "</>".toList
      = tagText Transparent [] inner ++ [] := by
    simp [tagText, closer, Transparent]
  have hs : skipsMatch hex (Submatch.mk (tagText Transparent [] inner) Transparent [] inner)
      = false := by
    simp [skipsMatch, Transparent]
  have h3 := closerSplit_clean inner hn hi
  refine ⟨?_, ?_, ?_⟩
  · rw [e, findAll_leading_tag Transparent [] inner [] h1 (by simp) h3 (by simp)]
    simp
  · simp [skipsMatch, Transparent]
  · rw [e, write_leading_tag hex (newRenderer shell) b fg Transparent [] inner [] h1 (by simp)
      h3 (by simp) hs, newRenderer_buffer]
    have ht : Transparent ≠ [] := by decide
    simp [coloredText, hb, ht]

/-- C5, at the input of the scenario: ambient background red, inner text
`hi`. -/
theorem write_transparent_tag_witness :
    (write hexTriplet (newRenderer []) "red".toList "white".toList
        "<transparent>hi</>".toList).Buffer
      = "\x1b[41m\x1b[37m\x1b[0m".toList ++ "\x1b[31;49m\x1b[7mhi\x1b[m\x1b[0m".toList
        ++ "\x1b[41m\x1b[37m\x1b[0m".toList :=
  (write_transparent_tag hexTriplet [] "red".toList "white".toList "hi".toList
    (by decide) (by decide) (by decide)).2.2

/-- C5 as stated fails for an inner text with a line feed: the pattern does not
match, nothing is written with the transparent template, and the whole text is
written literally in the ambient colours. -/
theorem write_transparent_tag_counterexample :
    FindAllStringSubmatch rex "<transparent>a\nb</>".toList = []
    ∧ (write hexTriplet (newRenderer []) "red".toList "white".toList
        "<transparent>a\nb</>".toList).Buffer
      = "\x1b[41m\x1b[37m<transparent>a\nb</>\x1b[0m".toList
    ∧ ¬ (Sprintf (newRenderer []).formats.transparent
          [.str (getAnsiFromColorString hexTriplet "red".toList false), .str "a\nb".toList]
        <:+: (write hexTriplet (newRenderer []) "red".toList "white".toList
          "<transparent>a\nb</>".toList).Buffer) := by
  decide

/-- C6 (ambient inheritance): within one call of `write` the buffer grows by,
for each tag that is not skipped and in their order, a piece of text in the
ambient colours followed by the tag's inner text in the tag's colours, where an
omitted side is the ambient colour of this call (not a colour of an earlier
tag), and at last by a piece of text in the ambient colours; when no tag is
skipped these pieces are the text before the first tag, the texts between the
tags and the text behind the last tag, as `emissions` lists them. -/
theorem write_ambient_inheritance (hex : Str → Bool → Str) (r : Renderer) (bg fg text : Str) :
    (∃ (pieces : List Str) (last : Str),
      pieces.length =
        ((FindAllStringSubmatch rex text).filter (fun m => !skipsMatch hex m)).length ∧
      (write hex r bg fg text).Buffer = r.Buffer ++
        (List.zipWith
          (fun p m => coloredText hex r.formats bg fg p ++
            coloredText hex r.formats (if m.m2 = [] then bg else m.m2)
              (if m.m1 = [] then fg else m.m1) m.m3)
          pieces ((FindAllStringSubmatch rex text).filter (fun m => !skipsMatch hex m))).flatten
        ++ coloredText hex r.formats bg fg last)
    ∧ ((∀ m ∈ FindAllStringSubmatch rex text, skipsMatch hex m = false) →
      (write hex r bg fg text).Buffer = r.Buffer ++
        ((emissions bg fg text).map
          (fun e => coloredText hex r.formats e.1 e.2.1 e.2.2)).flatten) := by
  refine ⟨?_, write_emissions hex r bg fg text⟩
  obtain ⟨pieces, h1, h2, _, h4⟩ :=
    foldl_writeMatch_trace hex bg fg (FindAllStringSubmatch rex text) (r, text)
  refine ⟨pieces, ((FindAllStringSubmatch rex text).foldl (writeMatch hex bg fg) (r, text)).2,
    h1, ?_⟩
  simp only [write, writeColoredText_buffer, h4, h2]

/-- C6, at the input of the claim: in `<red,blue>a</><,green>b</>` under the
ambient foreground white the second tag is written with the foreground code 37
of white, not 31 of red, and the three pieces outside the tags (all empty) are
written in the ambient colour. -/
theorem write_ambient_inheritance_witness :
    (write hexTriplet (newRenderer []) [] "white".toList
        "<red,blue>a</><,green>b</>".toList).Buffer
      = ("\x1b[37m\x1b[0m".toList ++ "\x1b[44m\x1b[31ma\x1b[0m".toList)
        ++ ("\x1b[37m\x1b[0m".toList ++ "\x1b[42m\x1b[37mb\x1b[0m".toList)
        ++ "\x1b[37m\x1b[0m".toList :=
  ((write_ambient_inheritance hexTriplet (newRenderer []) [] "white".toList
      "<red,blue>a</><,green>b</>".toList).2 (by decide)).trans (by decide)

/-- C7 (invalid-colour passthrough): when every tag match of a text is skipped,
`write` does exactly what `writeColoredText` does with the whole text, tags
and closers included, in the ambient colours. -/
theorem write_all_skipped (hex : Str → Bool → Str) (r : Renderer) (bg fg text : Str)
    (h : ∀ m ∈ FindAllStringSubmatch rex text, skipsMatch hex m = true) :
    write hex r bg fg text = writeColoredText hex r bg fg text := by
  simp only [write, foldl_writeMatch_skipped hex bg fg _ (r, text) h]

/-- C7, at the input `<foo>x</>`: the tag is skipped and written literally. -/
theorem write_all_skipped_witness :
    (write hexTriplet (newRenderer []) [] "white".toList "<foo>x</>".toList).Buffer
      = "\x1b[37m<foo>x</>\x1b[0m".toList :=
  (congrArg Renderer.Buffer
    (write_all_skipped hexTriplet (newRenderer []) [] "white".toList "<foo>x</>".toList
      (by decide))).trans (by decide)

/-- C8 (unterminated or malformed tags): for a text without the closer `</>`,
and for any text in which the tag pattern has no match, `write` does exactly
what `writeColoredText` does with the unchanged text. -/
theorem write_no_match (hex : Str → Bool → Str) (r : Renderer) (bg fg text : Str)
    (h : ¬ closer <:+: text ∨ FindAllStringSubmatch rex text = []) :
    write hex r bg fg text = writeColoredText hex r bg fg text := by
  rcases h with h | h
  · exact write_of_no_match hex r bg fg text (findAllAux_no_closer _ text h)
  · exact write_of_no_match hex r bg fg text h

/-- C8, at an unterminated tag. -/
theorem write_no_match_witness :
    (write hexTriplet (newRenderer bash) [] "white".toList "<red>never closed".toList).Buffer
      = "\\[\x1b[37m\\]<red>never closed\\[\x1b[0m\\]".toList :=
  (congrArg Renderer.Buffer
    (write_no_match hexTriplet (newRenderer bash) [] "white".toList "<red>never closed".toList
      (Or.inl (by decide)))).trans (by decide)

/-- C9, as amended: in every dialect, for every ambient colour pair for which
`writeColoredText` writes at all (not an empty foreground with a background
that is neither empty nor `transparent`), whenever the colour library gives
only codes of the form `\d{1,4}(;\d{0,4})*` or no code, for every text without
a tag match that holds no escape or CSI character, no bell and neither marker
of the dialect, the visible width of the buffer that `write` produces on an
empty buffer is the count of the text itself. -/
theorem lenWithoutANSI_untagged (count : Str → Nat) (hex : Str → Bool → Str)
    (shell bg fg text : Str) (hhex : ∀ s b, isSgrCode (hex s b) = true)
    (hno : FindAllStringSubmatch rex text = []) (hd : ¬ dropsText bg fg)
    (hc : cleanText shell text) :
    lenWithoutANSI count (write hex (newRenderer shell) bg fg text)
        (write hex (newRenderer shell) bg fg text).Buffer
      = count text := by
  have hw := write_of_no_match hex (newRenderer shell) bg fg text hno
  have hs := stripANSI_chunks hex hhex blankRenderer shell [(bg, fg, text)]
    (by simpa using ⟨hd, hc⟩)
  simp only [List.map_cons, List.map_nil, List.flatten_cons, List.flatten_nil,
    List.append_nil] at hs
  have e : newRenderer shell = init blankRenderer shell := rfl
  rw [lenWithoutANSI, hw,
    stripANSI_congr (writeColoredText hex (newRenderer shell) bg fg text)
      (init blankRenderer shell) _ (writeColoredText_shell _ _ _ _ _)
      (writeColoredText_formats _ _ _ _ _),
    writeColoredText_buffer, newRenderer_buffer, List.nil_append, e]
  exact congrArg count hs

/-- C9, at a concrete input: zsh dialect, red background, white foreground. -/
theorem lenWithoutANSI_untagged_witness :
    lenWithoutANSI List.length
        (write hexTriplet (newRenderer zsh) "red".toList "white".toList "hello".toList)
        (write hexTriplet (newRenderer zsh) "red".toList "white".toList "hello".toList).Buffer
      = 5 :=
  lenWithoutANSI_untagged List.length hexTriplet zsh "red".toList "white".toList "hello".toList
    hexTriplet_sgr (by decide) (by decide) (by decide)

/-- C9 as stated fails, with one unit counted per character as the iterator
does for ASCII text: under an empty foreground and the background red the
untagged text `abc` is not written at all and the width is 0, not 3; and the
untagged text `ESC[1mX` is written but measured as 1, not 5, since its own
escape sequence is stripped. -/
theorem lenWithoutANSI_untagged_counterexample :
    (FindAllStringSubmatch rex "abc".toList = []
      ∧ lenWithoutANSI List.length
          (write hexTriplet (newRenderer []) "red".toList [] "abc".toList)
          (write hexTriplet (newRenderer []) "red".toList [] "abc".toList).Buffer = 0
      ∧ List.length "abc".toList = 3)
    ∧ (FindAllStringSubmatch rex "\x1b[1mX".toList = []
      ∧ lenWithoutANSI List.length
          (write hexTriplet (newRenderer []) [] "white".toList "\x1b[1mX".toList)
          (write hexTriplet (newRenderer []) [] "white".toList "\x1b[1mX".toList).Buffer = 1
      ∧ List.length "\x1b[1mX".toList = 5) := by
  decide

/-- C10, as amended: in every dialect, whenever the colour library gives only
codes of the form `\d{1,4}(;\d{0,4})*` or no code, for every text in which no
tag is skipped, whose ambient colour pair and whose tags' colour pairs all make
`writeColoredText` write (none has an empty foreground over a background that
is neither empty nor `transparent`), and which holds no escape or CSI
character, no bell and neither marker of the dialect: removing the escape
sequences and the markers from the buffer that `write` produces on an empty
buffer gives the text with every tag replaced by its inner text, in the order
of the text. -/
theorem stripANSI_write (hex : Str → Bool → Str) (shell bg fg text : Str)
    (hhex : ∀ s b, isSgrCode (hex s b) = true)
    (hskip : ∀ m ∈ FindAllStringSubmatch rex text, skipsMatch hex m = false)
    (hd : ¬ dropsText bg fg)
    (hdm : ∀ m ∈ FindAllStringSubmatch rex text,
      ¬ dropsText (if m.m2 = [] then bg else m.m2) (if m.m1 = [] then fg else m.m1))
    (hc : cleanText shell text) :
    stripANSI (write hex (newRenderer shell) bg fg text)
        (write hex (newRenderer shell) bg fg text).Buffer
      = tagsRemoved text := by
  have hes : ∀ e ∈ emissions bg fg text, ¬ dropsText e.1 e.2.1 ∧ cleanText shell e.2.2 := by
    intro e he
    constructor
    · rcases emissionsAux_colours bg fg text.length [] text (Nat.le_refl _) e he with
        h | ⟨m, hm, h⟩
      · rw [h.1, h.2]; exact hd
      · rw [h.1, h.2]; exact hdm m hm
    · exact cleanText_infix shell _ text
        (by simpa using emissionsAux_infix bg fg text.length [] text (Nat.le_refl _) e he) hc
  have hs := stripANSI_chunks hex hhex blankRenderer shell (emissions bg fg text) hes
  have ht := emissionsAux_texts bg fg text.length [] text (Nat.le_refl _)
  have e : newRenderer shell = init blankRenderer shell := rfl
  rw [stripANSI_congr (write hex (newRenderer shell) bg fg text) (init blankRenderer shell) _
      (write_shell _ _ _ _ _) (write_formats _ _ _ _ _),
    write_emissions hex (newRenderer shell) bg fg text hskip, newRenderer_buffer,
    List.nil_append, e, hs]
  simpa [emissions, tagsRemoved] using ht

/-- C10, at a concrete input with two tags, bash dialect. -/
theorem stripANSI_write_witness :
    stripANSI
        (write hexTriplet (newRenderer bash) "blue".toList "white".toList
          "a <red>b</> c <,#00ff00>d</>".toList)
        (write hexTriplet (newRenderer bash) "blue".toList "white".toList
          "a <red>b</> c <,#00ff00>d</>".toList).Buffer
      = "a b c d".toList :=
  (stripANSI_write hexTriplet bash "blue".toList "white".toList
    "a <red>b</> c <,#00ff00>d</>".toList hexTriplet_sgr (by decide) (by decide) (by decide)
    (by decide)).trans (by decide)

/-- C10 as stated fails: the skipped tag of `<foo>x</>` keeps its delimiters in
the output, and under an empty foreground and the background red the text
`abc` is not in the output at all. -/
theorem stripANSI_write_counterexample :
    (stripANSI (write hexTriplet (newRenderer []) [] "white".toList "<foo>x</>".toList)
        (write hexTriplet (newRenderer []) [] "white".toList "<foo>x</>".toList).Buffer
        = "<foo>x</>".toList
      ∧ tagsRemoved "<foo>x</>".toList = "x".toList)
    ∧ (stripANSI (write hexTriplet (newRenderer []) "red".toList [] "abc".toList)
        (write hexTriplet (newRenderer []) "red".toList [] "abc".toList).Buffer = []
      ∧ tagsRemoved "abc".toList = "abc".toList) := by
  decide

/-- C11 (dialect wrapping): in the zsh dialect with the markers percent-brace
and in the bash dialect with the markers backslash-bracket, for all codes, texts
and counts: the output of each colour template is the output of the plain
dialect with the run of escape sequences before the text and the run behind it
each enclosed in the markers, the text standing between the two enclosures;
the output of the line-change, cursor-forward, cursor-backward and title
templates and what `creset` and `clearEOL` print is the plain output, one run
of escape sequences, enclosed in the markers.  The markers in the output are
the two characters themselves, with one percent sign, for the templates that
go through `Sprintf` and for those that are printed as they are. -/
theorem dialect_wrapping (r : Renderer) (shell o c : Str)
    (h : (shell = zsh ∧ o = "%\x7b".toList ∧ c = "%\x7d".toList)
      ∨ (shell = bash ∧ o = "\\[".toList ∧ c = "\\]".toList))
    (a b t p title : Str) (n : Int) :
    (Sprintf (init r []).formats.single [.str a, .str t]
          = ("\x1b[".toList ++ a ++ "m".toList) ++ t ++ "\x1b[0m".toList
        ∧ Sprintf (init r shell).formats.single [.str a, .str t]
          = o ++ ("\x1b[".toList ++ a ++ "m".toList) ++ c ++ t ++ o ++ "\x1b[0m".toList ++ c)
      ∧ (Sprintf (init r []).formats.full [.str b, .str a, .str t]
          = ("\x1b[".toList ++ b ++ "m\x1b[".toList ++ a ++ "m".toList) ++ t ++ "\x1b[0m".toList
        ∧ Sprintf (init r shell).formats.full [.str b, .str a, .str t]
          = o ++ ("\x1b[".toList ++ b ++ "m\x1b[".toList ++ a ++ "m".toList) ++ c ++ t
              ++ o ++ "\x1b[0m".toList ++ c)
      ∧ (Sprintf (init r []).formats.transparent [.str a, .str t]
          = ("\x1b[".toList ++ a ++ ";49m\x1b[7m".toList) ++ t ++ "\x1b[m\x1b[0m".toList
        ∧ Sprintf (init r shell).formats.transparent [.str a, .str t]
          = o ++ ("\x1b[".toList ++ a ++ ";49m\x1b[7m".toList) ++ c ++ t
              ++ o ++ "\x1b[m\x1b[0m".toList ++ c)
      ∧ Sprintf (init r shell).formats.linechange [.int n, .str p]
          = o ++ Sprintf (init r []).formats.linechange [.int n, .str p] ++ c
      ∧ Sprintf (init r shell).formats.left [.int n]
          = o ++ Sprintf (init r []).formats.left [.int n] ++ c
      ∧ Sprintf (init r shell).formats.right [.int n]
          = o ++ Sprintf (init r []).formats.right [.int n] ++ c
      ∧ setConsoleTitle (init r shell) title = o ++ setConsoleTitle (init r []) title ++ c
      ∧ creset (init r shell) = o ++ creset (init r []) ++ c
      ∧ clearEOL (init r shell) = o ++ clearEOL (init r []) ++ c := by
  obtain ⟨w1, w2, w3, w4, w5, w6, w7, w8, w9⟩ := templates_wrapped r shell o c h a b t p title n
  obtain ⟨p1, p2, p3, p4, p5, p6, p7, p8, p9⟩ := templates_plain r a b t p title n
  rw [p4, p5, p6, p7, p8, p9]
  exact ⟨⟨p1, w1⟩, ⟨p2, w2⟩, ⟨p3, w3⟩, w4, w5, w6, w7, w8, w9⟩

/-- C11, at a concrete input: the title and the reset in the zsh dialect, the
first through `Printf` and the second through `Print`, both with one percent
sign before each brace. -/
theorem dialect_wrapping_witness :
    setConsoleTitle (init blankRenderer zsh) "ab".toList = "%\x7b\x1b]0;ab\x07%\x7d".toList
      ∧ creset (init blankRenderer zsh) = "%\x7b\x1b[0m%\x7d".toList :=
  have h := dialect_wrapping blankRenderer zsh "%\x7b".toList "%\x7d".toList
    (Or.inl ⟨rfl, rfl, rfl⟩) [] [] [] [] "ab".toList 0
  ⟨h.2.2.2.2.2.2.1.trans (by decide), h.2.2.2.2.2.2.2.1.trans (by decide)⟩

/-- C12 (unknown dialect): for every shell other than zsh and bash, the empty
one too, `init` gives a result, the templates are those of the plain dialect,
none with a marker, the shell is recorded, the buffer is kept, and
`lenWithoutANSI` counts what the pattern leaves, no marker being removed. -/
theorem init_unknown_shell (r : Renderer) (shell : Str) (h1 : shell ≠ zsh) (h2 : shell ≠ bash) :
    (init r shell).formats = (init r []).formats
      ∧ (init r shell).formats =
          { rANSI := rANSI,
            single := "\x1b[%sm%s\x1b[0m".toList,
            full := "\x1b[%sm\x1b[%sm%s\x1b[0m".toList,
            transparent := "\x1b[%s;49m\x1b[7m%s\x1b[m\x1b[0m".toList,
            linechange := "\x1b[%d%s".toList,
            left := "\x1b[%dC".toList,
            right := "\x1b[%dD".toList,
            title := "\x1b]0;%s\x07".toList,
            creset := "\x1b[0m".toList,
            clearOEL := "\x1b[K".toList }
      ∧ (init r shell).shell = shell
      ∧ (init r shell).Buffer = r.Buffer
      ∧ (∀ str, stripANSI (init r shell) str = ReplaceAllStringEmpty rANSI str)
      ∧ (∀ (count : Str → Nat) (str : Str),
          lenWithoutANSI count (init r shell) str = count (ReplaceAllStringEmpty rANSI str)) := by
  have hs : ∀ str, stripANSI (init r shell) str = ReplaceAllStringEmpty rANSI str := by
    intro str
    rw [stripANSI_init, unwrapMarkers_other shell _ h1 h2]
  refine ⟨?_, init_formats_other r shell h1 h2, init_shell r shell, init_buffer r shell, hs, ?_⟩
  · rw [init_formats_other r shell h1 h2, init_formats_other r [] (by decide) (by decide)]
  · intro count str
    rw [lenWithoutANSI, hs]

set_option maxRecDepth 100000 in
/-- C12, at a concrete input: the shell `fish` gets the plain single-colour
template, and the markers of zsh and bash in a text are counted. -/
theorem init_unknown_shell_witness :
    "fish".toList ≠ zsh ∧ "fish".toList ≠ bash
      ∧ (init blankRenderer "fish".toList).formats.single = "\x1b[%sm%s\x1b[0m".toList
      ∧ lenWithoutANSI List.length (init blankRenderer "fish".toList)
          "%\x7ba%\x7d\\[b\\]".toList = 10 := by
  have h := init_unknown_shell blankRenderer "fish".toList (by decide) (by decide)
  refine ⟨by decide, by decide, by rw [h.2.1], ?_⟩
  rw [h.2.2.2.2.2]
  decide

/-- C13, as amended: the colour table holds 17 names, the 16 colour names and
`default`.  For every name of the table both lookups succeed, the two codes
differ, and the background code is the decimal writing of the foreground
number plus 10; the foreground number is in 30..37 or 90..97 for every name
other than `default` and is 39 for `default`.  For every other name both
lookups fail.  Name by name the codes are those of the published table of
colour numbers: black 30 and 40, red 31 and 41, green 32 and 42, yellow 33 and
43, blue 34 and 44, magenta 35 and 45, cyan 36 and 46, white 37 and 47, default
39 and 49, and the bright colours from darkGray 90 and 100 to lightWhite 97 and
107, the first number for the foreground and the second for the background. -/
theorem colorMap_table :
    colorMap.map Prod.fst
        = ["black".toList, "red".toList, "green".toList, "yellow".toList, "blue".toList,
            "magenta".toList, "cyan".toList, "white".toList, "default".toList,
            "darkGray".toList, "lightRed".toList, "lightGreen".toList, "lightYellow".toList,
            "lightBlue".toList, "lightMagenta".toList, "lightCyan".toList, "lightWhite".toList]
      ∧ (colorMap.map Prod.fst).Nodup
      ∧ (colorMap.map Prod.fst).length = 17
      ∧ (∀ name ∈ colorMap.map Prod.fst, ∃ nf : Nat,
          getColorFromName name false = some (Nat.toDigits 10 nf)
            ∧ getColorFromName name true = some (Nat.toDigits 10 (nf + 10))
            ∧ getColorFromName name false ≠ getColorFromName name true
            ∧ (name ≠ "default".toList → (30 ≤ nf ∧ nf ≤ 37) ∨ (90 ≤ nf ∧ nf ≤ 97))
            ∧ (name = "default".toList → nf = 39))
      ∧ (∀ (name : Str) (b : Bool), name ∉ colorMap.map Prod.fst →
          getColorFromName name b = none)
      ∧ (∀ e ∈ [("black".toList, 30, 40), ("red".toList, 31, 41), ("green".toList, 32, 42),
            ("yellow".toList, 33, 43), ("blue".toList, 34, 44), ("magenta".toList, 35, 45),
            ("cyan".toList, 36, 46), ("white".toList, 37, 47), ("default".toList, 39, 49),
            ("darkGray".toList, 90, 100), ("lightRed".toList, 91, 101),
            ("lightGreen".toList, 92, 102), ("lightYellow".toList, 93, 103),
            ("lightBlue".toList, 94, 104), ("lightMagenta".toList, 95, 105),
            ("lightCyan".toList, 96, 106), ("lightWhite".toList, 97, 107)],
          getColorFromName e.1 false = some (Nat.toDigits 10 e.2.1)
            ∧ getColorFromName e.1 true = some (Nat.toDigits 10 e.2.2)) := by
  refine ⟨by decide, by decide, by decide, ?_, getColorFromName_none, by decide⟩
  intro name hn
  obtain ⟨nf, _, h1, h2, h3⟩ := colorMap_numbers name hn
  refine ⟨nf, h1, h2, ?_, ?_, ?_⟩
  · have : ∀ n ∈ colorMap.map Prod.fst,
        getColorFromName n false ≠ getColorFromName n true := by decide
    exact this name hn
  · intro hne
    rcases h3 with h | h | h
    · exact Or.inl h
    · exact Or.inr h
    · exact absurd h.1 hne
  · intro he
    subst he
    have hd : getColorFromName "default".toList false = some "39".toList := by decide
    rw [hd] at h1
    have h5 : "39".toList = Nat.toDigits 10 nf := by injection h1
    rcases h3 with h | h | h
    · have : ∀ m ∈ List.range 38, 30 ≤ m → Nat.toDigits 10 m ≠ "39".toList := by decide
      exact absurd h5.symm (this nf (by simp; omega) h.1)
    · have : ∀ m ∈ List.range 98, 90 ≤ m → Nat.toDigits 10 m ≠ "39".toList := by decide
      exact absurd h5.symm (this nf (by simp; omega) h.1)
    · exact h.2

/-- C13 as stated fails: the table has 17 names, `default` with the codes 39
and 49 among them, so no list of 16 names holds exactly the names for which
the lookup succeeds. -/
theorem colorMap_table_counterexample :
    (colorMap.map Prod.fst).length = 17
      ∧ "default".toList ∈ colorMap.map Prod.fst
      ∧ getColorFromName "default".toList false = some "39".toList
      ∧ getColorFromName "default".toList true = some "49".toList
      ∧ ¬ ∃ names : List Str, names.length = 16
          ∧ ∀ s, (getColorFromName s false).isSome = true ↔ s ∈ names := by
  refine ⟨by decide, by decide, by decide, by decide, ?_⟩
  rintro ⟨names, hl, h⟩
  have hsub : colorMap.map Prod.fst ⊆ names := by
    intro s hs
    exact (h s).mp (colorMap_names s hs).2.2.2.1
  have hnd : (colorMap.map Prod.fst).Nodup := by decide
  have := (hnd.subperm hsub).length_le
  have h17 : (colorMap.map Prod.fst).length = 17 := by decide
  omega

/-- C14 (resolution is total): with the hex branch as the spec describes it,
the token `#ffffff` resolves to a code that is not empty, the truecolor code of
white, and `#zzzzzz` to the empty string, for the foreground and for the
background; with any hex branch, a name of the colour table resolves to its
table code, which is not empty, whatever the hex branch would give, and every
other token resolves to what the hex branch gives. -/
theorem getAnsi_total :
    (∀ b, getAnsiFromColorString hexTriplet "#ffffff".toList b ≠ [])
      ∧ getAnsiFromColorString hexTriplet "#ffffff".toList false = "38;2;255;255;255".toList
      ∧ getAnsiFromColorString hexTriplet "#ffffff".toList true = "48;2;255;255;255".toList
      ∧ (∀ b, getAnsiFromColorString hexTriplet "#zzzzzz".toList b = [])
      ∧ (∀ (hex : Str → Bool → Str) (name : Str) (b : Bool), name ∈ colorMap.map Prod.fst →
          getColorFromName name b = some (getAnsiFromColorString hex name b)
            ∧ getAnsiFromColorString hex name b ≠ [])
      ∧ (∀ (hex : Str → Bool → Str) (s : Str) (b : Bool), s ∉ colorMap.map Prod.fst →
          getAnsiFromColorString hex s b = hex s b) := by
  refine ⟨by decide, by decide, by decide, by decide, ?_, ?_⟩
  · intro hex name b hn
    refine ⟨?_, getAnsi_name_ne_nil hex name b hn⟩
    have h := colorMap_names name hn
    cases b with
    | false =>
      cases hq : getColorFromName name false with
      | none => rw [hq] at h; simp at h
      | some v => simp [getAnsiFromColorString, hq]
    | true =>
      cases hq : getColorFromName name true with
      | none => rw [hq] at h; simp at h
      | some v => simp [getAnsiFromColorString, hq]
  · intro hex s b hs
    simp [getAnsiFromColorString, getColorFromName_none s b hs]

/-- C15 (cursor for a right write): in every dialect, for every text and every
offset, the result is the cursor-backward template filled with the difference
of `lenWithoutANSI(text)` and the offset taken in `int`: negating the offset
and adding gives the same as subtracting, also where the operations wrap
around; where the exact difference is a value of `int`, the template is filled
with the exact difference. -/
theorem setCursorForRightWrite_difference (count : Str → Nat) (r : Renderer) (text : Str)
    (offset : Int) :
    setCursorForRightWrite count r text offset
        = Sprintf r.formats.right [.int (wrapInt ((lenWithoutANSI count r text : Int) - offset))]
      ∧ (isInt ((lenWithoutANSI count r text : Int) - offset) →
          setCursorForRightWrite count r text offset
            = Sprintf r.formats.right [.int ((lenWithoutANSI count r text : Int) - offset)]) := by
  have h : setCursorForRightWrite count r text offset
      = Sprintf r.formats.right [.int (wrapInt ((lenWithoutANSI count r text : Int) - offset))] := by
    simp only [setCursorForRightWrite, wrapInt_add_neg]
  refine ⟨h, fun hi => ?_⟩
  rw [h, wrapInt_of_isInt _ hi]

/-- C15, at the input of the claim: `hello` and the offset 2 in the plain
dialect, one unit counted per character. -/
theorem setCursorForRightWrite_difference_witness :
    isInt ((lenWithoutANSI List.length (newRenderer []) "hello".toList : Int) - 2)
      ∧ setCursorForRightWrite List.length (newRenderer []) "hello".toList 2
          = "\x1b[3D".toList := by
  have h := (setCursorForRightWrite_difference List.length (newRenderer []) "hello".toList 2).2
  have hl : lenWithoutANSI List.length (newRenderer []) "hello".toList = 5 := by decide
  rw [hl] at h ⊢
  exact ⟨by decide, (h (by decide)).trans (by decide)⟩

/-- C16 at the failing input: for the least `int` the negation wraps around to
the same negative number, so `changeLine` fills the template with a negative
count before the letter `F`, not with the absolute value; at 3 and at -3 the
results are those of the claim. -/
theorem changeLine_minInt :
    isInt minInt ∧ minInt < 0
      ∧ changeLine (newRenderer []) minInt = "\x1b[-9223372036854775808F".toList
      ∧ changeLine (newRenderer []) minInt
          ≠ Sprintf (newRenderer []).formats.linechange
              [.int (minInt.natAbs : Int), .str "F".toList]
      ∧ changeLine (newRenderer []) 3 = "\x1b[3B".toList
      ∧ changeLine (newRenderer []) (-3) = "\x1b[3F".toList := by
  decide

/-- C17 (buffer discipline): `write` only appends, the buffer before the call
is a prefix of the buffer after it, and it keeps the shell and the templates;
`string` gives the content of the buffer; after `reset` it gives the empty
string, also after a `write`; `reset` keeps the shell and the templates. -/
theorem buffer_discipline (hex : Str → Bool → Str) (r : Renderer) (bg fg text : Str) :
    r.Buffer <+: (write hex r bg fg text).Buffer
      ∧ (write hex r bg fg text).shell = r.shell
      ∧ (write hex r bg fg text).formats = r.formats
      ∧ string r = r.Buffer
      ∧ string (reset r) = []
      ∧ string (reset (write hex r bg fg text)) = []
      ∧ (reset r).shell = r.shell ∧ (reset r).formats = r.formats :=
  ⟨write_appends hex r bg fg text, write_shell hex r bg fg text,
    write_formats hex r bg fg text, rfl, rfl, rfl, rfl, rfl⟩

/-- C18 (zero width of the colour wrappers): in every dialect, whenever the
colour library gives only codes of the form of a colour sequence or no code
and the iterator counts one unit per character of an ASCII text, for every
colour pair for which `writeColoredText` writes a chunk and every ASCII text
without escape character, without bell and without a marker character of the
dialect: the pattern takes from the chunk exactly the colour and the reset
sequences and leaves the markers and the text, the removal of the markers
leaves the text, and `lenWithoutANSI` of the chunk is the length of the
text. -/
theorem lenWithoutANSI_chunk (count : Str → Nat) (hex : Str → Bool → Str)
    (hcount : ∀ s : Str, (∀ x ∈ s, x.toNat < 128) → count s = s.length)
    (hhex : ∀ s b, isSgrCode (hex s b) = true)
    (shell bg fg text : Str) (hd : ¬ dropsText bg fg)
    (hascii : ∀ x ∈ text, x.toNat < 128)
    (hesc : ∀ x ∈ text, x ≠ ESC ∧ x ≠ BEL)
    (hz : shell = zsh → ∀ x ∈ text, x ≠ '%' ∧ x ≠ '\x7b' ∧ x ≠ '\x7d')
    (hb : shell = bash → ∀ x ∈ text, x ≠ '\\' ∧ x ≠ '[' ∧ x ≠ ']') :
    ReplaceAllStringEmpty (newRenderer shell).formats.rANSI
          (writeColoredText hex (newRenderer shell) bg fg text).Buffer
        = wrapOpen shell ++ wrapClose shell ++ text ++ wrapOpen shell ++ wrapClose shell
      ∧ unwrapMarkers shell
          (wrapOpen shell ++ wrapClose shell ++ text ++ wrapOpen shell ++ wrapClose shell) = text
      ∧ lenWithoutANSI count (newRenderer shell)
          (writeColoredText hex (newRenderer shell) bg fg text).Buffer = text.length := by
  have hc := cleanText_of_chars shell text hascii hesc hz hb
  have e : newRenderer shell = init blankRenderer shell := rfl
  have hbuf : (writeColoredText hex (newRenderer shell) bg fg text).Buffer
      = coloredText hex (init blankRenderer shell).formats bg fg text := by
    rw [writeColoredText_buffer, newRenderer_buffer, List.nil_append, e]
  have h1 := replaceAll_coloredText hex hhex blankRenderer shell bg fg text [] hd
    (fun x hx => (hc.1 x hx).1) (fun hm => (hc.1 _ hm).2 rfl) (by simp)
  have h0 : ReplaceAllStringEmpty rANSI [] = [] := by decide
  have h2 := unwrapMarkers_chunk shell text [] hc
  rw [unwrapMarkers_nil] at h2
  simp only [List.append_nil, h0] at h1 h2
  have h3 : unwrapMarkers shell
      (wrapOpen shell ++ wrapClose shell ++ text ++ wrapOpen shell ++ wrapClose shell) = text := by
    simpa only [List.append_assoc] using h2
  have h4 : ReplaceAllStringEmpty (newRenderer shell).formats.rANSI
        (writeColoredText hex (newRenderer shell) bg fg text).Buffer
      = wrapOpen shell ++ wrapClose shell ++ text ++ wrapOpen shell ++ wrapClose shell := by
    rw [hbuf, e, init_rANSI, h1]; simp only [List.append_assoc]
  refine ⟨h4, h3, ?_⟩
  rw [lenWithoutANSI, stripANSI, h4, e, init_shell, h3]
  exact hcount text hascii

/-- C18, at a concrete input: zsh dialect, red background, a hex foreground. -/
theorem lenWithoutANSI_chunk_witness :
    lenWithoutANSI List.length (newRenderer zsh)
        (writeColoredText hexTriplet (newRenderer zsh)
          "red".toList "#ffffff".toList "hello world".toList).Buffer = 11 :=
  (lenWithoutANSI_chunk List.length hexTriplet (fun _ _ => rfl) hexTriplet_sgr zsh
    "red".toList "#ffffff".toList "hello world".toList (by decide) (by decide) (by decide)
    (by decide) (by decide)).2.2

/-- C19 (substitution without offsets): for every text none of whose tag
matches is skipped, with the rounds of the loop read off the text from left to
right (the text since the previous match, the match, the text behind it): the
matches are those of the rounds; the working text before the first round is
the text and after each round the text behind its match; the working text
before each round is the text since the previous match, the match and the
text behind it, and its part before the first occurrence of the match is the
text since the previous match, so the first occurrence is the match itself;
`write` appends, for each round, a chunk of the text since the previous match
in the ambient colours and a chunk of the inner text in the colours of the
tag, and at last a chunk of the text behind the last match in the ambient
colours; the texts of the chunks put together are the text with the
delimiters of every tag removed. -/
theorem write_offset_free (hex : Str → Bool → Str) (r : Renderer) (bg fg text : Str)
    (hskip : ∀ m ∈ FindAllStringSubmatch rex text, skipsMatch hex m = false) :
    FindAllStringSubmatch rex text = (rounds text).map (fun e => e.2.1)
      ∧ (List.scanl (writeMatch hex bg fg) (r, text) (FindAllStringSubmatch rex text)).map
            Prod.snd
          = text :: (rounds text).map (fun e => e.2.2)
      ∧ (rounds text).map (fun e => e.1 ++ e.2.1.m0 ++ e.2.2)
          = (text :: (rounds text).map (fun e => e.2.2)).dropLast
      ∧ (∀ e ∈ rounds text, splitHead (e.1 ++ e.2.1.m0 ++ e.2.2) e.2.1.m0 = e.1)
      ∧ emissions bg fg text
          = (rounds text).flatMap (fun e =>
                [(bg, fg, e.1),
                  (if e.2.1.m2 = [] then bg else e.2.1.m2,
                    if e.2.1.m1 = [] then fg else e.2.1.m1, e.2.1.m3)])
              ++ [(bg, fg, ((rounds text).map (fun e => e.2.2)).getLastD text)]
      ∧ (write hex r bg fg text).Buffer = r.Buffer ++
          ((emissions bg fg text).map
            (fun e => coloredText hex r.formats e.1 e.2.1 e.2.2)).flatten
      ∧ ((emissions bg fg text).map (fun e => e.2.2)).flatten = tagsRemoved text := by
  obtain ⟨h1, h2, h3, h4⟩ := scanl_writeMatch_rounds hex bg fg text.length [] text r
    (Nat.le_refl _) (fun u hu hsuf => absurd (List.suffix_nil.mp hsuf) hu) hskip
  have h5 := emissionsAux_rounds bg fg text.length [] text (Nat.le_refl _)
  have h6 := emissionsAux_texts bg fg text.length [] text (Nat.le_refl _)
  rw [List.nil_append] at h2 h4 h5 h6
  exact ⟨h1, h2, h4, h3, h5, write_emissions hex r bg fg text hskip, h6⟩

set_option maxRecDepth 1000000 in
/-- C19, at a concrete input: two tags with the same inner text in the plain
dialect under a white foreground. -/
theorem write_offset_free_witness :
    (∀ m ∈ FindAllStringSubmatch rex "a<red>b</>c<,blue>b</>".toList,
        skipsMatch hexTriplet m = false)
      ∧ rounds "a<red>b</>c<,blue>b</>".toList
          = [("a".toList,
                { m0 := "<red>b</>".toList, m1 := "red".toList, m2 := [], m3 := "b".toList },
                "c<,blue>b</>".toList),
              ("c".toList,
                { m0 := "<,blue>b</>".toList, m1 := [], m2 := "blue".toList, m3 := "b".toList },
                [])]
      ∧ (write hexTriplet (newRenderer []) [] "white".toList
            "a<red>b</>c<,blue>b</>".toList).Buffer
          = ("\x1b[37ma\x1b[0m".toList ++ "\x1b[31mb\x1b[0m".toList ++ "\x1b[37mc\x1b[0m".toList
              ++ "\x1b[44m\x1b[37mb\x1b[0m".toList ++ "\x1b[37m\x1b[0m".toList)
      ∧ tagsRemoved "a<red>b</>c<,blue>b</>".toList = "abcb".toList :=
  ⟨by decide, by decide,
    (write_offset_free hexTriplet (newRenderer []) [] "white".toList
      "a<red>b</>c<,blue>b</>".toList (by decide)).2.2.2.2.2.1.trans (by decide),
    by decide⟩

/-- C20 (dropped text): for every text, under an empty foreground and a
background that is neither empty nor `transparent` the chunk of
`writeColoredText` is the empty string and the renderer stays as it is; so
`write` under these colours leaves the renderer, and with it the buffer, as it
is for a text without a tag match, and the text is lost. -/
theorem write_dropped_text (hex : Str → Bool → Str) (r : Renderer) (bg text : Str)
    (hbg : bg ≠ []) (hbt : bg ≠ Transparent) :
    coloredText hex r.formats bg [] text = []
      ∧ writeColoredText hex r bg [] text = r
      ∧ (FindAllStringSubmatch rex text = [] → write hex r bg [] text = r) := by
  have h := coloredText_dropped hex r.formats bg text hbg hbt
  have h2 : writeColoredText hex r bg [] text = r := by
    simp [writeColoredText, h]
  exact ⟨h, h2, fun hm => by rw [write_of_no_match hex r bg [] text hm, h2]⟩

/-- C20, at a concrete input: `hello` on a red background without a
foreground in the zsh dialect. -/
theorem write_dropped_text_witness :
    "red".toList ≠ [] ∧ "red".toList ≠ Transparent
      ∧ FindAllStringSubmatch rex "hello".toList = []
      ∧ write hexTriplet (newRenderer zsh) "red".toList [] "hello".toList = newRenderer zsh :=
  ⟨by decide, by decide, by decide,
    (write_dropped_text hexTriplet (newRenderer zsh) "red".toList "hello".toList
      (by decide) (by decide)).2.2 (by decide)⟩

end GoMyPosh
